import Mathlib

/-!
Pitch-correction pipeline of `src/utils/audioUtils.js`

A shallow embedding of `analyzePitch`, `simplePitchShift`, `applyWaveformTransformation`
and `createAudioBlob`, followed by the properties established for them.

Modelling conventions.

* Numbers are exact rationals, with `Infinity`, `-Infinity` and `NaN` beside them (`JSNum`)
  where the program can produce them. The two IEEE zeros are identified; every zero divisor
  of the program is a `+0`.
* Rounding is modelled where it decides a length, an index, a branch or an integer written
  out: every store into a `Float32Array` rounds to the nearest float32 and overflows to an
  infinity (`toFloat32`); the quotient and the product that `simplePitchShift` passes to
  `Math.floor`, and the product `createAudioBlob` passes to `setInt16`, round to the nearest
  double (`toDouble`). The remaining double operations (sums and products of samples, the
  curve interpolation, the segment count) are exact, and decimal literals are the decimals
  written.
* `Math.log2` and `Math.pow` are functions of the host, which ECMAScript leaves
  implementation-approximated on finite arguments. Their finite part is a parameter of
  `HostMath`; their values at `NaN`, the infinities and non-positive arguments are fixed
  by ECMAScript and are written out in `mathLog2` and `mathPow2`.
* The host also limits the number of arguments a call can pass (a spread `f(...array)` of a
  longer array throws a `RangeError`) and the size of a buffer it allocates. These limits
  are parameters of `HostMath`.
* An exception inside a `try` block becomes `none` (the `catch` returns `null`).
* `null` and `undefined` arguments are excluded by the types.
-/

namespace AudioUtils

/-- A JavaScript number: finite, `Infinity`, `-Infinity` or `NaN`. -/
inductive JSNum where
  | fin (q : ℚ)
  | pinf
  | ninf
  | nan
  deriving DecidableEq

namespace JSNum

/-- Unary minus. -/
def neg : JSNum → JSNum
  | fin a => fin (-a)
  | pinf => ninf
  | ninf => pinf
  | nan => nan

/-- The `+` of JavaScript numbers. -/
def add : JSNum → JSNum → JSNum
  | fin a, fin b => fin (a + b)
  | nan, _ => nan
  | _, nan => nan
  | pinf, ninf => nan
  | ninf, pinf => nan
  | pinf, _ => pinf
  | ninf, _ => ninf
  | fin _, pinf => pinf
  | fin _, ninf => ninf

/-- The `-` of JavaScript numbers. -/
def sub (a b : JSNum) : JSNum := add a (neg b)

/-- An infinity of the given sign (`true` is positive). -/
def inf (positive : Bool) : JSNum := if positive then pinf else ninf

/-- The `*` of JavaScript numbers. -/
def mul : JSNum → JSNum → JSNum
  | fin a, fin b => fin (a * b)
  | nan, _ => nan
  | _, nan => nan
  | pinf, pinf => pinf
  | ninf, ninf => pinf
  | pinf, ninf => ninf
  | ninf, pinf => ninf
  | pinf, fin b => if b = 0 then nan else inf (decide (0 < b))
  | ninf, fin b => if b = 0 then nan else inf (decide (b < 0))
  | fin a, pinf => if a = 0 then nan else inf (decide (0 < a))
  | fin a, ninf => if a = 0 then nan else inf (decide (a < 0))

/-- The `/` of JavaScript numbers; a zero divisor is `+0`. -/
def div : JSNum → JSNum → JSNum
  | fin a, fin b =>
    if b = 0 then (if a = 0 then nan else inf (decide (0 < a))) else fin (a / b)
  | nan, _ => nan
  | _, nan => nan
  | fin _, pinf => fin 0
  | fin _, ninf => fin 0
  | pinf, fin b => inf (decide (0 ≤ b))
  | ninf, fin b => inf (decide (b < 0))
  | pinf, pinf => nan
  | pinf, ninf => nan
  | ninf, pinf => nan
  | ninf, ninf => nan

/-- The function `Math.floor`. -/
def floor : JSNum → JSNum
  | fin a => fin (⌊a⌋ : ℤ)
  | x => x

/-- The function `Math.abs`. -/
def abs : JSNum → JSNum
  | fin a => fin |a|
  | pinf => pinf
  | ninf => pinf
  | nan => nan

/-- The function `Math.min` of two arguments. -/
def min : JSNum → JSNum → JSNum
  | nan, _ => nan
  | _, nan => nan
  | ninf, _ => ninf
  | _, ninf => ninf
  | pinf, b => b
  | a, pinf => a
  | fin a, fin b => fin (Min.min a b)

/-- The function `Math.max` of two arguments. -/
def max : JSNum → JSNum → JSNum
  | nan, _ => nan
  | _, nan => nan
  | pinf, _ => pinf
  | _, pinf => pinf
  | ninf, b => b
  | a, ninf => a
  | fin a, fin b => fin (Max.max a b)

/-- The comparison `a > 0`. -/
def isPositive : JSNum → Bool
  | fin a => decide (0 < a)
  | pinf => true
  | _ => false

/-- The comparison `a > b` for a finite `b`. -/
def exceeds : JSNum → ℚ → Bool
  | fin a, b => decide (b < a)
  | pinf, _ => true
  | _, _ => false

/-- The comparison `a >= 0`. -/
def isNonneg : JSNum → Bool
  | fin a => decide (0 ≤ a)
  | pinf => true
  | _ => false

/-- The expression `a || 0`: `NaN` and `0` are falsy. -/
def orZero : JSNum → JSNum
  | nan => fin 0
  | x => x

end JSNum

open JSNum

/-- The integer nearest to `q`, a tie going to the even one. -/
def roundHalfEven (q : ℚ) : ℤ :=
  if q - ⌊q⌋ < 1 / 2 then ⌊q⌋
  else if 1 / 2 < q - ⌊q⌋ then ⌊q⌋ + 1
  else if ⌊q⌋ % 2 = 0 then ⌊q⌋ else ⌊q⌋ + 1

/-- The exponent of the unit in the last place of `x` in a binary format with `precision`
significant bits whose least exponent (that of the subnormal numbers) is `emin`. -/
def ulpExponent (precision : ℕ) (emin : ℤ) (x : ℚ) : ℤ :=
  Max.max (Int.log 2 |x| - ((precision : ℤ) - 1)) emin

/-- Rounding to the nearest number of a binary format, ties to even, with the exponent
unbounded above (overflow is decided by the caller). -/
def roundBinary (precision : ℕ) (emin : ℤ) (x : ℚ) : ℚ :=
  roundHalfEven (x / (2 : ℚ) ^ ulpExponent precision emin x) *
    (2 : ℚ) ^ ulpExponent precision emin x

/-- The double nearest to `x` (binary64: 53 significant bits, least exponent `-1074`).
Overflow to an infinity, beyond `1.79e308`, is not modelled. -/
def toDouble (x : ℚ) : ℚ := roundBinary 53 (-1074) x

/-- The largest finite float32. -/
def maxFloat32 : ℚ := 2 ^ 128 - 2 ^ 104

/-- The value a `Float32Array` keeps of a finite number (binary32: 24 significant bits,
least exponent `-149`): the nearest float32, or an infinity past the largest one. -/
def toFloat32 (x : ℚ) : JSNum :=
  if |roundBinary 24 (-149) x| ≤ maxFloat32 then fin (roundBinary 24 (-149) x)
  else inf (decide (0 < x))

/-- The value a `Float32Array` keeps of a number stored into it. -/
def float32Store : JSNum → JSNum
  | fin q => toFloat32 q
  | x => x

/-- The result of a double operation, rounded to the nearest double. -/
def roundDouble : JSNum → JSNum
  | fin q => fin (toDouble q)
  | x => x

/-- The host: the finite part of `Math.log2` (on positive arguments) and of
`Math.pow(2, ·)`, the greatest number of arguments a call can pass, the greatest length of a
typed array it allocates and the greatest byte length of an `ArrayBuffer` it allocates. Every
engine in use passes 65535 arguments and allocates typed arrays of 2^30 - 1 elements;
ECMAScript allows no length above 2^53 - 1. -/
structure HostMath where
  log2 : ℚ → ℚ
  pow2 : ℚ → ℚ
  maxArguments : ℕ
  maxArrayLength : ℕ
  maxByteLength : ℕ
  maxArguments_ge : 65535 ≤ maxArguments
  maxArrayLength_ge : 1073741823 ≤ maxArrayLength
  maxArrayLength_le : maxArrayLength ≤ 9007199254740991

/-- The function `Math.log2`. -/
def mathLog2 (m : HostMath) : JSNum → JSNum
  | fin q => if 0 < q then fin (m.log2 q) else if q = 0 then ninf else nan
  | pinf => pinf
  | ninf => nan
  | nan => nan

/-- The function `Math.pow(2, ·)`. -/
def mathPow2 (m : HostMath) : JSNum → JSNum
  | fin q => fin (m.pow2 q)
  | pinf => pinf
  | ninf => fin 0
  | nan => nan

/-- `Math.max(...values)` of finite values: the maximum, starting from `-Infinity`. -/
def mathMax (values : List ℚ) : JSNum :=
  values.foldl (fun acc v => JSNum.max acc (fin v)) ninf

/-- `Math.min(...values)` of finite values: the minimum, starting from `Infinity`. -/
def mathMin (values : List ℚ) : JSNum :=
  values.foldl (fun acc v => JSNum.min acc (fin v)) pinf

/-- `Math.max(...values)` of the elements of a `Float32Array`. -/
def mathMaxFloat32 (values : List JSNum) : JSNum :=
  values.foldl JSNum.max ninf

/-- The expression `array[index] || 0` for an integer index into an array of finite
numbers: the element, or `0` when the read is `undefined`. -/
def readOr0 (array : List ℚ) (index : ℤ) : ℚ :=
  if index < 0 then 0 else array.getD index.toNat 0

/-- The length `new Float32Array(length)` allocates; `none` is its `RangeError`, for a
negative or infinite length and for one the host does not allocate. -/
def float32ArrayLength (m : HostMath) : JSNum → Option ℕ
  | fin q => if q ≤ -1 then none else if ⌊q⌋₊ ≤ m.maxArrayLength then some ⌊q⌋₊ else none
  | nan => some 0
  | pinf => none
  | ninf => none

/-- The inner loop of `analyzePitch`: the sum of `audioSegment[i] * audioSegment[i + lag]`
for `i < audioSegment.length - lag`. -/
def correlationSum (audioSegment : List ℚ) (lag : ℕ) : ℚ :=
  (List.range (audioSegment.length - lag)).foldl
    (fun sum i => sum + audioSegment.getD i 0 * audioSegment.getD (i + lag) 0) 0

/-- The array `correlation` of `analyzePitch`: one sum per lag in `[minLag, maxLag)`. -/
def correlationArray (audioSegment : List ℚ) (minLag maxLag : ℕ) : List ℚ :=
  (List.range' minLag (maxLag - minLag)).map (correlationSum audioSegment)

/-- The peak search of `analyzePitch`: the pair `(maxCorrelation, bestLag)`. -/
def peakSearch (correlation : List ℚ) (minLag : ℕ) : ℚ × ℕ :=
  (List.range correlation.length).foldl
    (fun st i =>
      if correlation.getD i 0 > st.1 then (correlation.getD i 0, minLag + i) else st)
    (0, minLag)

/-- The function `analyzePitch`, for a sample rate that is not negative. -/
def analyzePitch (m : HostMath) (audioSegment : List ℚ) (sampleRate : ℚ) : JSNum :=
  if audioSegment.length = 0 then fin 4
  else
    let maxLag := ⌊sampleRate / 50⌋₊
    let minLag := ⌊sampleRate / 2000⌋₊
    let correlation := correlationArray audioSegment minLag maxLag
    let bestLag := (peakSearch correlation minLag).2
    let frequency := JSNum.div (fin sampleRate) (fin bestLag)
    let octave := JSNum.add (mathLog2 m (JSNum.div frequency (fin 440))) (fin 4)
    JSNum.max (fin 0) (JSNum.min (fin 8) octave)

/-- One output sample of `simplePitchShift`, as the `Float32Array` keeps it. -/
def shiftSample (audioData : List ℚ) (pitchRatio : ℚ) (i : ℕ) : JSNum :=
  let sourceIndex := toDouble ((i : ℚ) * pitchRatio)
  let sourceIndexInt := ⌊sourceIndex⌋
  let sourceIndexFrac := sourceIndex - sourceIndexInt
  let sample1 := readOr0 audioData sourceIndexInt
  let sample2 := readOr0 audioData (sourceIndexInt + 1)
  toFloat32 (sample1 * (1 - sourceIndexFrac) + sample2 * sourceIndexFrac)

/-- The function `simplePitchShift`; `none` when the allocation of `output` throws. The loop
body runs only for a finite ratio (otherwise `outputLength` is `0`). -/
def simplePitchShift (m : HostMath) (audioData : List ℚ) (pitchRatio : JSNum) :
    Option (List JSNum) :=
  let outputLength :=
    JSNum.floor (roundDouble (JSNum.div (fin audioData.length) pitchRatio))
  match float32ArrayLength m outputLength with
  | none => none
  | some n =>
    some ((List.range n).map fun i =>
      match pitchRatio with
      | fin r => shiftSample audioData r i
      | _ => fin 0)

/-- The reference curve: the object with the arrays `x` and `y`. -/
structure WaveformData where
  x : List ℚ
  y : List ℚ

/-- The property `waveformData.length`: the object has none, so it reads `undefined`. -/
def WaveformData.lengthProperty (_ : WaveformData) : Option ℕ := none

/-- The returned `Float32Array` with the two sequences attached to it. -/
structure TransformedAudio where
  samples : List JSNum
  originalOctaves : List JSNum
  octaveChanges : List JSNum

/-- The constant `sampleRate` of `applyWaveformTransformation`. -/
def sampleRate : ℚ := 44100

/-- The constant `segmentDuration`. -/
def segmentDuration : ℚ := 0.1

/-- The constant `samplesPerSegment`. -/
def samplesPerSegment : ℕ := ⌊sampleRate * segmentDuration⌋₊

/-- The value `numSegments` for an audio buffer of the given length. -/
def numSegments (audioLength : ℕ) : ℕ :=
  let totalDuration := (audioLength : ℚ) / sampleRate
  ⌈totalDuration / segmentDuration⌉₊

/-- The value `minY`. -/
def minY (waveformData : WaveformData) : JSNum := mathMin waveformData.y

/-- The value `maxY`. -/
def maxY (waveformData : WaveformData) : JSNum := mathMax waveformData.y

/-- The value `yRange`. -/
def yRange (waveformData : WaveformData) : JSNum :=
  JSNum.sub (maxY waveformData) (minY waveformData)

/-- The value `waveformIndex` of a segment. -/
def waveformIndex (waveformData : WaveformData) (segment : ℕ) : ℚ :=
  let sampleTime := (segment : ℚ) * segmentDuration + segmentDuration / 2
  (sampleTime / 10) * ((waveformData.x.length : ℚ) - 1)

/-- The value `yValue` of a segment. -/
def yValue (waveformData : WaveformData) (segment : ℕ) : ℚ :=
  let waveformIndexInt := ⌊waveformIndex waveformData segment⌋
  let waveformIndexFrac := waveformIndex waveformData segment - waveformIndexInt
  let y1 := readOr0 waveformData.y waveformIndexInt
  let y2 := readOr0 waveformData.y
    (Min.min (waveformIndexInt + 1) ((waveformData.y.length : ℤ) - 1))
  y1 * (1 - waveformIndexFrac) + y2 * waveformIndexFrac

/-- The value `targetOctave` of a segment. -/
def targetOctave (waveformData : WaveformData) (segment : ℕ) : JSNum :=
  JSNum.mul
    (JSNum.div (JSNum.sub (fin (yValue waveformData segment)) (minY waveformData))
      (yRange waveformData))
    (fin 8)

/-- The slice `segmentAudio` of a segment. -/
def segmentAudio (audioData : List ℚ) (segment : ℕ) : List ℚ :=
  let segmentStartSample := segment * samplesPerSegment
  let segmentEndSample := Min.min ((segment + 1) * samplesPerSegment) audioData.length
  (audioData.drop segmentStartSample).take (segmentEndSample - segmentStartSample)

/-- The value `pitchRatio` of a segment. -/
def pitchRatio (m : HostMath) (audioData : List ℚ) (waveformData : WaveformData)
    (segment : ℕ) : JSNum :=
  let originalOctave := analyzePitch m (segmentAudio audioData segment) sampleRate
  let pitchDifference := JSNum.sub (targetOctave waveformData segment) originalOctave
  let limitedPitchDifference := JSNum.max (fin (-2)) (JSNum.min (fin 2) pitchDifference)
  mathPow2 m limitedPitchDifference

/-- The constant `blendFactor`. -/
def blendFactor : ℚ := 0.6

/-- The value the blend loop stores for a corrected and an original sample. -/
def blendSample (correctedSample : JSNum) (originalSample : ℚ) : JSNum :=
  float32Store
    (JSNum.add (JSNum.mul correctedSample (fin blendFactor))
      (JSNum.mul (fin originalSample) (fin (1 - blendFactor))))

/-- The blend loop of one segment: it writes `transformedAudio[segmentStartSample + i]` for
`i < correctedSegment.length` as long as `segmentStartSample + i < audioLength`. -/
def blend (audioData : List ℚ) (correctedSegment : List JSNum) (segmentStartSample : ℕ)
    (transformedAudio : List JSNum) : List JSNum :=
  (List.range (Min.min correctedSegment.length (audioData.length - segmentStartSample))).foldl
    (fun out i =>
      let originalSample := readOr0 audioData ((segmentStartSample + i : ℕ) : ℤ)
      let correctedSample := JSNum.orZero (correctedSegment.getD i (fin 0))
      out.set (segmentStartSample + i) (blendSample correctedSample originalSample))
    transformedAudio

/-- The variables the segment loop updates. -/
structure LoopState where
  transformedAudio : List JSNum
  originalOctaves : List JSNum
  octaveChanges : List JSNum

/-- One iteration of the segment loop; `none` when `simplePitchShift` throws. -/
def segmentStep (m : HostMath) (audioData : List ℚ) (waveformData : WaveformData)
    (st : LoopState) (segment : ℕ) : Option LoopState :=
  let segmentStartSample := segment * samplesPerSegment
  let originalOctave := analyzePitch m (segmentAudio audioData segment) sampleRate
  match simplePitchShift m (segmentAudio audioData segment)
      (pitchRatio m audioData waveformData segment) with
  | none => none
  | some correctedSegment =>
    some
      { transformedAudio :=
          blend audioData correctedSegment segmentStartSample st.transformedAudio
        originalOctaves := st.originalOctaves ++ [originalOctave]
        octaveChanges := st.octaveChanges ++ [targetOctave waveformData segment] }

/-- The segment loop over the segments `0, …, count - 1`. -/
def segmentLoop (m : HostMath) (audioData : List ℚ) (waveformData : WaveformData)
    (count : ℕ) : Option LoopState :=
  (List.range count).foldlM (segmentStep m audioData waveformData)
    { transformedAudio := List.replicate audioData.length (fin 0)
      originalOctaves := []
      octaveChanges := [] }

/-- The compression of one sample, as `compressedAudio` keeps it. -/
def compressSample (sample : JSNum) : JSNum :=
  let threshold : ℚ := 0.8
  let ratio : ℚ := 4
  if (JSNum.abs sample).exceeds threshold then
    let excess := JSNum.sub (JSNum.abs sample) (fin threshold)
    let compressedExcess := JSNum.div excess (fin ratio)
    let sign : ℚ := if sample.isNonneg then 1 else -1
    float32Store (JSNum.mul (fin sign) (JSNum.add (fin threshold) compressedExcess))
  else float32Store sample

/-- The normalisation of the compressed buffer; `none` when the spread of the buffer into
`Math.max` passes more arguments than the host allows. -/
def normalizeAudio (m : HostMath) (compressedAudio : List JSNum) : Option (List JSNum) :=
  if m.maxArguments < compressedAudio.length then none
  else
    let maxAudio := mathMaxFloat32 (compressedAudio.map JSNum.abs)
    if maxAudio.isPositive then
      some (compressedAudio.map fun sample =>
        float32Store (JSNum.mul (JSNum.div sample maxAudio) (fin 0.9)))
    else some compressedAudio

/-- The function `applyWaveformTransformation`; `none` is its `null`. Inside the `try`, the
spread of `waveformData.y` into `Math.max` and `Math.min`, the allocation of
`transformedAudio` and of `compressedAudio`, `simplePitchShift` and the spread of
`compressedAudio` can throw. -/
def applyWaveformTransformation (m : HostMath) (audioData : List ℚ)
    (waveformData : WaveformData) : Option TransformedAudio :=
  if audioData.length = 0 then none
  else if waveformData.lengthProperty = some 0 then none
  else if m.maxArguments < waveformData.y.length then none
  else if m.maxArrayLength < audioData.length then none
  else
    match segmentLoop m audioData waveformData (numSegments audioData.length) with
    | none => none
    | some st =>
      match normalizeAudio m (st.transformedAudio.map compressSample) with
      | none => none
      | some finalAudio =>
        some
          { samples := finalAudio
            originalOctaves := st.originalOctaves
            octaveChanges := st.octaveChanges }

/-- The method `view.setUint8(byteOffset, value)` on the bytes of the buffer. -/
def setUint8 (view : List ℕ) (byteOffset value : ℕ) : List ℕ :=
  view.set byteOffset (value % 256)

/-- The helper `writeString`: one byte per character code. -/
def writeString (view : List ℕ) (offset : ℕ) (string : List ℕ) : List ℕ :=
  (List.range string.length).foldl
    (fun v i => setUint8 v (offset + i) (string.getD i 0)) view

/-- The method `view.setUint16(byteOffset, value, true)`: little-endian. -/
def setUint16 (view : List ℕ) (byteOffset value : ℕ) : List ℕ :=
  let bits := value % 65536
  (view.set byteOffset (bits % 256)).set (byteOffset + 1) (bits / 256)

/-- The method `view.setUint32(byteOffset, value, true)`: little-endian. -/
def setUint32 (view : List ℕ) (byteOffset value : ℕ) : List ℕ :=
  let bits := value % 4294967296
  (((view.set byteOffset (bits % 256)).set (byteOffset + 1) (bits / 256 % 256)).set
    (byteOffset + 2) (bits / 65536 % 256)).set (byteOffset + 3) (bits / 16777216)

/-- The integer part of a finite number: the fraction is discarded (rounding toward zero). -/
def truncate (value : ℚ) : ℤ := if 0 ≤ value then ⌊value⌋ else ⌈value⌉

/-- The conversion `ToInt16` of a finite number: the fraction is discarded, then the
integer is wrapped into the 16-bit range. -/
def toInt16 (value : ℚ) : ℤ :=
  let int := truncate value
  let int16bit := int % 65536
  if int16bit ≥ 32768 then int16bit - 65536 else int16bit

/-- The method `view.setInt16(byteOffset, value, true)`: the two's-complement bytes of
`ToInt16(value)`, little-endian. -/
def setInt16 (view : List ℕ) (byteOffset : ℕ) (value : ℚ) : List ℕ :=
  let bits := (toInt16 value % 65536).toNat
  (view.set byteOffset (bits % 256)).set (byteOffset + 1) (bits / 256)

/-- The sample loop of `createAudioBlob` over the first `count` samples; the product with
`0x7FFF` is a double. -/
def writeSamples (audioData : List ℚ) (count : ℕ) (view : List ℕ) : List ℕ :=
  (List.range count).foldl
    (fun v i =>
      let sample := Max.max (-1) (Min.min 1 (audioData.getD i 0))
      setInt16 v (44 + i * 2) (toDouble (sample * 32767)))
    view

/-- The bytes of the blob `createAudioBlob` returns; `none` is its `null`, returned when the
host does not allocate the buffer. -/
def createAudioBlob (m : HostMath) (audioData : List ℚ) (rate : ℕ) : Option (List ℕ) :=
  if m.maxByteLength < 44 + audioData.length * 2 then none
  else
    let view := List.replicate (44 + audioData.length * 2) 0
    let view := writeString view 0 [82, 73, 70, 70]
    let view := setUint32 view 4 (36 + audioData.length * 2)
    let view := writeString view 8 [87, 65, 86, 69]
    let view := writeString view 12 [102, 109, 116, 32]
    let view := setUint32 view 16 16
    let view := setUint16 view 20 1
    let view := setUint16 view 22 1
    let view := setUint32 view 24 rate
    let view := setUint32 view 28 (rate * 2)
    let view := setUint16 view 32 2
    let view := setUint16 view 34 16
    let view := writeString view 36 [100, 97, 116, 97]
    let view := setUint32 view 40 (audioData.length * 2)
    some (writeSamples audioData audioData.length view)

/-- The state of the loop variables after `count` iterations that left `out` in
`transformedAudio`. -/
def loopStateAfter (m : HostMath) (audioData : List ℚ) (waveformData : WaveformData)
    (count : ℕ) (out : List JSNum) : LoopState :=
  { transformedAudio := out
    originalOctaves :=
      (List.range count).map fun k => analyzePitch m (segmentAudio audioData k) sampleRate
    octaveChanges := (List.range count).map (targetOctave waveformData) }

/-- The host's `Math.pow(2, ·)` is monotone and exact at the exponents `-2` and `2`. -/
def HostMath.PowMonotone (m : HostMath) : Prop :=
  Monotone m.pow2 ∧ m.pow2 (-2) = 1 / 4 ∧ m.pow2 2 = 4

/-- The host passes the recording and the curve as arguments of one call and allocates a
typed array as long as the recording. -/
def HostMath.Admits (m : HostMath) (audioData : List ℚ) (waveformData : WaveformData) :
    Prop :=
  audioData.length ≤ m.maxArguments ∧ audioData.length ≤ m.maxArrayLength ∧
    waveformData.y.length ≤ m.maxArguments

/-- The number is one a `Float32Array` holds unchanged. -/
def IsFloat32 (x : ℚ) : Prop := toFloat32 x = fin x

/-- The number is finite and within the float32 range. -/
def InFloat32Range (s : JSNum) : Prop := ∃ q : ℚ, s = fin q ∧ |q| ≤ maxFloat32

/-- A reference `Math.pow(2, ·)`: exact at the integers, linear in between. -/
def pow2Ref (x : ℚ) : ℚ := (2 : ℚ) ^ ⌊x⌋ * (1 + (x - ⌊x⌋))

/-- A reference `Math.log2`: exact at the powers of two, linear in between. -/
def log2Ref (x : ℚ) : ℚ := (Int.log 2 x : ℤ) + (x / (2 : ℚ) ^ Int.log 2 x - 1)

/-- A reference host, used to instantiate the statements that quantify over the host. Its
limits are those of V8 with its default stack: about 125500 arguments, typed arrays of
2^32 - 1 elements, buffers of 2^31 - 1 bytes. -/
def refMath : HostMath :=
  { log2 := log2Ref
    pow2 := pow2Ref
    maxArguments := 125500
    maxArrayLength := 4294967295
    maxByteLength := 2147483647
    maxArguments_ge := by norm_num
    maxArrayLength_ge := by norm_num
    maxArrayLength_le := by norm_num }

/-- An audio buffer used to instantiate the statements. -/
def sampleAudio : List ℚ := [1 / 2, -1 / 4, 1]

/-- A reference curve used to instantiate the statements. -/
def sampleCurve : WaveformData := ⟨[0, 5, 10], [-1, 0, 1]⟩

/-- A curve with 441 values of `x` over the ten seconds and the two values 1 and 2 of `y`. -/
def denseCurve : WaveformData := ⟨(List.range 441).map fun (i : ℕ) => (i : ℚ) / 44, [1, 2]⟩

/-- A one-point (hence flat) reference curve. -/
def flatCurve : WaveformData := ⟨[0], [1]⟩

/-- A recording of three seconds at 44100 Hz. -/
def threeSeconds : List ℚ := List.replicate 132300 (1 / 2)

/-- A recording of 8821 samples: three segments. -/
def threeSegments : List ℚ := List.replicate 8821 (1 / 2)

/-- The array `correctedSegment` of a segment (empty if `simplePitchShift` throws). -/
def correctedSegment (m : HostMath) (audioData : List ℚ) (waveformData : WaveformData)
    (segment : ℕ) : List JSNum :=
  (simplePitchShift m (segmentAudio audioData segment)
    (pitchRatio m audioData waveformData segment)).getD []

/-- The array `transformedAudio` after the first `count` iterations of the segment loop. -/
def transformedAfter (m : HostMath) (audioData : List ℚ) (waveformData : WaveformData) :
    ℕ → List JSNum
  | 0 => List.replicate audioData.length (fin 0)
  | k + 1 =>
    blend audioData (correctedSegment m audioData waveformData k) (k * samplesPerSegment)
      (transformedAfter m audioData waveformData k)

/-- One second of silence at 44100 Hz. -/
def silentSecond : List ℚ := List.replicate 44100 0

/-- Ten seconds of silence at 44100 Hz. -/
def silentTenSeconds : List ℚ := List.replicate 441000 0

/-- A recording of ten seconds at 44100 Hz. -/
def tenSeconds : List ℚ := List.replicate 441000 (1 / 2)

/-- A 200-point reference curve alternating between `y = -1` and `y = 1`. -/
def alternatingCurve : WaveformData :=
  ⟨(List.range 200).map fun (i : ℕ) => (i : ℚ) * 0.05,
    (List.range 200).map fun i => if i % 2 = 0 then -1 else 1⟩

/-- A reference curve of three points that starts at its maximum. -/
def fallingCurve : WaveformData := ⟨[0, 5, 10], [1, 1, 0]⟩

/-- A recording of 4411 samples, silent but for the samples 1102 and 4410. -/
def spillAudio : List ℚ :=
  (List.range 4411).map fun i => if i = 1102 then 1 else if i = 4410 then 1 / 2 else 0

/-- A 200-point reference curve that steps from 0 to 1 after its second point. -/
def stepCurve : WaveformData :=
  ⟨(List.range 200).map fun (i : ℕ) => (i : ℚ) * 0.05,
    (List.range 200).map fun i => if i < 2 then 0 else 1⟩

/-- A segment of 41 samples, silent but for its first and its last sample. -/
def echoSegment : List ℚ := (List.range 41).map fun i => if i = 0 ∨ i = 40 then 1 else 0

/-- A recording of one sample beyond the float32 range. -/
def loudAudio : List ℚ := [10 ^ 39]

/-- A segment of six samples whose sums at the lags 2, 3 and 5 are all 1. -/
def tieSegment : List ℚ := [1, 0, 0, 1, 0, 1]

/-- The double nearest to `0.1`. -/
def doubleTenth : ℚ := 3602879701896397 / 36028797018963968

/-- The float32 nearest to `0.8`. -/
def float32FourFifths : ℚ := 13421773 / 16777216

/-! ## Rounding -/

theorem roundHalfEven_floor_le (q : ℚ) : ⌊q⌋ ≤ roundHalfEven q := by
  unfold roundHalfEven
  split_ifs <;> omega

theorem roundHalfEven_le_floor_succ (q : ℚ) : roundHalfEven q ≤ ⌊q⌋ + 1 := by
  unfold roundHalfEven
  split_ifs <;> omega

theorem roundHalfEven_intCast (k : ℤ) : roundHalfEven (k : ℚ) = k := by
  unfold roundHalfEven
  simp

theorem roundHalfEven_mono {a b : ℚ} (h : a ≤ b) : roundHalfEven a ≤ roundHalfEven b := by
  rcases lt_or_eq_of_le (Int.floor_le_floor h) with hf | hf
  · calc roundHalfEven a ≤ ⌊a⌋ + 1 := roundHalfEven_le_floor_succ a
      _ ≤ ⌊b⌋ := hf
      _ ≤ roundHalfEven b := roundHalfEven_floor_le b
  · unfold roundHalfEven
    rw [hf]
    have hab : a - (⌊b⌋ : ℚ) ≤ b - ⌊b⌋ := by linarith
    split_ifs <;> first | omega | linarith

theorem roundHalfEven_neg (q : ℚ) : roundHalfEven (-q) = -roundHalfEven q := by
  by_cases hq : (⌊q⌋ : ℚ) = q
  · rw [← hq, ← Int.cast_neg, roundHalfEven_intCast, roundHalfEven_intCast]
  · have h1 : (⌊q⌋ : ℚ) < q := lt_of_le_of_ne (Int.floor_le q) hq
    have h2 : ⌊-q⌋ = -⌊q⌋ - 1 := by
      rw [Int.floor_eq_iff]
      push_cast
      constructor
      · have := Int.lt_floor_add_one q; linarith
      · linarith
    unfold roundHalfEven
    rw [h2]
    push_cast
    split_ifs <;> first | omega | linarith

theorem roundHalfEven_of_near (q : ℚ) (n : ℤ) (h : |q - n| < 1 / 2) : roundHalfEven q = n := by
  rw [abs_lt] at h
  by_cases hn : (n : ℚ) ≤ q
  · have hf : ⌊q⌋ = n := by
      rw [Int.floor_eq_iff]; constructor <;> linarith
    unfold roundHalfEven
    rw [hf, if_pos (by linarith)]
  · have hf : ⌊q⌋ = n - 1 := by
      rw [Int.floor_eq_iff]; push_cast; constructor <;> linarith
    unfold roundHalfEven
    rw [hf]
    push_cast
    rw [if_neg (by linarith), if_pos (by linarith)]
    ring

theorem roundHalfEven_nonneg {q : ℚ} (h : 0 ≤ q) : 0 ≤ roundHalfEven q := by
  have := roundHalfEven_mono h
  rwa [show (0 : ℚ) = ((0 : ℤ) : ℚ) by norm_num, roundHalfEven_intCast] at this

theorem roundBinary_zero (p : ℕ) (emin : ℤ) : roundBinary p emin 0 = 0 := by
  unfold roundBinary
  rw [zero_div, show (0 : ℚ) = ((0 : ℤ) : ℚ) by norm_num, roundHalfEven_intCast]
  simp

theorem roundBinary_neg (p : ℕ) (emin : ℤ) (x : ℚ) :
    roundBinary p emin (-x) = -roundBinary p emin x := by
  unfold roundBinary ulpExponent
  rw [abs_neg, neg_div, roundHalfEven_neg]
  push_cast
  ring

theorem roundBinary_nonneg (p : ℕ) (emin : ℤ) {x : ℚ} (h : 0 ≤ x) : 0 ≤ roundBinary p emin x := by
  unfold roundBinary
  have h2 : (0 : ℚ) < (2 : ℚ) ^ ulpExponent p emin x := zpow_pos (by norm_num) _
  have h3 : 0 ≤ roundHalfEven (x / (2 : ℚ) ^ ulpExponent p emin x) :=
    roundHalfEven_nonneg (div_nonneg h h2.le)
  have h4 : (0 : ℚ) ≤ (roundHalfEven (x / (2 : ℚ) ^ ulpExponent p emin x) : ℚ) := by
    exact_mod_cast h3
  positivity

/-- A multiple of the unit in the last place is not crossed from below. -/
theorem roundBinary_le_of_grid (p : ℕ) (emin : ℤ) (x : ℚ) (n : ℤ) (j : ℤ)
    (hj : ulpExponent p emin x ≤ j) (hx : x ≤ n * (2 : ℚ) ^ j) :
    roundBinary p emin x ≤ n * (2 : ℚ) ^ j := by
  unfold roundBinary
  set k := ulpExponent p emin x with hk
  have h2 : (0 : ℚ) < (2 : ℚ) ^ k := zpow_pos (by norm_num) _
  obtain ⟨d, hd⟩ : ∃ d : ℕ, j = k + d := ⟨(j - k).toNat, by omega⟩
  have hpow : (2 : ℚ) ^ j = ((2 ^ d : ℤ) : ℚ) * (2 : ℚ) ^ k := by
    rw [hd, zpow_add₀ (by norm_num), zpow_natCast]; push_cast; ring
  rw [hpow, ← mul_assoc]
  apply mul_le_mul_of_nonneg_right _ h2.le
  have h3 : x / (2 : ℚ) ^ k ≤ ((n * 2 ^ d : ℤ) : ℚ) := by
    rw [div_le_iff₀ h2]; push_cast; rw [hpow, ← mul_assoc] at hx; exact_mod_cast hx
  have h4 := roundHalfEven_mono h3
  rw [roundHalfEven_intCast] at h4
  exact_mod_cast h4

theorem roundBinary_ge_of_grid (p : ℕ) (emin : ℤ) (x : ℚ) (n : ℤ) (j : ℤ)
    (hj : ulpExponent p emin x ≤ j) (hx : n * (2 : ℚ) ^ j ≤ x) :
    n * (2 : ℚ) ^ j ≤ roundBinary p emin x := by
  have h := roundBinary_le_of_grid p emin (-x) (-n) j (by
    unfold ulpExponent at hj ⊢; rwa [abs_neg]) (by push_cast; linarith)
  rw [roundBinary_neg] at h
  push_cast at h
  linarith

theorem roundBinary_of_grid (p : ℕ) (emin : ℤ) (n j : ℤ) (hn : |n| < 2 ^ p) (hj : emin ≤ j) :
    roundBinary p emin (n * (2 : ℚ) ^ j) = n * (2 : ℚ) ^ j := by
  by_cases h0 : n = 0
  · subst h0; simp [roundBinary_zero]
  · have h2 : (0 : ℚ) < (2 : ℚ) ^ j := zpow_pos (by norm_num) _
    have habs : |(n : ℚ) * (2 : ℚ) ^ j| = |(n : ℚ)| * (2 : ℚ) ^ j := by
      rw [abs_mul, abs_of_pos h2]
    have hpos : 0 < |(n : ℚ) * (2 : ℚ) ^ j| := by
      rw [habs]; have : (0 : ℚ) < |(n : ℚ)| := abs_pos.mpr (by exact_mod_cast h0); positivity
    have hlt : |(n : ℚ) * (2 : ℚ) ^ j| < ((2 : ℕ) : ℚ) ^ (j + p) := by
      have h3 : |(n : ℚ)| < (2 : ℚ) ^ (p : ℤ) := by
        rw [zpow_natCast]; exact_mod_cast hn
      have h4 : (((2 : ℕ) : ℚ)) = (2 : ℚ) := by norm_num
      rw [habs, h4, zpow_add₀ (by norm_num), mul_comm ((2 : ℚ) ^ j)]
      exact mul_lt_mul_of_pos_right h3 h2
    have hlog : Int.log 2 |(n : ℚ) * (2 : ℚ) ^ j| < j + p :=
      (Int.lt_zpow_iff_log_lt (by norm_num) hpos).mp hlt
    have hk : ulpExponent p emin (n * (2 : ℚ) ^ j) ≤ j := by
      unfold ulpExponent
      exact max_le (by omega) hj
    exact le_antisymm (roundBinary_le_of_grid p emin _ n j hk le_rfl)
      (roundBinary_ge_of_grid p emin _ n j hk le_rfl)

theorem roundBinary_intCast (p : ℕ) (emin : ℤ) (n : ℤ) (hn : |n| < 2 ^ p) (he : emin ≤ 0) :
    roundBinary p emin (n : ℚ) = n := by
  have := roundBinary_of_grid p emin n 0 hn he
  simpa using this

theorem roundBinary_mono_pos (p : ℕ) (hp : 1 ≤ p) (emin : ℤ) {x y : ℚ} (hx : 0 < x)
    (h : x ≤ y) : roundBinary p emin x ≤ roundBinary p emin y := by
  have hy : 0 < y := lt_of_lt_of_le hx h
  have hlog : Int.log 2 |x| ≤ Int.log 2 |y| := by
    rw [abs_of_pos hx, abs_of_pos hy]; exact Int.log_mono_right hx h
  have hk : ulpExponent p emin x ≤ ulpExponent p emin y := by
    unfold ulpExponent; exact max_le_max (by omega) le_rfl
  rcases lt_or_eq_of_le hk with hlt | heq
  · have hk1 : emin ≤ ulpExponent p emin x := le_max_right _ _
    have hk2 : ulpExponent p emin y = Int.log 2 |y| - ((p : ℤ) - 1) := by
      unfold ulpExponent at hlt hk1 ⊢
      rcases max_cases (Int.log 2 |y| - ((p : ℤ) - 1)) emin with ⟨h1, -⟩ | ⟨h1, -⟩
      · exact h1
      · omega
    have hk3 : Int.log 2 |x| - ((p : ℤ) - 1) ≤ ulpExponent p emin x := le_max_left _ _
    have he : Int.log 2 |x| + 1 ≤ Int.log 2 |y| := by omega
    have hp1 : (1 : ℤ) ≤ p := by exact_mod_cast hp
    have hx2 : x ≤ ((1 : ℤ) : ℚ) * (2 : ℚ) ^ Int.log 2 |y| := by
      have h1 : x < ((2 : ℕ) : ℚ) ^ (Int.log 2 x + 1) := Int.lt_zpow_succ_log_self (by norm_num) x
      rw [abs_of_pos hx] at he
      have h2 : ((2 : ℕ) : ℚ) ^ (Int.log 2 x + 1) ≤ ((2 : ℕ) : ℚ) ^ Int.log 2 |y| :=
        zpow_le_zpow_right₀ (by norm_num) he
      have h3 : (((2 : ℕ) : ℚ)) = (2 : ℚ) := by norm_num
      rw [h3] at h1 h2
      push_cast; linarith
    have hy2 : ((1 : ℤ) : ℚ) * (2 : ℚ) ^ Int.log 2 |y| ≤ y := by
      have h1 : ((2 : ℕ) : ℚ) ^ Int.log 2 y ≤ y := Int.zpow_log_le_self (by norm_num) hy
      have h3 : (((2 : ℕ) : ℚ)) = (2 : ℚ) := by norm_num
      rw [h3] at h1
      rw [abs_of_pos hy]; push_cast; linarith
    exact le_trans (roundBinary_le_of_grid p emin x 1 _ (by omega) hx2)
      (roundBinary_ge_of_grid p emin y 1 _ (by omega) hy2)
  · unfold roundBinary
    rw [heq]
    have h2 : (0 : ℚ) < (2 : ℚ) ^ ulpExponent p emin y := zpow_pos (by norm_num) _
    apply mul_le_mul_of_nonneg_right _ h2.le
    exact_mod_cast roundHalfEven_mono (div_le_div_of_nonneg_right h h2.le)

theorem roundBinary_mono (p : ℕ) (hp : 1 ≤ p) (emin : ℤ) {x y : ℚ} (h : x ≤ y) :
    roundBinary p emin x ≤ roundBinary p emin y := by
  rcases lt_trichotomy 0 x with hx | hx | hx
  · exact roundBinary_mono_pos p hp emin hx h
  · subst hx; rw [roundBinary_zero]; exact roundBinary_nonneg p emin h
  · rcases le_or_lt 0 y with hy | hy
    · have h1 : 0 ≤ roundBinary p emin (-x) := roundBinary_nonneg p emin (by linarith)
      rw [roundBinary_neg] at h1
      exact le_trans (by linarith) (roundBinary_nonneg p emin hy)
    · have h1 := roundBinary_mono_pos p hp emin (x := -y) (y := -x) (by linarith) (by linarith)
      rw [roundBinary_neg, roundBinary_neg] at h1
      linarith

/-- Evaluation of a rounding: the exponent is read off two powers of two, the rounded
significand off its distance to an integer. -/
theorem roundBinary_eval (p : ℕ) (emin : ℤ) (x : ℚ) (e k n : ℤ) (hlo : (2 : ℚ) ^ e ≤ |x|)
    (hhi : |x| < (2 : ℚ) ^ (e + 1)) (hk : k = Max.max (e - ((p : ℤ) - 1)) emin)
    (hn : |x / (2 : ℚ) ^ k - n| < 1 / 2) : roundBinary p emin x = n * (2 : ℚ) ^ k := by
  have hpos : 0 < |x| := lt_of_lt_of_le (zpow_pos (by norm_num) _) hlo
  have h3 : (((2 : ℕ) : ℚ)) = (2 : ℚ) := by norm_num
  have hlog : Int.log 2 |x| = e := by
    apply le_antisymm
    · have := (Int.lt_zpow_iff_log_lt (b := 2) (by norm_num) hpos (x := e + 1)).mp (by
        rw [h3]; exact hhi)
      omega
    · exact (Int.zpow_le_iff_le_log (b := 2) (by norm_num) hpos).mp (by rw [h3]; exact hlo)
  unfold roundBinary ulpExponent
  rw [hlog, ← hk, roundHalfEven_of_near _ n hn]

theorem toDouble_mono {x y : ℚ} (h : x ≤ y) : toDouble x ≤ toDouble y :=
  roundBinary_mono 53 (by norm_num) _ h

theorem toDouble_zero : toDouble 0 = 0 := roundBinary_zero _ _

theorem toDouble_nonneg {x : ℚ} (h : 0 ≤ x) : 0 ≤ toDouble x := roundBinary_nonneg _ _ h

/-- The integers below 2^53 in magnitude are doubles. -/
theorem toDouble_intCast (n : ℤ) (hn : |n| < 9007199254740992) : toDouble (n : ℚ) = n :=
  roundBinary_intCast 53 _ n (by norm_num; exact hn) (by norm_num)

theorem toDouble_natCast (n : ℕ) (hn : n < 9007199254740992) : toDouble (n : ℚ) = n := by
  have h := toDouble_intCast (n : ℤ) (by rw [abs_of_nonneg (by positivity)]; exact_mod_cast hn)
  exact_mod_cast h

theorem toDouble_le_natCast {x : ℚ} (n : ℕ) (hn : n < 9007199254740992) (h : x ≤ n) :
    toDouble x ≤ n := by
  rw [← toDouble_natCast n hn]; exact toDouble_mono h

theorem natCast_le_toDouble {x : ℚ} (n : ℕ) (hn : n < 9007199254740992) (h : (n : ℚ) ≤ x) :
    (n : ℚ) ≤ toDouble x := by
  rw [← toDouble_natCast n hn]; exact toDouble_mono h

theorem toFloat32_zero : toFloat32 0 = fin 0 := by
  unfold toFloat32
  rw [roundBinary_zero, if_pos (by unfold maxFloat32; norm_num)]

theorem roundBinary_maxFloat32 : roundBinary 24 (-149) maxFloat32 = maxFloat32 := by
  have h : maxFloat32 = ((16777215 : ℤ) : ℚ) * (2 : ℚ) ^ (104 : ℤ) := by
    unfold maxFloat32; norm_num
  rw [h]
  exact roundBinary_of_grid 24 (-149) 16777215 104 (by norm_num) (by norm_num)

/-- A number between two float32 values rounds to a float32 value between them. -/
theorem toFloat32_of_bounds (x a b : ℚ) (ha : roundBinary 24 (-149) a = a)
    (hb : roundBinary 24 (-149) b = b) (hax : a ≤ x) (hxb : x ≤ b) (hla : -maxFloat32 ≤ a)
    (hub : b ≤ maxFloat32) :
    toFloat32 x = fin (roundBinary 24 (-149) x) ∧ a ≤ roundBinary 24 (-149) x ∧
      roundBinary 24 (-149) x ≤ b := by
  have h1 : a ≤ roundBinary 24 (-149) x := by
    rw [← ha]; exact roundBinary_mono 24 (by norm_num) _ hax
  have h2 : roundBinary 24 (-149) x ≤ b := by
    rw [← hb]; exact roundBinary_mono 24 (by norm_num) _ hxb
  refine ⟨?_, h1, h2⟩
  unfold toFloat32
  rw [if_pos (abs_le.mpr ⟨by linarith, by linarith⟩)]

/-- A number within the float32 range is stored as a finite number within the range. -/
theorem toFloat32_of_abs_le (x : ℚ) (h : |x| ≤ maxFloat32) :
    toFloat32 x = fin (roundBinary 24 (-149) x) ∧ |roundBinary 24 (-149) x| ≤ maxFloat32 := by
  rw [abs_le] at h
  have hneg : roundBinary 24 (-149) (-maxFloat32) = -maxFloat32 := by
    rw [roundBinary_neg, roundBinary_maxFloat32]
  obtain ⟨h1, h2, h3⟩ := toFloat32_of_bounds x (-maxFloat32) maxFloat32 hneg
    roundBinary_maxFloat32 h.1 h.2 le_rfl le_rfl
  exact ⟨h1, abs_le.mpr ⟨h2, h3⟩⟩

/-- A number of at least 2^128 is stored as `Infinity`. -/
theorem toFloat32_overflow (x : ℚ) (h : 2 ^ 128 ≤ x) : toFloat32 x = pinf := by
  have hg : roundBinary 24 (-149) (2 ^ 128) = 2 ^ 128 := by
    have h1 : ((2 : ℚ)) ^ 128 = ((1 : ℤ) : ℚ) * (2 : ℚ) ^ (128 : ℤ) := by norm_num
    rw [h1]
    exact roundBinary_of_grid 24 (-149) 1 128 (by norm_num) (by norm_num)
  have h1 : (2 : ℚ) ^ 128 ≤ roundBinary 24 (-149) x := by
    rw [← hg]; exact roundBinary_mono 24 (by norm_num) _ h
  have h2 : ¬ |roundBinary 24 (-149) x| ≤ maxFloat32 := by
    rw [abs_of_nonneg (le_trans (by positivity) h1)]
    unfold maxFloat32
    intro h3
    have : (2 : ℚ) ^ 128 ≤ 2 ^ 128 - 2 ^ 104 := le_trans h1 h3
    norm_num at this
  have h3 : (0 : ℚ) < x := lt_of_lt_of_le (by positivity) h
  unfold toFloat32
  rw [if_neg h2]
  simp [JSNum.inf, h3]

theorem roundBinary_of_isFloat32 {x : ℚ} (h : IsFloat32 x) : roundBinary 24 (-149) x = x := by
  unfold IsFloat32 toFloat32 at h
  split_ifs at h with h1
  · injection h
  · unfold JSNum.inf at h; split_ifs at h

theorem abs_le_of_isFloat32 {x : ℚ} (h : IsFloat32 x) : |x| ≤ maxFloat32 := by
  have h2 := roundBinary_of_isFloat32 h
  unfold IsFloat32 toFloat32 at h
  split_ifs at h with h1
  · rwa [h2] at h1
  · unfold JSNum.inf at h; split_ifs at h

theorem roundHalfEven_abs_le (q : ℚ) (n : ℤ) (h : |q| ≤ n) : |roundHalfEven q| ≤ n := by
  rw [abs_le] at h ⊢
  constructor
  · have := roundHalfEven_mono (a := ((-n : ℤ) : ℚ)) (b := q) (by push_cast; exact h.1)
    rwa [roundHalfEven_intCast] at this
  · have := roundHalfEven_mono (a := q) (b := ((n : ℤ) : ℚ)) h.2
    rwa [roundHalfEven_intCast] at this

/-- A rounded number is an integer of at most `precision` bits (or the next power of two)
times a power of two not below the least exponent. -/
theorem roundBinary_grid (p : ℕ) (emin : ℤ) (x : ℚ) :
    ∃ n k : ℤ, |n| ≤ 2 ^ p ∧ emin ≤ k ∧ roundBinary p emin x = n * (2 : ℚ) ^ k := by
  by_cases hx : x = 0
  · subst hx
    exact ⟨0, emin, by positivity, le_rfl, by rw [roundBinary_zero]; simp⟩
  have hpos : 0 < |x| := abs_pos.mpr hx
  have h3 : (((2 : ℕ) : ℚ)) = (2 : ℚ) := by norm_num
  set k := ulpExponent p emin x with hk
  have hk1 : Int.log 2 |x| - ((p : ℤ) - 1) ≤ k := le_max_left _ _
  have hk2 : emin ≤ k := le_max_right _ _
  have h2 : (0 : ℚ) < (2 : ℚ) ^ k := zpow_pos (by norm_num) _
  have hlt : |x| < (2 : ℚ) ^ (k + p) := by
    have h1 : |x| < ((2 : ℕ) : ℚ) ^ (Int.log 2 |x| + 1) :=
      Int.lt_zpow_succ_log_self (by norm_num) _
    rw [h3] at h1
    have h4 : (2 : ℚ) ^ (Int.log 2 |x| + 1) ≤ (2 : ℚ) ^ (k + p) :=
      zpow_le_zpow_right₀ (by norm_num) (by omega)
    linarith
  have hq : |x / (2 : ℚ) ^ k| ≤ ((2 ^ p : ℤ) : ℚ) := by
    rw [abs_div, abs_of_pos h2, div_le_iff₀ h2]
    push_cast
    rw [zpow_add₀ (by norm_num), zpow_natCast, mul_comm] at hlt
    exact hlt.le
  exact ⟨roundHalfEven (x / (2 : ℚ) ^ k), k, roundHalfEven_abs_le _ _ hq, hk2, rfl⟩

/-- Rounding is idempotent: a rounded number is a number of the format. -/
theorem roundBinary_idem (p : ℕ) (hp : 1 ≤ p) (emin : ℤ) (x : ℚ) :
    roundBinary p emin (roundBinary p emin x) = roundBinary p emin x := by
  have h1p : (1 : ℤ) < 2 ^ p := one_lt_pow₀ (by norm_num) (by omega)
  obtain ⟨n, k, hn, hk, he⟩ := roundBinary_grid p emin x
  rw [he]
  rcases lt_or_eq_of_le hn with hn1 | hn1
  · exact roundBinary_of_grid p emin _ k hn1 hk
  · rcases abs_cases n with ⟨ha, -⟩ | ⟨ha, -⟩
    · have e : (n : ℚ) * (2 : ℚ) ^ k = ((1 : ℤ) : ℚ) * (2 : ℚ) ^ (k + p) := by
        rw [← ha, hn1, zpow_add₀ (by norm_num), zpow_natCast]; push_cast; ring
      rw [e]
      exact roundBinary_of_grid p emin 1 (k + p) (by rw [abs_one]; exact h1p) (by omega)
    · have e : (n : ℚ) * (2 : ℚ) ^ k = ((-1 : ℤ) : ℚ) * (2 : ℚ) ^ (k + p) := by
        have : n = -(2 ^ p : ℤ) := by omega
        rw [this, zpow_add₀ (by norm_num), zpow_natCast]; push_cast; ring
      rw [e]
      exact roundBinary_of_grid p emin (-1) (k + p) (by rw [abs_neg, abs_one]; exact h1p)
        (by omega)

theorem isFloat32_toFloat32 {x r : ℚ} (h : toFloat32 x = fin r) : IsFloat32 r := by
  unfold toFloat32 at h
  split_ifs at h with h1
  · injection h with h
    subst h
    unfold IsFloat32 toFloat32
    rw [roundBinary_idem 24 (by norm_num), if_pos h1]
  · unfold JSNum.inf at h; split_ifs at h

/-! ## Auxiliary facts -/

theorem samplesPerSegment_eq : samplesPerSegment = 4410 := by
  unfold samplesPerSegment sampleRate segmentDuration
  norm_num

theorem numSegments_eq (n : ℕ) : numSegments n = ⌈(n : ℚ) / 4410⌉₊ := by
  have h : (n : ℚ) / 44100 / 0.1 = (n : ℚ) / 4410 := by norm_num; ring
  simp only [numSegments, sampleRate, segmentDuration, h]

theorem pow2Ref_monotone : Monotone pow2Ref := by
  intro x y hxy
  unfold pow2Ref
  have hfx0 : 0 ≤ x - ⌊x⌋ := sub_nonneg.mpr (Int.floor_le x)
  have hfx1 : x - ⌊x⌋ < 1 := by have := Int.lt_floor_add_one x; linarith
  have hfy0 : 0 ≤ y - ⌊y⌋ := sub_nonneg.mpr (Int.floor_le y)
  have hpx : (0 : ℚ) < (2 : ℚ) ^ ⌊x⌋ := zpow_pos (by norm_num) _
  have hpy : (0 : ℚ) < (2 : ℚ) ^ ⌊y⌋ := zpow_pos (by norm_num) _
  rcases eq_or_lt_of_le (Int.floor_le_floor hxy) with heq | hlt
  · rw [← heq]
    apply mul_le_mul_of_nonneg_left _ hpx.le
    linarith
  · have h1 : (2 : ℚ) ^ ⌊x⌋ * (1 + (x - ⌊x⌋)) ≤ (2 : ℚ) ^ ⌊x⌋ * 2 :=
      mul_le_mul_of_nonneg_left (by linarith) hpx.le
    have h2 : (2 : ℚ) ^ ⌊x⌋ * 2 = (2 : ℚ) ^ (⌊x⌋ + 1) := by
      rw [zpow_add_one₀ (by norm_num)]
    have h3 : (2 : ℚ) ^ (⌊x⌋ + 1) ≤ (2 : ℚ) ^ ⌊y⌋ :=
      zpow_le_zpow_right₀ (by norm_num) (by omega)
    have h4 : (2 : ℚ) ^ ⌊y⌋ ≤ (2 : ℚ) ^ ⌊y⌋ * (1 + (y - ⌊y⌋)) := by
      nlinarith [mul_nonneg hpy.le hfy0]
    linarith

theorem refMath_powMonotone : refMath.PowMonotone := by
  refine ⟨pow2Ref_monotone, ?_, ?_⟩
  · show pow2Ref (-2) = 1 / 4
    have hf : ⌊(-2 : ℚ)⌋ = -2 := by rw [Int.floor_eq_iff]; norm_num
    rw [pow2Ref, hf]; norm_num
  · show pow2Ref 2 = 4
    have hf : ⌊(2 : ℚ)⌋ = 2 := by rw [Int.floor_eq_iff]; norm_num
    rw [pow2Ref, hf]; norm_num

theorem blend_length (audioData : List ℚ) (correctedSegment : List JSNum) (start : ℕ)
    (out : List JSNum) : (blend audioData correctedSegment start out).length = out.length := by
  unfold blend
  generalize List.range _ = l
  induction l generalizing out with
  | nil => rfl
  | cons i l ih => simp only [List.foldl_cons]; rw [ih]; simp

/-- The limited pitch difference is `NaN` or a finite value in `[-2, 2]`. -/
theorem limited_cases (d : JSNum) :
    JSNum.max (fin (-2)) (JSNum.min (fin 2) d) = nan ∨
      ∃ q : ℚ, JSNum.max (fin (-2)) (JSNum.min (fin 2) d) = fin q ∧ -2 ≤ q ∧ q ≤ 2 := by
  cases d with
  | nan => left; rfl
  | pinf => right; exact ⟨2, by simp [JSNum.max, JSNum.min], by norm_num, le_refl _⟩
  | ninf => right; exact ⟨-2, by simp [JSNum.max, JSNum.min], le_refl _, by norm_num⟩
  | fin a =>
    right
    refine ⟨Max.max (-2) (Min.min 2 a), by simp [JSNum.max, JSNum.min], le_max_left _ _, ?_⟩
    exact max_le (by norm_num) (min_le_left _ _)

theorem pitchRatio_cases (m : HostMath) (audioData : List ℚ) (w : WaveformData) (k : ℕ) :
    pitchRatio m audioData w k = nan ∨
      ∃ q : ℚ, pitchRatio m audioData w k = fin (m.pow2 q) ∧ -2 ≤ q ∧ q ≤ 2 := by
  unfold pitchRatio
  rcases limited_cases (JSNum.sub (targetOctave w k)
      (analyzePitch m (segmentAudio audioData k) sampleRate)) with h | ⟨q, h, h1, h2⟩
  · left; simp only [h]; rfl
  · right; exact ⟨q, by simp only [h]; rfl, h1, h2⟩

/-- Under a monotone power the ratio of a segment is `NaN` or lies in `[1/4, 4]`. -/
theorem pitchRatio_range (m : HostMath) (hm : m.PowMonotone) (audioData : List ℚ)
    (w : WaveformData) (k : ℕ) :
    pitchRatio m audioData w k = nan ∨
      ∃ r : ℚ, pitchRatio m audioData w k = fin r ∧ 1 / 4 ≤ r ∧ r ≤ 4 := by
  obtain ⟨hmono, hm2, h2⟩ := hm
  rcases pitchRatio_cases m audioData w k with h | ⟨q, h, h1, h3⟩
  · left; exact h
  · right
    refine ⟨_, h, ?_, ?_⟩
    · rw [← hm2]; exact hmono h1
    · rw [← h2]; exact hmono h3

theorem segmentAudio_length_le (audioData : List ℚ) (k : ℕ) :
    (segmentAudio audioData k).length ≤ 4410 := by
  simp only [segmentAudio, samplesPerSegment_eq, List.length_take, List.length_drop]
  omega

theorem simplePitchShift_nan (m : HostMath) (a : List ℚ) :
    simplePitchShift m a nan = some [] := by
  simp [simplePitchShift, JSNum.div, roundDouble, JSNum.floor, float32ArrayLength]

theorem outputLength_cast (a : List ℚ) (r : ℚ) (hr : 0 < r) :
    ¬ (((⌊toDouble ((a.length : ℚ) / r)⌋ : ℤ) : ℚ) ≤ -1) ∧
      ⌊(((⌊toDouble ((a.length : ℚ) / r)⌋ : ℤ)) : ℚ)⌋₊ = ⌊toDouble ((a.length : ℚ) / r)⌋₊ := by
  have h0 : (0 : ℚ) ≤ toDouble ((a.length : ℚ) / r) := toDouble_nonneg (by positivity)
  have hc : ((⌊toDouble ((a.length : ℚ) / r)⌋₊ : ℕ) : ℤ) = ⌊toDouble ((a.length : ℚ) / r)⌋ :=
    Int.natCast_floor_eq_floor h0
  constructor
  · have h2 : (0 : ℚ) ≤ ((⌊toDouble ((a.length : ℚ) / r)⌋ : ℤ) : ℚ) := by
      rw [← hc]; positivity
    linarith
  · rw [← hc]
    exact_mod_cast Nat.floor_natCast (α := ℚ) _

theorem simplePitchShift_pos (m : HostMath) (a : List ℚ) (r : ℚ) (hr : 0 < r)
    (hfit : ⌊toDouble ((a.length : ℚ) / r)⌋₊ ≤ m.maxArrayLength) :
    simplePitchShift m a (fin r) =
      some ((List.range ⌊toDouble ((a.length : ℚ) / r)⌋₊).map (shiftSample a r)) := by
  obtain ⟨h1, h3⟩ := outputLength_cast a r hr
  simp only [simplePitchShift, JSNum.div, roundDouble, JSNum.floor, float32ArrayLength, hr.ne',
    if_false, h1, h3, hfit, if_true]

theorem simplePitchShift_large (m : HostMath) (a : List ℚ) (r : ℚ) (hr : 0 < r)
    (hbig : m.maxArrayLength < ⌊toDouble ((a.length : ℚ) / r)⌋₊) :
    simplePitchShift m a (fin r) = none := by
  obtain ⟨h1, h3⟩ := outputLength_cast a r hr
  simp only [simplePitchShift, JSNum.div, roundDouble, JSNum.floor, float32ArrayLength, hr.ne',
    if_false, h1, h3, not_le.mpr hbig]

theorem outputLength_le (a : List ℚ) (r : ℚ) (hr : 1 / 4 ≤ r) (hlen : a.length ≤ 4410) :
    ⌊toDouble ((a.length : ℚ) / r)⌋₊ ≤ 17640 := by
  have hr0 : (0 : ℚ) < r := by linarith
  have h1 : (a.length : ℚ) / r ≤ ((17640 : ℕ) : ℚ) := by
    rw [div_le_iff₀ hr0]
    have : (a.length : ℚ) ≤ 4410 := by exact_mod_cast hlen
    push_cast; nlinarith
  have h2 := toDouble_le_natCast 17640 (by norm_num) h1
  exact Nat.floor_le_of_le h2

theorem simplePitchShift_ratio (m : HostMath) (a : List ℚ) (r : ℚ) (hr : 1 / 4 ≤ r)
    (hlen : a.length ≤ 4410) :
    simplePitchShift m a (fin r) =
      some ((List.range ⌊toDouble ((a.length : ℚ) / r)⌋₊).map (shiftSample a r)) :=
  simplePitchShift_pos m a r (by linarith)
    (le_trans (outputLength_le a r hr hlen) (le_trans (by norm_num) m.maxArrayLength_ge))

theorem simplePitchShift_isSome (m : HostMath) (hm : m.PowMonotone) (audioData : List ℚ)
    (w : WaveformData) (k : ℕ) :
    ∃ c, simplePitchShift m (segmentAudio audioData k) (pitchRatio m audioData w k) = some c := by
  rcases pitchRatio_range m hm audioData w k with h | ⟨r, h, h1, -⟩
  · rw [h]; exact ⟨_, simplePitchShift_nan _ _⟩
  · rw [h]; exact ⟨_, simplePitchShift_ratio m _ r h1 (segmentAudio_length_le _ _)⟩

/-- The segment loop never throws under a monotone `Math.pow`, keeps the length of
`transformedAudio`, and records one original and one target octave per segment. -/
theorem segmentLoop_spec (m : HostMath) (hm : m.PowMonotone) (audioData : List ℚ)
    (w : WaveformData) (count : ℕ) :
    ∃ out : List JSNum, out.length = audioData.length ∧
      segmentLoop m audioData w count = some (loopStateAfter m audioData w count out) := by
  induction count with
  | zero =>
    exact ⟨List.replicate audioData.length (fin 0), by simp, by
      simp [segmentLoop, loopStateAfter]⟩
  | succ n ih =>
    obtain ⟨out, hlen, hloop⟩ := ih
    obtain ⟨c, hc⟩ := simplePitchShift_isSome m hm audioData w n
    refine ⟨blend audioData c (n * samplesPerSegment) out, by rw [blend_length, hlen], ?_⟩
    unfold segmentLoop at hloop ⊢
    rw [List.range_succ, List.foldlM_append, hloop]
    simp [segmentStep, hc, loopStateAfter, List.range_succ]

/-- Whenever the segment loop completes, `transformedAudio` has the length of the input. -/
theorem segmentLoop_length (m : HostMath) (audioData : List ℚ) (w : WaveformData)
    (count : ℕ) (st : LoopState) (h : segmentLoop m audioData w count = some st) :
    st.transformedAudio.length = audioData.length := by
  induction count generalizing st with
  | zero =>
    simp only [segmentLoop, List.range_zero, List.foldlM_nil] at h
    injection h with h
    rw [← h]; simp
  | succ n ih =>
    unfold segmentLoop at h ih
    rw [List.range_succ, List.foldlM_append] at h
    cases hprev : List.foldlM (segmentStep m audioData w)
        { transformedAudio := List.replicate audioData.length (fin 0)
          originalOctaves := []
          octaveChanges := [] } (List.range n) with
    | none => rw [hprev] at h; simp at h
    | some prev =>
      rw [hprev] at h
      have hp := ih prev hprev
      simp only [Option.some_bind, List.foldlM_cons, List.foldlM_nil, segmentStep] at h
      cases hs : simplePitchShift m (segmentAudio audioData n) (pitchRatio m audioData w n) with
      | none => rw [hs] at h; simp at h
      | some c =>
        rw [hs] at h
        simp only [Option.some_bind, Option.pure_def, Option.bind_eq_bind, Option.bind_some,
          Option.some.injEq] at h
        rw [← h]
        simp only [blend_length, hp]

theorem foldl_max_fin (l : List ℚ) (a : ℚ) :
    l.foldl (fun acc v => JSNum.max acc (fin v)) (fin a) = fin (l.foldl Max.max a) := by
  induction l generalizing a with
  | nil => rfl
  | cons b l ih => simp only [List.foldl_cons, JSNum.max]; exact ih _

theorem foldl_min_fin (l : List ℚ) (a : ℚ) :
    l.foldl (fun acc v => JSNum.min acc (fin v)) (fin a) = fin (l.foldl Min.min a) := by
  induction l generalizing a with
  | nil => rfl
  | cons b l ih => simp only [List.foldl_cons, JSNum.min]; exact ih _

theorem mathMax_cons (a : ℚ) (l : List ℚ) : mathMax (a :: l) = fin (l.foldl Max.max a) := by
  simp only [mathMax, List.foldl_cons, JSNum.max]; exact foldl_max_fin l a

theorem mathMin_cons (a : ℚ) (l : List ℚ) : mathMin (a :: l) = fin (l.foldl Min.min a) := by
  simp only [mathMin, List.foldl_cons, JSNum.min]; exact foldl_min_fin l a

theorem le_foldl_max (l : List ℚ) (a : ℚ) :
    a ≤ l.foldl Max.max a ∧ ∀ v ∈ l, v ≤ l.foldl Max.max a := by
  induction l generalizing a with
  | nil => simp
  | cons b l ih =>
    simp only [List.foldl_cons, List.mem_cons]
    obtain ⟨h1, h2⟩ := ih (Max.max a b)
    refine ⟨le_trans (le_max_left _ _) h1, ?_⟩
    rintro v (rfl | hv)
    · exact le_trans (le_max_right _ _) h1
    · exact h2 v hv

theorem foldl_min_le (l : List ℚ) (a : ℚ) :
    l.foldl Min.min a ≤ a ∧ ∀ v ∈ l, l.foldl Min.min a ≤ v := by
  induction l generalizing a with
  | nil => simp
  | cons b l ih =>
    simp only [List.foldl_cons, List.mem_cons]
    obtain ⟨h1, h2⟩ := ih (Min.min a b)
    refine ⟨le_trans h1 (min_le_left _ _), ?_⟩
    rintro v (rfl | hv)
    · exact le_trans h1 (min_le_right _ _)
    · exact h2 v hv

theorem mathMaxFloat32_map_fin (l : List ℚ) : mathMaxFloat32 (l.map fin) = mathMax l := by
  unfold mathMaxFloat32 mathMax
  rw [List.foldl_map]

theorem map_abs_map_fin (l : List ℚ) :
    (l.map fin).map JSNum.abs = (l.map fun s => |s|).map fin := by
  simp [List.map_map, Function.comp_def, JSNum.abs]

theorem normalizeAudio_none (m : HostMath) (c : List JSNum) (h : m.maxArguments < c.length) :
    normalizeAudio m c = none := by
  simp [normalizeAudio, h]

theorem normalizeAudio_length (m : HostMath) (c f : List JSNum)
    (h : normalizeAudio m c = some f) : f.length = c.length := by
  simp only [normalizeAudio] at h
  split_ifs at h <;> injection h with h <;> rw [← h] <;> simp

theorem normalizeAudio_isSome (m : HostMath) (c : List JSNum) (h : c.length ≤ m.maxArguments) :
    ∃ f, normalizeAudio m c = some f := by
  simp only [normalizeAudio, not_lt.mpr h, if_false]
  split_ifs <;> exact ⟨_, rfl⟩

theorem roundBinary_nine_tenths : roundBinary 24 (-149) (9 / 10) = 15099494 / 16777216 := by
  have h := roundBinary_eval 24 (-149) (9 / 10) (-1) (-24) 15099494
    (by norm_num [abs_of_pos]) (by norm_num [abs_of_pos]) (by norm_num)
    (by rw [abs_lt]; constructor <;> norm_num)
  rw [h]; norm_num

/-- A number of magnitude at most `0.9` is stored as one of magnitude at most `0.9`. -/
theorem toFloat32_unit (x : ℚ) (h1 : -(9 / 10) ≤ x) (h2 : x ≤ 9 / 10) :
    ∃ q : ℚ, toFloat32 x = fin q ∧ -0.9 ≤ q ∧ q ≤ 0.9 := by
  have hup : roundBinary 24 (-149) x ≤ 15099494 / 16777216 := by
    rw [← roundBinary_nine_tenths]; exact roundBinary_mono 24 (by norm_num) _ h2
  have hlo : -(15099494 / 16777216) ≤ roundBinary 24 (-149) x := by
    rw [← roundBinary_nine_tenths, ← roundBinary_neg]
    exact roundBinary_mono 24 (by norm_num) _ h1
  refine ⟨roundBinary 24 (-149) x, ?_, by norm_num at hlo ⊢; linarith, by
    norm_num at hup ⊢; linarith⟩
  unfold toFloat32
  rw [if_pos]
  rw [abs_le]
  unfold maxFloat32
  constructor
  · have : -((2 : ℚ) ^ 128 - 2 ^ 104) ≤ -(15099494 / 16777216) := by norm_num
    linarith
  · have : (15099494 / 16777216 : ℚ) ≤ (2 : ℚ) ^ 128 - 2 ^ 104 := by norm_num
    linarith

/-- The normalisation of a finite buffer the host can spread: every sample kept lies in
`[-0.9, 0.9]`. -/
theorem normalizeAudio_bound (m : HostMath) (c : List ℚ) (hfit : c.length ≤ m.maxArguments) :
    ∃ f, normalizeAudio m (c.map fin) = some f ∧
      ∀ s ∈ f, ∃ q : ℚ, s = fin q ∧ -0.9 ≤ q ∧ q ≤ 0.9 := by
  have hfit' : ¬ m.maxArguments < (c.map fin).length := by simpa using hfit
  cases c with
  | nil =>
    refine ⟨[], ?_, by simp⟩
    simp [normalizeAudio, mathMaxFloat32, JSNum.isPositive]
  | cons a l =>
    obtain ⟨M, hM⟩ : ∃ M, M = (l.map fun s => |s|).foldl Max.max |a| := ⟨_, rfl⟩
    have hmax : mathMaxFloat32 (((a :: l).map fin).map JSNum.abs) = fin M := by
      rw [map_abs_map_fin, mathMaxFloat32_map_fin, List.map_cons, mathMax_cons, hM]
    obtain ⟨h1, h2⟩ := le_foldl_max (l.map fun s => |s|) |a|
    rw [← hM] at h1 h2
    have hall : ∀ v ∈ a :: l, |v| ≤ M := by
      intro v hv
      rcases List.mem_cons.mp hv with rfl | hv
      · exact h1
      · exact h2 _ (List.mem_map_of_mem _ hv)
    simp only [normalizeAudio, hfit', if_false, hmax, JSNum.isPositive, decide_eq_true_eq]
    by_cases hpos : 0 < M
    · rw [if_pos hpos]
      refine ⟨_, rfl, ?_⟩
      intro s hs
      obtain ⟨u, hu, rfl⟩ := List.mem_map.mp hs
      obtain ⟨v, hv, rfl⟩ := List.mem_map.mp hu
      have hv' := hall v hv
      have habs : |v / M| ≤ 1 := by
        rw [abs_div, abs_of_pos hpos]
        exact (div_le_one hpos).mpr hv'
      rw [abs_le] at habs
      simp only [JSNum.div, hpos.ne', if_false, JSNum.mul, float32Store]
      exact toFloat32_unit _ (by nlinarith [habs.1, habs.2]) (by nlinarith [habs.1, habs.2])
    · rw [if_neg hpos]
      refine ⟨_, rfl, ?_⟩
      intro s hs
      obtain ⟨v, hv, rfl⟩ := List.mem_map.mp hs
      have hv' := hall v hv
      have : |v| ≤ 0 := le_trans hv' (not_lt.mp hpos)
      have hs0 : v = 0 := abs_nonpos_iff.mp this
      exact ⟨0, by rw [hs0], by norm_num, by norm_num⟩

/-- With a non-empty buffer the host admits and a monotone `Math.pow` the transformation
returns the normalised compression of a buffer of the input's length, with the octaves of the
loop. -/
theorem applyWaveformTransformation_spec (m : HostMath) (hm : m.PowMonotone)
    (audioData : List ℚ) (waveformData : WaveformData) (haudio : audioData ≠ [])
    (hfit : m.Admits audioData waveformData) :
    ∃ out final : List JSNum, out.length = audioData.length ∧
      normalizeAudio m (out.map compressSample) = some final ∧
      applyWaveformTransformation m audioData waveformData =
        some
          { samples := final
            originalOctaves := (List.range (numSegments audioData.length)).map fun k =>
              analyzePitch m (segmentAudio audioData k) sampleRate
            octaveChanges :=
              (List.range (numSegments audioData.length)).map (targetOctave waveformData) } := by
  obtain ⟨out, hlen, hloop⟩ :=
    segmentLoop_spec m hm audioData waveformData (numSegments audioData.length)
  obtain ⟨h1, h2, h3⟩ := hfit
  obtain ⟨final, hfinal⟩ := normalizeAudio_isSome m (out.map compressSample) (by
    rw [List.length_map, hlen]; exact h1)
  have h0 : audioData.length ≠ 0 := by simpa using haudio
  refine ⟨out, final, hlen, hfinal, ?_⟩
  simp only [applyWaveformTransformation, h0, if_false, WaveformData.lengthProperty,
    not_lt.mpr h2, not_lt.mpr h3, hloop]
  simp only [loopStateAfter, hfinal]
  rfl

/-- A recording longer than the host's limit on arguments gets no result: the spread of the
compressed buffer into `Math.max` throws, if nothing has thrown before. -/
theorem applyWaveformTransformation_long (m : HostMath) (audioData : List ℚ)
    (waveformData : WaveformData) (hlong : m.maxArguments < audioData.length) :
    applyWaveformTransformation m audioData waveformData = none := by
  simp only [applyWaveformTransformation]
  split_ifs
  · rfl
  · rfl
  · rfl
  · rfl
  · cases hloop : segmentLoop m audioData waveformData (numSegments audioData.length) with
    | none => rfl
    | some st =>
      have hlen := segmentLoop_length m audioData waveformData _ st hloop
      simp only []
      rw [normalizeAudio_none m _ (by rw [List.length_map, hlen]; exact hlong)]

/-! ## The transformation keeps the length and counts the segments -/

theorem sampleAudio_admitted : refMath.Admits sampleAudio sampleCurve := by
  unfold HostMath.Admits refMath sampleAudio sampleCurve
  simp

theorem threeSeconds_length : threeSeconds.length = 132300 := by
  unfold threeSeconds
  exact List.length_replicate _ _

theorem tenSeconds_length : tenSeconds.length = 441000 := by
  unfold tenSeconds
  exact List.length_replicate _ _

/-- For every non-empty audio buffer the host admits, `applyWaveformTransformation` returns a
non-null result whose sample buffer has exactly the length of the input buffer. -/
theorem applyWaveformTransformation_length (m : HostMath) (hm : m.PowMonotone)
    (audioData : List ℚ) (waveformData : WaveformData) (haudio : audioData ≠ [])
    (hfit : m.Admits audioData waveformData) :
    ∃ result, applyWaveformTransformation m audioData waveformData = some result ∧
      result.samples.length = audioData.length := by
  obtain ⟨out, final, hlen, hfinal, h⟩ :=
    applyWaveformTransformation_spec m hm audioData waveformData haudio hfit
  refine ⟨_, h, ?_⟩
  simp [normalizeAudio_length m _ _ hfinal, hlen]

/-- C1: the claim is right and the code is not. A recording with more samples than the host
passes arguments in one call gets no result at all: the spread of the compressed buffer into
`Math.max` throws and the `catch` returns `null`. On the reference host, with the limit of
125500 arguments, that is the fate of a three-second recording of 132300 samples, while a
buffer the host admits keeps its length (`applyWaveformTransformation_length`). -/
theorem applyWaveformTransformation_three_seconds :
    (∀ (m : HostMath) (audioData : List ℚ) (waveformData : WaveformData),
        m.maxArguments < audioData.length →
          applyWaveformTransformation m audioData waveformData = none) ∧
      threeSeconds ≠ [] ∧ threeSeconds.length = 132300 ∧ sampleCurve.y ≠ [] ∧
      applyWaveformTransformation refMath threeSeconds sampleCurve = none :=
  ⟨applyWaveformTransformation_long,
    fun h => absurd (congrArg List.length h) (by rw [threeSeconds_length]; simp),
    threeSeconds_length, by simp [sampleCurve],
    applyWaveformTransformation_long refMath threeSeconds sampleCurve (by
      rw [threeSeconds_length]; show 125500 < 132300; norm_num)⟩

/-- For every non-empty audio buffer of length `n` that the host admits, the sequences
`originalOctaves` and `octaveChanges` of the result have the same length,
`ceil(n / samplesPerSegment)` with `samplesPerSegment = 4410`; a buffer of at most 4410 samples
yields exactly one segment. -/
theorem applyWaveformTransformation_octaves_length (m : HostMath) (hm : m.PowMonotone)
    (audioData : List ℚ) (waveformData : WaveformData) (haudio : audioData ≠ [])
    (hfit : m.Admits audioData waveformData) :
    ∃ result, applyWaveformTransformation m audioData waveformData = some result ∧
      result.originalOctaves.length = result.octaveChanges.length ∧
      result.octaveChanges.length = ⌈(audioData.length : ℚ) / samplesPerSegment⌉₊ ∧
      samplesPerSegment = 4410 ∧
      (audioData.length ≤ 4410 → result.octaveChanges.length = 1) := by
  obtain ⟨out, final, -, -, h⟩ :=
    applyWaveformTransformation_spec m hm audioData waveformData haudio hfit
  have hn : 0 < audioData.length := List.length_pos.mpr haudio
  refine ⟨_, h, by simp, ?_, samplesPerSegment_eq, ?_⟩
  · simp only [List.length_map, List.length_range, numSegments_eq, samplesPerSegment_eq]
    norm_num
  · intro hle
    simp only [List.length_map, List.length_range, numSegments_eq]
    rw [Nat.ceil_eq_iff (by norm_num)]
    have h1 : (0 : ℚ) < audioData.length := by exact_mod_cast hn
    have h2 : (audioData.length : ℚ) ≤ 4410 := by exact_mod_cast hle
    constructor
    · simp only [Nat.sub_self, Nat.cast_zero]; positivity
    · rw [div_le_iff₀ (by norm_num)]; simpa using h2

theorem applyWaveformTransformation_octaves_length_witness :
    refMath.PowMonotone ∧ sampleAudio ≠ [] ∧ refMath.Admits sampleAudio sampleCurve ∧
      ∃ result, applyWaveformTransformation refMath sampleAudio sampleCurve = some result ∧
        result.originalOctaves.length = result.octaveChanges.length ∧
        result.octaveChanges.length = ⌈(sampleAudio.length : ℚ) / samplesPerSegment⌉₊ ∧
        samplesPerSegment = 4410 ∧
        (sampleAudio.length ≤ 4410 → result.octaveChanges.length = 1) :=
  ⟨refMath_powMonotone, by simp [sampleAudio], sampleAudio_admitted,
    applyWaveformTransformation_octaves_length refMath refMath_powMonotone sampleAudio
      sampleCurve (by simp [sampleAudio]) sampleAudio_admitted⟩

/-- C4: the claim is right and the code is not. A non-empty buffer of 441000 samples (ten
seconds) should get two sequences of 100 octaves; on the reference host it gets no result at
all, because the spread of the compressed buffer into `Math.max` passes more arguments than the
host allows. A buffer the host admits gets the sequences the claim describes
(`applyWaveformTransformation_octaves_length`). -/
theorem applyWaveformTransformation_ten_seconds :
    tenSeconds ≠ [] ∧ ⌈(tenSeconds.length : ℚ) / samplesPerSegment⌉₊ = 100 ∧
      refMath.maxArguments < tenSeconds.length ∧
      applyWaveformTransformation refMath tenSeconds sampleCurve = none := by
  have hlong : refMath.maxArguments < tenSeconds.length := by
    rw [tenSeconds_length]; show 125500 < 441000; norm_num
  refine ⟨?_, ?_, hlong, ?_⟩
  · intro h
    have hlen := congrArg List.length h
    rw [tenSeconds_length] at hlen
    exact absurd hlen (by simp)
  · rw [tenSeconds_length, samplesPerSegment_eq, Nat.ceil_eq_iff (by norm_num)]
    norm_num
  · exact applyWaveformTransformation_long refMath tenSeconds sampleCurve hlong

/-! ## The input guards -/

theorem blend_nil (audioData : List ℚ) (start : ℕ) (out : List JSNum) :
    blend audioData [] start out = out := by
  simp [blend]

theorem segmentLoop_of_nan (m : HostMath) (audioData : List ℚ) (w : WaveformData)
    (hnan : ∀ k, pitchRatio m audioData w k = nan) (count : ℕ) :
    segmentLoop m audioData w count =
      some (loopStateAfter m audioData w count (List.replicate audioData.length (fin 0))) := by
  induction count with
  | zero => simp [segmentLoop, loopStateAfter]
  | succ n ih =>
    unfold segmentLoop at ih ⊢
    rw [List.range_succ, List.foldlM_append, ih]
    simp [segmentStep, hnan, simplePitchShift_nan, blend_nil, loopStateAfter, List.range_succ]

theorem compressSample_zero : compressSample (fin 0) = fin 0 := by
  have h : ¬ ((0.8 : ℚ) < 0) := by norm_num
  simp [compressSample, JSNum.abs, JSNum.exceeds, float32Store, toFloat32_zero, h]

theorem foldl_max_zero (l : List ℚ) (h : ∀ v ∈ l, v = 0) : l.foldl Max.max 0 = 0 := by
  induction l with
  | nil => rfl
  | cons b l ih =>
    have hb : b = 0 := h b (List.mem_cons_self _ _)
    simp only [List.foldl_cons, hb, max_self]
    exact ih fun v hv => h v (List.mem_cons_of_mem _ hv)

theorem normalizeAudio_zero (m : HostMath) (n : ℕ) (hfit : n ≤ m.maxArguments) :
    normalizeAudio m (List.replicate n (fin 0)) = some (List.replicate n (fin 0)) := by
  have hfit' : ¬ m.maxArguments < (List.replicate n (fin 0)).length := by simpa using hfit
  have hrep : List.replicate n (fin 0) = (List.replicate n (0 : ℚ)).map fin := by simp
  cases n with
  | zero => simp [normalizeAudio, mathMaxFloat32, JSNum.isPositive]
  | succ k =>
    have hmax : mathMaxFloat32 ((List.replicate (k + 1) (fin 0)).map JSNum.abs) = fin 0 := by
      rw [hrep, map_abs_map_fin, mathMaxFloat32_map_fin, List.replicate_succ, List.map_cons,
        mathMax_cons, abs_zero, foldl_max_zero]
      intro v hv
      obtain ⟨u, hu, rfl⟩ := List.mem_map.mp hv
      rw [(List.mem_replicate.mp hu).2, abs_zero]
    simp only [normalizeAudio, hfit', if_false, hmax]
    simp [JSNum.isPositive]

theorem targetOctave_empty (x : List ℚ) (k : ℕ) : targetOctave ⟨x, []⟩ k = nan := by
  simp [targetOctave, minY, maxY, yRange, mathMin, mathMax, JSNum.sub, JSNum.neg, JSNum.add,
    JSNum.div, JSNum.mul]

theorem pitchRatio_of_target_nan (m : HostMath) (audioData : List ℚ) (w : WaveformData) (k : ℕ)
    (h : targetOctave w k = nan) : pitchRatio m audioData w k = nan := by
  simp [pitchRatio, h, JSNum.sub, JSNum.add, JSNum.min, JSNum.max, mathPow2]

theorem numSegments_one : numSegments 1 = 1 := by
  rw [numSegments_eq, Nat.ceil_eq_iff (by norm_num)]
  norm_num

theorem applyWaveformTransformation_nil (m : HostMath) (w : WaveformData) :
    applyWaveformTransformation m [] w = none := by
  simp [applyWaveformTransformation]

theorem applyWaveformTransformation_of_nan (m : HostMath) (audioData : List ℚ)
    (w : WaveformData) (haudio : audioData ≠ []) (hfit : m.Admits audioData w)
    (hnan : ∀ k, pitchRatio m audioData w k = nan) :
    applyWaveformTransformation m audioData w =
      some
        { samples := List.replicate audioData.length (fin 0)
          originalOctaves := (List.range (numSegments audioData.length)).map fun k =>
            analyzePitch m (segmentAudio audioData k) sampleRate
          octaveChanges := (List.range (numSegments audioData.length)).map (targetOctave w) } := by
  have h0 : audioData.length ≠ 0 := by simpa using haudio
  obtain ⟨h1, h2, h3⟩ := hfit
  have hz : normalizeAudio m ((List.replicate audioData.length (fin 0)).map compressSample) =
      some (List.replicate audioData.length (fin 0)) := by
    rw [List.map_replicate, compressSample_zero]
    exact normalizeAudio_zero m _ h1
  simp only [applyWaveformTransformation, h0, if_false, WaveformData.lengthProperty,
    not_lt.mpr h2, not_lt.mpr h3, segmentLoop_of_nan m audioData w hnan, loopStateAfter, hz]
  rfl

theorem admits_one (m : HostMath) (x : ℚ) : m.Admits [x] ⟨[], []⟩ := by
  have h1 := m.maxArguments_ge
  have h2 := m.maxArrayLength_ge
  unfold HostMath.Admits
  simp only [List.length_singleton, List.length_nil]
  omega

/-- C3: `applyWaveformTransformation` returns `null` for the empty audio buffer, but for the
empty reference curve `{x: [], y: []}` the guard `waveformData.length === 0` reads a property
the object does not have and never fires: with the one-sample buffer `[0.5]` the call returns,
on every host, a non-null buffer `[0]` whose only target octave is `NaN`. -/
theorem applyWaveformTransformation_empty_curve :
    (∀ (m : HostMath) (w : WaveformData), applyWaveformTransformation m [] w = none) ∧
      ∀ m : HostMath, ∃ result,
        applyWaveformTransformation m [1 / 2] ⟨[], []⟩ = some result ∧
          result.samples = [fin 0] ∧ result.octaveChanges = [nan] := by
  refine ⟨applyWaveformTransformation_nil, fun m => ?_⟩
  have h := applyWaveformTransformation_of_nan m [1 / 2] ⟨[], []⟩ (by simp) (admits_one m _)
    (fun k => pitchRatio_of_target_nan _ _ _ _ (targetOctave_empty [] k))
  refine ⟨_, h, ?_, ?_⟩
  · simp
  · simp [numSegments_one, List.range_succ, targetOctave_empty]

/-! ## The pitch estimator -/

theorem getD_eq_zero (l : List ℚ) (h : ∀ v ∈ l, v = 0) (i : ℕ) : l.getD i 0 = 0 := by
  by_cases hi : i < l.length
  · rw [List.getD_eq_getElem _ _ hi]; exact h _ (List.getElem_mem _)
  · exact List.getD_eq_default _ _ (not_lt.mp hi)

theorem correlationSum_zero (seg : List ℚ) (h : ∀ v ∈ seg, v = 0) (lag : ℕ) :
    correlationSum seg lag = 0 := by
  unfold correlationSum
  generalize List.range _ = l
  simp only [getD_eq_zero seg h, mul_zero, add_zero]
  induction l with
  | nil => rfl
  | cons i l ih => simp only [List.foldl_cons]; exact ih

/-- The peak search keeps `bestLag = minLag` when no correlation is positive. -/
theorem peakSearch_of_nonpos (c : List ℚ) (minLag : ℕ) (h : ∀ v ∈ c, v ≤ 0) :
    peakSearch c minLag = (0, minLag) := by
  unfold peakSearch
  generalize List.range _ = l
  induction l with
  | nil => rfl
  | cons i l ih =>
    have hi : ¬ c.getD i 0 > 0 := by
      by_cases hlt : i < c.length
      · rw [List.getD_eq_getElem _ _ hlt]; exact not_lt.mpr (h _ (List.getElem_mem _))
      · rw [List.getD_eq_default _ _ (not_lt.mp hlt)]; exact lt_irrefl _
    simp only [List.foldl_cons, hi, if_false]
    exact ih

theorem minLag_44100 : ⌊sampleRate / 2000⌋₊ = 22 := by
  rw [Nat.floor_eq_iff (by unfold sampleRate; norm_num)]
  unfold sampleRate; norm_num

/-- The octave `analyzePitch` computes from the lag `bestLag`. -/
theorem octave_of_lag (m : HostMath) (sr : ℚ) (hsr : 0 < sr) (bestLag : ℕ) :
    JSNum.max (fin 0) (JSNum.min (fin 8)
        (JSNum.add (mathLog2 m (JSNum.div (JSNum.div (fin sr) (fin bestLag)) (fin 440))) (fin 4))) =
      if bestLag = 0 then fin 8
      else fin (Max.max 0 (Min.min 8 (m.log2 (sr / bestLag / 440) + 4))) := by
  by_cases hb : bestLag = 0
  · subst hb
    simp [JSNum.div, hsr.ne', hsr, JSNum.inf, mathLog2, JSNum.add, JSNum.min, JSNum.max]
  · have hb' : (bestLag : ℚ) ≠ 0 := by exact_mod_cast hb
    have hpos : 0 < sr / bestLag / 440 := by positivity
    simp [JSNum.div, hb, hb', mathLog2, hpos, JSNum.add, JSNum.min, JSNum.max]

theorem analyzePitch_zero_segment (m : HostMath) (seg : List ℚ) (hne : seg ≠ [])
    (h : ∀ v ∈ seg, v = 0) :
    analyzePitch m seg sampleRate = fin (Max.max 0 (Min.min 8 (m.log2 (2205 / 484) + 4))) := by
  have h0 : seg.length ≠ 0 := by simpa using hne
  have hc : ∀ a b, ∀ v ∈ correlationArray seg a b, v ≤ 0 := by
    intro a b v hv
    obtain ⟨lag, -, rfl⟩ := List.mem_map.mp hv
    exact (correlationSum_zero seg h lag).le
  simp only [analyzePitch, h0, if_false, peakSearch_of_nonpos _ _ (hc _ _),
    octave_of_lag m sampleRate (by unfold sampleRate; norm_num), minLag_44100]
  norm_num [sampleRate]

theorem log2Ref_val : log2Ref (2205 / 484) = 4141 / 1936 := by
  have h : Int.log 2 (2205 / 484 : ℚ) = 2 := by
    apply le_antisymm
    · rw [← Int.lt_add_one_iff, ← Int.lt_zpow_iff_log_lt (by norm_num) (by norm_num)]
      norm_num
    · rw [← Int.zpow_le_iff_le_log (by norm_num) (by norm_num)]
      norm_num
  unfold log2Ref
  rw [h]
  norm_num

theorem segmentAudio_mem (audioData : List ℚ) (k : ℕ) :
    ∀ v ∈ segmentAudio audioData k, v ∈ audioData := by
  intro v hv
  exact List.mem_of_mem_drop (List.mem_of_mem_take hv)

theorem lt_numSegments_iff (n k : ℕ) : k < numSegments n ↔ k * 4410 < n := by
  rw [numSegments_eq, Nat.lt_ceil, lt_div_iff₀ (by norm_num)]
  exact_mod_cast Iff.rfl

theorem segmentAudio_ne_nil (audioData : List ℚ) (k : ℕ)
    (hk : k < numSegments audioData.length) : segmentAudio audioData k ≠ [] := by
  rw [lt_numSegments_iff] at hk
  rw [← List.length_pos]
  simp only [segmentAudio, samplesPerSegment_eq, List.length_take, List.length_drop]
  omega

theorem admits_pair : refMath.Admits [0, 0] sampleCurve := by
  unfold HostMath.Admits refMath sampleCurve
  simp

/-- C5, as the code has it: for the empty segment `analyzePitch` returns exactly 4; for a
non-empty all-zero segment no correlation exceeds 0, `bestLag` stays `minLag = 22` and the
result at 44100 Hz is `max(0, min(8, log2((44100 / 22) / 440) + 4))`, which is 4 only for a
host with `log2(2205 / 484) = 0`; for a non-empty all-zero buffer the host admits, the result
has one entry of `originalOctaves` per segment and every entry is that value. -/
theorem analyzePitch_silence (m : HostMath) (hm : m.PowMonotone) (audioData : List ℚ)
    (waveformData : WaveformData) (haudio : audioData ≠ []) (hzero : ∀ v ∈ audioData, v = 0)
    (hfit : m.Admits audioData waveformData) :
    analyzePitch m [] sampleRate = fin 4 ∧
      (∀ seg : List ℚ, seg ≠ [] → (∀ v ∈ seg, v = 0) →
        analyzePitch m seg sampleRate =
          fin (Max.max 0 (Min.min 8 (m.log2 (2205 / 484) + 4)))) ∧
      (Max.max 0 (Min.min 8 (m.log2 (2205 / 484) + 4)) = 4 ↔ m.log2 (2205 / 484) = 0) ∧
      ∃ result, applyWaveformTransformation m audioData waveformData = some result ∧
        result.originalOctaves.length = numSegments audioData.length ∧
        ∀ o ∈ result.originalOctaves,
          o = fin (Max.max 0 (Min.min 8 (m.log2 (2205 / 484) + 4))) := by
  refine ⟨by simp [analyzePitch], fun seg hne hz => analyzePitch_zero_segment m seg hne hz, ?_, ?_⟩
  · constructor
    · intro h
      rcases le_total (m.log2 (2205 / 484) + 4) 8 with h8 | h8
      · rw [min_eq_right h8] at h
        rcases le_total 0 (m.log2 (2205 / 484) + 4) with h0 | h0
        · rw [max_eq_right h0] at h; linarith
        · rw [max_eq_left h0] at h; norm_num at h
      · rw [min_eq_left h8] at h; norm_num at h
    · intro h
      rw [h]; norm_num
  · obtain ⟨out, final, -, -, h⟩ :=
      applyWaveformTransformation_spec m hm audioData waveformData haudio hfit
    refine ⟨_, h, by simp, ?_⟩
    intro o ho
    obtain ⟨k, hk, rfl⟩ := List.mem_map.mp ho
    exact analyzePitch_zero_segment m _ (segmentAudio_ne_nil _ _ (List.mem_range.mp hk))
      fun v hv => hzero v (segmentAudio_mem _ _ v hv)

theorem analyzePitch_silence_witness :
    refMath.PowMonotone ∧ ([0, 0] : List ℚ) ≠ [] ∧ (∀ v ∈ ([0, 0] : List ℚ), v = 0) ∧
      refMath.Admits [0, 0] sampleCurve ∧
      analyzePitch refMath [] sampleRate = fin 4 ∧
      (∀ seg : List ℚ, seg ≠ [] → (∀ v ∈ seg, v = 0) →
        analyzePitch refMath seg sampleRate =
          fin (Max.max 0 (Min.min 8 (refMath.log2 (2205 / 484) + 4)))) ∧
      (Max.max 0 (Min.min 8 (refMath.log2 (2205 / 484) + 4)) = 4 ↔
        refMath.log2 (2205 / 484) = 0) ∧
      ∃ result, applyWaveformTransformation refMath [0, 0] sampleCurve = some result ∧
        result.originalOctaves.length = numSegments ([0, 0] : List ℚ).length ∧
        ∀ o ∈ result.originalOctaves,
          o = fin (Max.max 0 (Min.min 8 (refMath.log2 (2205 / 484) + 4))) :=
  ⟨refMath_powMonotone, by simp, by simp, admits_pair,
    analyzePitch_silence refMath refMath_powMonotone [0, 0] sampleCurve (by simp) (by simp)
      admits_pair⟩

/-- C5, as the claim states it, fails: for the all-zero one-sample segment `[0]` at 44100 Hz
`analyzePitch` returns `max(0, min(8, log2(2205 / 484) + 4))` on every host, which for the
reference host is `11885 / 1936`, not 4. -/
theorem analyzePitch_silence_counterexample :
    (∀ m : HostMath, analyzePitch m [0] sampleRate =
        fin (Max.max 0 (Min.min 8 (m.log2 (2205 / 484) + 4)))) ∧
      analyzePitch refMath [0] sampleRate = fin (11885 / 1936) ∧
      analyzePitch refMath [0] sampleRate ≠ fin 4 := by
  have h : ∀ m : HostMath, analyzePitch m [0] sampleRate =
      fin (Max.max 0 (Min.min 8 (m.log2 (2205 / 484) + 4))) :=
    fun m => analyzePitch_zero_segment m [0] (by simp) (by simp)
  have hv : analyzePitch refMath [0] sampleRate = fin (11885 / 1936) := by
    rw [h]
    show fin (Max.max 0 (Min.min 8 (log2Ref (2205 / 484) + 4))) = _
    rw [log2Ref_val]
    norm_num
  refine ⟨h, hv, ?_⟩
  rw [hv]
  intro hcontra
  injection hcontra with hq
  norm_num at hq

/-- The result of `analyzePitch` is a finite number in `[0, 8]`. -/
theorem analyzePitch_fin (m : HostMath) (audioSegment : List ℚ) (rate : ℚ) (hrate : 0 < rate) :
    ∃ o : ℚ, analyzePitch m audioSegment rate = fin o ∧ 0 ≤ o ∧ o ≤ 8 := by
  by_cases h0 : audioSegment.length = 0
  · exact ⟨4, by simp [analyzePitch, h0], by norm_num, by norm_num⟩
  · simp only [analyzePitch, h0, if_false, octave_of_lag m rate hrate]
    split
    · exact ⟨8, rfl, by norm_num, le_refl _⟩
    · exact ⟨_, rfl, le_max_left _ _, max_le (by norm_num) (min_le_left _ _)⟩

/-- C6: for every segment (empty or not, with arbitrary finite sample values) and every
positive sample rate `analyzePitch` returns a value `o` with `0 ≤ o ≤ 8`, and for the empty
segment it returns exactly 4. -/
theorem analyzePitch_range (m : HostMath) (audioSegment : List ℚ) (rate : ℚ)
    (hrate : 0 < rate) :
    (∃ o : ℚ, analyzePitch m audioSegment rate = fin o ∧ 0 ≤ o ∧ o ≤ 8) ∧
      analyzePitch m [] rate = fin 4 :=
  ⟨analyzePitch_fin m audioSegment rate hrate, by simp [analyzePitch]⟩

theorem analyzePitch_range_witness :
    (0 : ℚ) < 44100 ∧
      (∃ o : ℚ, analyzePitch refMath sampleAudio 44100 = fin o ∧ 0 ≤ o ∧ o ≤ 8) ∧
      analyzePitch refMath [] 44100 = fin 4 :=
  ⟨by norm_num, analyzePitch_range refMath sampleAudio 44100 (by norm_num)⟩

/-! ## The reference mapping -/

theorem waveformIndex_dense (k : ℕ) :
    waveformIndex denseCurve k = (k : ℚ) * (22 / 5) + 11 / 5 := by
  simp only [waveformIndex, denseCurve, segmentDuration, List.length_map, List.length_range]
  norm_num
  ring

theorem yRange_dense :
    minY denseCurve = fin 1 ∧ maxY denseCurve = fin 2 ∧ yRange denseCurve = fin 1 := by
  simp only [minY, yRange, maxY, denseCurve, mathMin, mathMax, List.foldl_cons, List.foldl_nil,
    JSNum.min, JSNum.max, JSNum.sub, JSNum.neg, JSNum.add]
  norm_num

theorem targetOctave_dense_0 : targetOctave denseCurve 0 = fin (-24 / 5) := by
  have hf : ⌊waveformIndex denseCurve 0⌋ = 2 := by
    rw [waveformIndex_dense, Int.floor_eq_iff]; norm_num
  have hy : yValue denseCurve 0 = 2 / 5 := by
    have h1 : readOr0 denseCurve.y 2 = 0 := by simp [denseCurve, readOr0]
    have h2 : readOr0 denseCurve.y (Min.min (2 + 1) ((denseCurve.y.length : ℤ) - 1)) = 2 := by
      simp [denseCurve, readOr0]
    simp only [yValue, hf, h1, h2]
    rw [waveformIndex_dense]
    norm_num
  simp only [targetOctave, hy, yRange_dense.1, yRange_dense.2.2, JSNum.sub, JSNum.neg, JSNum.add,
    JSNum.div, JSNum.mul]
  norm_num

theorem targetOctave_dense_1 : targetOctave denseCurve 1 = fin (8 / 5) := by
  have hf : ⌊waveformIndex denseCurve 1⌋ = 6 := by
    rw [waveformIndex_dense, Int.floor_eq_iff]; norm_num
  have hy : yValue denseCurve 1 = 6 / 5 := by
    have h1 : readOr0 denseCurve.y 6 = 0 := by simp [denseCurve, readOr0]
    have h2 : readOr0 denseCurve.y (Min.min (6 + 1) ((denseCurve.y.length : ℤ) - 1)) = 2 := by
      simp [denseCurve, readOr0]
    simp only [yValue, hf, h1, h2]
    rw [waveformIndex_dense]
    norm_num
  simp only [targetOctave, hy, yRange_dense.1, yRange_dense.2.2, JSNum.sub, JSNum.neg, JSNum.add,
    JSNum.div, JSNum.mul]
  norm_num

theorem targetOctave_dense_2 : targetOctave denseCurve 2 = fin (-8) := by
  have hf : ⌊waveformIndex denseCurve 2⌋ = 11 := by
    rw [waveformIndex_dense, Int.floor_eq_iff]; norm_num
  have hy : yValue denseCurve 2 = 0 := by
    have h1 : readOr0 denseCurve.y 11 = 0 := by simp [denseCurve, readOr0]
    have h2 : readOr0 denseCurve.y (Min.min (11 + 1) ((denseCurve.y.length : ℤ) - 1)) = 2 := by
      simp [denseCurve, readOr0]
    simp only [yValue, hf, h1, h2]
    rw [waveformIndex_dense]
    norm_num
  simp only [targetOctave, hy, yRange_dense.1, yRange_dense.2.2, JSNum.sub, JSNum.neg, JSNum.add,
    JSNum.div, JSNum.mul]
  norm_num

theorem threeSegments_length : threeSegments.length = 8821 := by
  unfold threeSegments
  exact List.length_replicate _ _

theorem threeSegments_ne_nil : threeSegments ≠ [] := by
  intro h
  have hlen := congrArg List.length h
  rw [threeSegments_length] at hlen
  exact absurd hlen (by simp)

theorem numSegments_threeSegments : numSegments threeSegments.length = 3 := by
  rw [threeSegments_length, numSegments_eq, Nat.ceil_eq_iff (by norm_num)]
  norm_num

theorem admits_dense_one : refMath.Admits [1 / 2] denseCurve := by
  unfold HostMath.Admits refMath denseCurve
  simp

theorem admits_dense_three : refMath.Admits threeSegments denseCurve := by
  unfold HostMath.Admits
  rw [threeSegments_length]
  unfold refMath denseCurve
  simp

theorem admits_flat_one : refMath.Admits [1 / 2] flatCurve := by
  unfold HostMath.Admits refMath flatCurve
  simp

theorem foldl_max_const (l : List ℚ) (c : ℚ) (h : ∀ v ∈ l, v = c) : l.foldl Max.max c = c := by
  induction l with
  | nil => rfl
  | cons b l ih =>
    have hb : b = c := h b (List.mem_cons_self _ _)
    simp only [List.foldl_cons, hb, max_self]
    exact ih fun v hv => h v (List.mem_cons_of_mem _ hv)

theorem foldl_min_const (l : List ℚ) (c : ℚ) (h : ∀ v ∈ l, v = c) : l.foldl Min.min c = c := by
  induction l with
  | nil => rfl
  | cons b l ih =>
    have hb : b = c := h b (List.mem_cons_self _ _)
    simp only [List.foldl_cons, hb, min_self]
    exact ih fun v hv => h v (List.mem_cons_of_mem _ hv)

/-- A flat non-empty curve has `minY = c` and `yRange = 0`. -/
theorem yRange_flat (w : WaveformData) (c : ℚ) (hne : w.y ≠ []) (hflat : ∀ v ∈ w.y, v = c) :
    minY w = fin c ∧ yRange w = fin 0 := by
  obtain ⟨a, l, hy⟩ := List.exists_cons_of_ne_nil hne
  have ha : a = c := hflat a (by rw [hy]; exact List.mem_cons_self _ _)
  have hl : ∀ v ∈ l, v = c := fun v hv => hflat v (by rw [hy]; exact List.mem_cons_of_mem _ hv)
  have hmin : minY w = fin c := by
    rw [minY, hy, mathMin_cons, ha, foldl_min_const l c hl]
  have hmax : maxY w = fin c := by
    rw [maxY, hy, mathMax_cons, ha, foldl_max_const l c hl]
  refine ⟨hmin, ?_⟩
  rw [yRange, hmin, hmax]
  simp [JSNum.sub, JSNum.neg, JSNum.add]

/-- Over a flat curve every target octave is `NaN` or an infinity. -/
theorem targetOctave_flat (w : WaveformData) (c : ℚ) (hne : w.y ≠ [])
    (hflat : ∀ v ∈ w.y, v = c) (k : ℕ) :
    targetOctave w k = nan ∨ targetOctave w k = pinf ∨ targetOctave w k = ninf := by
  obtain ⟨hmin, hrange⟩ := yRange_flat w c hne hflat
  simp only [targetOctave, hmin, hrange, JSNum.sub, JSNum.neg, JSNum.add, JSNum.div, if_true]
  by_cases h0 : yValue w k + -c = 0
  · left; simp [h0, JSNum.mul]
  · by_cases hp : 0 < yValue w k + -c
    · right; left; simp [h0, hp, JSNum.inf, JSNum.mul]
    · right; right; simp [h0, hp, JSNum.inf, JSNum.mul]

theorem targetOctave_flatCurve (k : ℕ) : targetOctave flatCurve k = nan := by
  have hw : waveformIndex flatCurve k = 0 := by simp [waveformIndex, flatCurve]
  have hy : yValue flatCurve k = 1 := by
    simp only [yValue, hw]
    simp [flatCurve, readOr0]
  obtain ⟨hmin, hrange⟩ := yRange_flat flatCurve 1 (by simp [flatCurve]) (by simp [flatCurve])
  simp [targetOctave, hy, hmin, hrange, JSNum.sub, JSNum.neg, JSNum.add, JSNum.div, JSNum.mul]

/-- A read inside the array returns one of its elements. -/
theorem readOr0_mem (l : List ℚ) (i : ℤ) (h0 : 0 ≤ i) (h1 : i < l.length) :
    readOr0 l i ∈ l := by
  have hi : i.toNat < l.length := by omega
  simp only [readOr0, not_lt.mpr h0, if_false, List.getD_eq_getElem _ _ hi]
  exact List.getElem_mem _

/-- A non-empty curve has finite `minY ≤ maxY` bounding every value. -/
theorem minY_maxY_bounds (w : WaveformData) (hne : w.y ≠ []) :
    ∃ lo hi : ℚ, minY w = fin lo ∧ maxY w = fin hi ∧ ∀ v ∈ w.y, lo ≤ v ∧ v ≤ hi := by
  obtain ⟨a, l, hy⟩ := List.exists_cons_of_ne_nil hne
  refine ⟨l.foldl Min.min a, l.foldl Max.max a, by rw [minY, hy, mathMin_cons],
    by rw [maxY, hy, mathMax_cons], ?_⟩
  intro v hv
  rw [hy] at hv
  rcases List.mem_cons.mp hv with rfl | hv
  · exact ⟨(foldl_min_le l v).1, (le_foldl_max l v).1⟩
  · exact ⟨(foldl_min_le l a).2 v hv, (le_foldl_max l a).2 v hv⟩

/-- The value `yRange` of a curve with finite `minY` and `maxY`. -/
theorem yRange_of_bounds (w : WaveformData) (lo hi : ℚ) (hlo : minY w = fin lo)
    (hhi : maxY w = fin hi) : yRange w = fin (hi - lo) := by
  simp [yRange, hlo, hhi, JSNum.sub, JSNum.neg, JSNum.add, sub_eq_add_neg]

/-- The target octave of a segment over a curve with `minY = lo < hi = maxY`. -/
theorem targetOctave_of_bounds (w : WaveformData) (lo hi : ℚ) (hlo : minY w = fin lo)
    (hhi : maxY w = fin hi) (hlt : lo < hi) (k : ℕ) :
    targetOctave w k = fin ((yValue w k - lo) / (hi - lo) * 8) := by
  have hne : hi - lo ≠ 0 := (sub_pos.mpr hlt).ne'
  simp only [targetOctave, hlo, yRange_of_bounds w lo hi hlo hhi, JSNum.sub, JSNum.neg,
    JSNum.add, JSNum.div, hne, if_false, JSNum.mul, ← sub_eq_add_neg]

/-- While the index of a segment lies inside the curve, `yValue` lies between the bounds of
the curve. -/
theorem yValue_bounds (w : WaveformData) (lo hi : ℚ) (hb : ∀ v ∈ w.y, lo ≤ v ∧ v ≤ hi) (k : ℕ)
    (h0 : 0 ≤ ⌊waveformIndex w k⌋) (h1 : ⌊waveformIndex w k⌋ < w.y.length) :
    lo ≤ yValue w k ∧ yValue w k ≤ hi := by
  have hy1 := hb _ (readOr0_mem w.y _ h0 h1)
  have hy2 := hb _ (readOr0_mem w.y (Min.min (⌊waveformIndex w k⌋ + 1) ((w.y.length : ℤ) - 1))
    (le_min (by omega) (by omega)) (lt_of_le_of_lt (min_le_right _ _) (by omega)))
  have hf0 : 0 ≤ waveformIndex w k - ⌊waveformIndex w k⌋ := sub_nonneg.mpr (Int.floor_le _)
  have hf1 : waveformIndex w k - ⌊waveformIndex w k⌋ ≤ 1 := by
    have := Int.lt_floor_add_one (waveformIndex w k); linarith
  simp only [yValue]
  constructor <;> nlinarith [hy1.1, hy1.2, hy2.1, hy2.2]

/-- Inside the curve the target octave lies in `[0, 8]`. -/
theorem targetOctave_in_range (w : WaveformData) (lo hi : ℚ) (hlo : minY w = fin lo)
    (hhi : maxY w = fin hi) (hlt : lo < hi) (k : ℕ)
    (h0 : 0 ≤ ⌊waveformIndex w k⌋) (h1 : ⌊waveformIndex w k⌋ < w.y.length) :
    ∃ t : ℚ, targetOctave w k = fin t ∧ 0 ≤ t ∧ t ≤ 8 := by
  have hne : w.y ≠ [] := by
    intro h; rw [h] at h1; simp at h1; omega
  obtain ⟨lo', hi', hlo', hhi', hb⟩ := minY_maxY_bounds w hne
  have e1 : lo' = lo := by rw [hlo] at hlo'; injection hlo' with h; exact h.symm
  have e2 : hi' = hi := by rw [hhi] at hhi'; injection hhi' with h; exact h.symm
  subst e1 e2
  obtain ⟨hv0, hv1⟩ := yValue_bounds w lo' hi' hb k h0 h1
  have hpos : 0 < hi' - lo' := sub_pos.mpr hlt
  refine ⟨_, targetOctave_of_bounds w lo' hi' hlo hhi hlt k, ?_, ?_⟩
  · have : 0 ≤ (yValue w k - lo') / (hi' - lo') := div_nonneg (by linarith) hpos.le
    linarith
  · have : (yValue w k - lo') / (hi' - lo') ≤ 1 := (div_le_one hpos).mpr (by linarith)
    linarith


/-- The reads inside a non-decreasing array are non-decreasing in the index. -/
theorem readOr0_mono (y : List ℚ)
    (hmono : ∀ a b : ℕ, a ≤ b → b < y.length → y.getD a 0 ≤ y.getD b 0) (p q : ℤ)
    (h0 : 0 ≤ p) (hpq : p ≤ q) (hq : q < y.length) : readOr0 y p ≤ readOr0 y q := by
  have hq0 : 0 ≤ q := le_trans h0 hpq
  simp only [readOr0, not_lt.mpr h0, not_lt.mpr hq0, if_false]
  exact hmono _ _ (by omega) (by omega)

/-- The interpolation of a non-decreasing curve is non-decreasing in the segment, while the
index stays inside the curve. -/
theorem yValue_mono (w : WaveformData)
    (hmono : ∀ a b : ℕ, a ≤ b → b < w.y.length → w.y.getD a 0 ≤ w.y.getD b 0)
    (hx : w.x ≠ []) (j k : ℕ) (hjk : j ≤ k) (h1 : ⌊waveformIndex w k⌋ < w.y.length) :
    yValue w j ≤ yValue w k := by
  have hX : (0 : ℚ) ≤ (w.x.length : ℚ) - 1 := by
    have : 1 ≤ w.x.length := List.length_pos.mpr hx
    have : (1 : ℚ) ≤ w.x.length := by exact_mod_cast this
    linarith
  have hj0 : 0 ≤ waveformIndex w j := by
    simp only [waveformIndex, segmentDuration]; positivity
  have hle : waveformIndex w j ≤ waveformIndex w k := by
    simp only [waveformIndex, segmentDuration]
    have : (j : ℚ) ≤ k := by exact_mod_cast hjk
    apply mul_le_mul_of_nonneg_right _ hX
    linarith
  have hi0 : 0 ≤ ⌊waveformIndex w j⌋ := Int.floor_nonneg.mpr hj0
  have hii : ⌊waveformIndex w j⌋ ≤ ⌊waveformIndex w k⌋ := Int.floor_le_floor hle
  have hfj0 : 0 ≤ waveformIndex w j - ⌊waveformIndex w j⌋ := sub_nonneg.mpr (Int.floor_le _)
  have hfj1 : waveformIndex w j - ⌊waveformIndex w j⌋ ≤ 1 := by
    have := Int.lt_floor_add_one (waveformIndex w j); linarith
  have hfk0 : 0 ≤ waveformIndex w k - ⌊waveformIndex w k⌋ := sub_nonneg.mpr (Int.floor_le _)
  have hfk1 : waveformIndex w k - ⌊waveformIndex w k⌋ ≤ 1 := by
    have := Int.lt_floor_add_one (waveformIndex w k); linarith
  have ha : readOr0 w.y ⌊waveformIndex w j⌋ ≤
      readOr0 w.y (Min.min (⌊waveformIndex w j⌋ + 1) ((w.y.length : ℤ) - 1)) :=
    readOr0_mono w.y hmono _ _ hi0 (le_min (by omega) (by omega))
      (lt_of_le_of_lt (min_le_right _ _) (by omega))
  have hb : readOr0 w.y ⌊waveformIndex w k⌋ ≤
      readOr0 w.y (Min.min (⌊waveformIndex w k⌋ + 1) ((w.y.length : ℤ) - 1)) :=
    readOr0_mono w.y hmono _ _ (by omega) (le_min (by omega) (by omega))
      (lt_of_le_of_lt (min_le_right _ _) (by omega))
  simp only [yValue]
  rcases eq_or_lt_of_le hii with heq | hlt
  · rw [← heq] at hb ⊢
    have hf : waveformIndex w j - ⌊waveformIndex w j⌋ ≤
        waveformIndex w k - ⌊waveformIndex w j⌋ := by linarith
    nlinarith [mul_nonneg (sub_nonneg.mpr hb) (sub_nonneg.mpr hf)]
  · have hmid : readOr0 w.y (Min.min (⌊waveformIndex w j⌋ + 1) ((w.y.length : ℤ) - 1)) ≤
        readOr0 w.y ⌊waveformIndex w k⌋ :=
      readOr0_mono w.y hmono _ _ (le_min (by omega) (by omega))
        (le_trans (min_le_left _ _) (by omega)) h1
    have hl : readOr0 w.y ⌊waveformIndex w j⌋ *
          (1 - (waveformIndex w j - ⌊waveformIndex w j⌋)) +
        readOr0 w.y (Min.min (⌊waveformIndex w j⌋ + 1) ((w.y.length : ℤ) - 1)) *
          (waveformIndex w j - ⌊waveformIndex w j⌋) ≤
        readOr0 w.y (Min.min (⌊waveformIndex w j⌋ + 1) ((w.y.length : ℤ) - 1)) := by
      nlinarith [mul_nonneg (sub_nonneg.mpr ha) (sub_nonneg.mpr hfj1)]
    have hr : readOr0 w.y ⌊waveformIndex w k⌋ ≤
        readOr0 w.y ⌊waveformIndex w k⌋ *
          (1 - (waveformIndex w k - ⌊waveformIndex w k⌋)) +
        readOr0 w.y (Min.min (⌊waveformIndex w k⌋ + 1) ((w.y.length : ℤ) - 1)) *
          (waveformIndex w k - ⌊waveformIndex w k⌋) := by
      nlinarith [mul_nonneg (sub_nonneg.mpr hb) hfk0]
    linarith

/-- Inside the curve the target octave over a non-decreasing curve is non-decreasing. -/
theorem targetOctave_mono_in_range (w : WaveformData) (lo hi : ℚ) (hlo : minY w = fin lo)
    (hhi : maxY w = fin hi) (hlt : lo < hi)
    (hmono : ∀ a b : ℕ, a ≤ b → b < w.y.length → w.y.getD a 0 ≤ w.y.getD b 0)
    (hx : w.x ≠ []) (j k : ℕ) (hjk : j ≤ k) (h1 : ⌊waveformIndex w k⌋ < w.y.length) :
    ∃ tj tk : ℚ, targetOctave w j = fin tj ∧ targetOctave w k = fin tk ∧ tj ≤ tk := by
  refine ⟨_, _, targetOctave_of_bounds w lo hi hlo hhi hlt j,
    targetOctave_of_bounds w lo hi hlo hhi hlt k, ?_⟩
  have hpos : 0 < hi - lo := sub_pos.mpr hlt
  have hy := yValue_mono w hmono hx j k hjk h1
  have : (yValue w j - lo) / (hi - lo) ≤ (yValue w k - lo) / (hi - lo) :=
    div_le_div_of_nonneg_right (by linarith) hpos.le
  linarith

/-- C8: the target octave is not always in `[0, 8]`. Past the end of `y` the read
`waveformData.y[waveformIndexInt] || 0` yields 0 while its neighbour is clamped to the last
point: for the one-sample recording `[0.5]` and the curve with 441 values of `x` and the
values `[1, 2]` of `y`, segment 0 has `waveformIndex = 2.2`, `yValue = 0.4` and the recorded
target octave is `-4.8`. -/
theorem targetOctave_out_of_range :
    minY denseCurve = fin 1 ∧ maxY denseCurve = fin 2 ∧ denseCurve.x.length = 441 ∧
      ∃ result, applyWaveformTransformation refMath [1 / 2] denseCurve = some result ∧
        result.octaveChanges = [fin (-24 / 5)] ∧ (-24 / 5 : ℚ) < 0 := by
  obtain ⟨out, final, -, -, h⟩ := applyWaveformTransformation_spec refMath refMath_powMonotone
    [1 / 2] denseCurve (by simp) admits_dense_one
  refine ⟨yRange_dense.1, yRange_dense.2.1, by simp [denseCurve], _, h, ?_, by norm_num⟩
  simp [numSegments_one, List.range_succ, targetOctave_dense_0]

/-- C9: the claim is right and the code is not. The division by `yRange` is not guarded, and
over a flat non-empty curve `yRange = 0`, so that every target octave is `NaN` or an infinity,
not the 0 at the bottom of the range `0-8` the mapping is meant to produce: for the one-point
curve with `y = [1]` and the buffer `[0.5]` the transformation returns a result whose only
target octave is `NaN`. -/
theorem targetOctave_flat_curve :
    (∀ (waveformData : WaveformData) (c : ℚ), waveformData.y ≠ [] →
        (∀ v ∈ waveformData.y, v = c) → ∀ k : ℕ,
          targetOctave waveformData k = nan ∨ targetOctave waveformData k = pinf ∨
            targetOctave waveformData k = ninf) ∧
      ∃ result, applyWaveformTransformation refMath [1 / 2] flatCurve = some result ∧
        result.octaveChanges = [nan] ∧ ¬ ∀ t ∈ result.octaveChanges, t = fin 0 := by
  refine ⟨fun w c hne hflat k => targetOctave_flat w c hne hflat k, ?_⟩
  have h := applyWaveformTransformation_of_nan refMath [1 / 2] flatCurve (by simp)
    admits_flat_one (fun k => pitchRatio_of_target_nan _ _ _ _ (targetOctave_flatCurve k))
  refine ⟨_, h, ?_, ?_⟩
  · simp [numSegments_one, List.range_succ, targetOctave_flatCurve]
  · simp [numSegments_one, List.range_succ, targetOctave_flatCurve]

/-- C10: the target octave is not monotone over a monotone curve. For the recording of 8821
samples (three segments) and the curve with 441 values of `x` and the non-decreasing values
`[1, 2]` of `y`, the recorded target octaves are `-4.8`, `1.6` and `-8`: the reads past the end
of `y` yield 0, and segment 2 falls below segment 1. -/
theorem targetOctave_not_monotone :
    denseCurve.y = [1, 2] ∧ minY denseCurve = fin 1 ∧ maxY denseCurve = fin 2 ∧
      ∃ result, applyWaveformTransformation refMath threeSegments denseCurve = some result ∧
        result.octaveChanges = [fin (-24 / 5), fin (8 / 5), fin (-8)] ∧
        (-8 : ℚ) < 8 / 5 := by
  obtain ⟨out, final, -, -, h⟩ := applyWaveformTransformation_spec refMath refMath_powMonotone
    threeSegments denseCurve threeSegments_ne_nil admits_dense_three
  refine ⟨rfl, yRange_dense.1, yRange_dense.2.1, _, h, ?_, by norm_num⟩
  simp [numSegments_threeSegments, List.range_succ, targetOctave_dense_0, targetOctave_dense_1,
    targetOctave_dense_2]

/-! ## The pitch shifter and the compression -/

/-- A read at a natural index is the element, or `0` past the end. -/
theorem readOr0_natCast (l : List ℚ) (i : ℕ) : readOr0 l (i : ℤ) = l.getD i 0 := by
  simp [readOr0]

/-- For a ratio that is not negative the source index of `shiftSample` is a natural number. -/
theorem shiftSample_eq (a : List ℚ) (r : ℚ) (hr : 0 ≤ r) (i : ℕ) :
    shiftSample a r i =
      toFloat32
        (a.getD ⌊toDouble ((i : ℚ) * r)⌋₊ 0 *
            (1 - (toDouble ((i : ℚ) * r) - ⌊toDouble ((i : ℚ) * r)⌋₊)) +
          a.getD (⌊toDouble ((i : ℚ) * r)⌋₊ + 1) 0 *
            (toDouble ((i : ℚ) * r) - ⌊toDouble ((i : ℚ) * r)⌋₊)) := by
  have h0 : (0 : ℚ) ≤ toDouble ((i : ℚ) * r) := toDouble_nonneg (by positivity)
  have hz : ⌊toDouble ((i : ℚ) * r)⌋ = ((⌊toDouble ((i : ℚ) * r)⌋₊ : ℕ) : ℤ) :=
    (Int.natCast_floor_eq_floor h0).symm
  have h1 : readOr0 a ⌊toDouble ((i : ℚ) * r)⌋ = a.getD ⌊toDouble ((i : ℚ) * r)⌋₊ 0 := by
    rw [hz]; exact readOr0_natCast _ _
  have h2 : readOr0 a (⌊toDouble ((i : ℚ) * r)⌋ + 1) =
      a.getD (⌊toDouble ((i : ℚ) * r)⌋₊ + 1) 0 := by
    rw [hz]; exact_mod_cast readOr0_natCast a (⌊toDouble ((i : ℚ) * r)⌋₊ + 1)
  have h3 : ((⌊toDouble ((i : ℚ) * r)⌋ : ℤ) : ℚ) = ((⌊toDouble ((i : ℚ) * r)⌋₊ : ℕ) : ℚ) := by
    rw [hz]; push_cast; rfl
  simp only [shiftSample, h1, h2, h3]

/-- C11, as the code has it: for every segment buffer and every ratio `r > 0`,
`simplePitchShift` returns a buffer of length `floor(q)`, where `q` is the double nearest to
`len(segment) / r`, provided the host allocates that length. Its `i`-th sample is the float32
nearest to `segment[idx] * (1 - frac) + segment[idx + 1] * frac` with `idx = floor(p)` and
`frac = p - idx`, where `p` is the double nearest to `i * r`; a read at an index past the end
of the segment is taken as 0. -/
theorem simplePitchShift_resamples (m : HostMath) (segment : List ℚ) (r : ℚ) (hr : 0 < r)
    (hfit : ⌊toDouble ((segment.length : ℚ) / r)⌋₊ ≤ m.maxArrayLength) :
    ∃ output, simplePitchShift m segment (fin r) = some output ∧
      output.length = ⌊toDouble ((segment.length : ℚ) / r)⌋₊ ∧
      ∀ i : ℕ, i < output.length →
        output.getD i (fin 0) =
          toFloat32
            (segment.getD ⌊toDouble ((i : ℚ) * r)⌋₊ 0 *
                (1 - (toDouble ((i : ℚ) * r) - ⌊toDouble ((i : ℚ) * r)⌋₊)) +
              segment.getD (⌊toDouble ((i : ℚ) * r)⌋₊ + 1) 0 *
                (toDouble ((i : ℚ) * r) - ⌊toDouble ((i : ℚ) * r)⌋₊)) := by
  refine ⟨_, simplePitchShift_pos m segment r hr hfit, by simp, ?_⟩
  intro i hi
  rw [List.getD_eq_getElem _ _ hi]
  simp only [List.getElem_map, List.getElem_range]
  exact shiftSample_eq segment r hr.le i

theorem outputLength_sampleAudio :
    ⌊toDouble ((sampleAudio.length : ℚ) / (3 / 2))⌋₊ = 2 := by
  have h : ((sampleAudio.length : ℚ) / (3 / 2)) = ((2 : ℕ) : ℚ) := by
    simp [sampleAudio]
  rw [h, toDouble_natCast 2 (by norm_num)]
  exact Nat.floor_natCast 2

theorem simplePitchShift_resamples_witness :
    (0 : ℚ) < 3 / 2 ∧
      ⌊toDouble ((sampleAudio.length : ℚ) / (3 / 2))⌋₊ ≤ refMath.maxArrayLength ∧
      ∃ output, simplePitchShift refMath sampleAudio (fin (3 / 2)) = some output ∧
        output.length = ⌊toDouble ((sampleAudio.length : ℚ) / (3 / 2))⌋₊ ∧
        ∀ i : ℕ, i < output.length →
          output.getD i (fin 0) =
            toFloat32
              (sampleAudio.getD ⌊toDouble ((i : ℚ) * (3 / 2))⌋₊ 0 *
                  (1 - (toDouble ((i : ℚ) * (3 / 2)) - ⌊toDouble ((i : ℚ) * (3 / 2))⌋₊)) +
                sampleAudio.getD (⌊toDouble ((i : ℚ) * (3 / 2))⌋₊ + 1) 0 *
                  (toDouble ((i : ℚ) * (3 / 2)) - ⌊toDouble ((i : ℚ) * (3 / 2))⌋₊)) :=
  have hfit : ⌊toDouble ((sampleAudio.length : ℚ) / (3 / 2))⌋₊ ≤ refMath.maxArrayLength := by
    rw [outputLength_sampleAudio]; show 2 ≤ 4294967295; norm_num
  ⟨by norm_num, hfit, simplePitchShift_resamples refMath sampleAudio (3 / 2) (by norm_num) hfit⟩

theorem toDouble_thirty : toDouble (3 / doubleTenth) = 30 := by
  have h := roundBinary_eval 53 (-1074) (3 / doubleTenth) 4 (-48) 8444249301319680
    (by unfold doubleTenth; norm_num [abs_of_pos]) (by unfold doubleTenth; norm_num [abs_of_pos])
    (by norm_num) (by unfold doubleTenth; rw [abs_lt]; constructor <;> norm_num)
  unfold toDouble
  rw [h]; norm_num

/-- C11, as the claim states it, fails: for a segment of three samples and the ratio `r` that
is the double nearest to `0.1`, the quotient `3 / r` lies just below 30 and its floor is 29,
but the double nearest to the quotient is 30 and `simplePitchShift` returns 30 samples. -/
theorem simplePitchShift_resamples_counterexample :
    (0 : ℚ) < doubleTenth ∧ toDouble doubleTenth = doubleTenth ∧
      ⌊(sampleAudio.length : ℚ) / doubleTenth⌋₊ = 29 ∧
      ∃ output, simplePitchShift refMath sampleAudio (fin doubleTenth) = some output ∧
        output.length = 30 := by
  have hq : (sampleAudio.length : ℚ) / doubleTenth = 3 / doubleTenth := by
    simp [sampleAudio]
  have hlen : ⌊toDouble ((sampleAudio.length : ℚ) / doubleTenth)⌋₊ = 30 := by
    rw [hq, toDouble_thirty]
    exact Nat.floor_natCast 30
  have hpos : (0 : ℚ) < doubleTenth := by unfold doubleTenth; norm_num
  refine ⟨hpos, ?_, ?_, _, simplePitchShift_pos refMath sampleAudio doubleTenth hpos (by
    rw [hlen]; show 30 ≤ 4294967295; norm_num), ?_⟩
  · have h : doubleTenth = ((3602879701896397 : ℤ) : ℚ) * (2 : ℚ) ^ (-55 : ℤ) := by
      unfold doubleTenth; norm_num
    unfold toDouble
    rw [h]
    exact roundBinary_of_grid 53 (-1074) _ _ (by norm_num) (by norm_num)
  · rw [hq, Nat.floor_eq_iff (by unfold doubleTenth; norm_num)]
    unfold doubleTenth; norm_num
  · rw [List.length_map, List.length_range, hlen]

theorem compressSample_fin (s : ℚ) :
    compressSample (fin s) =
      if 0.8 < |s| then
        toFloat32 ((if 0 ≤ s then 1 else -1) * (0.8 + (|s| - 0.8) / 4))
      else toFloat32 s := by
  by_cases h : 0.8 < |s|
  · by_cases h0 : 0 ≤ s
    · simp [compressSample, JSNum.abs, JSNum.exceeds, JSNum.isNonneg, JSNum.sub, JSNum.neg,
        JSNum.add, JSNum.div, JSNum.mul, float32Store, h, h0, sub_eq_add_neg]
    · simp [compressSample, JSNum.abs, JSNum.exceeds, JSNum.isNonneg, JSNum.sub, JSNum.neg,
        JSNum.add, JSNum.div, JSNum.mul, float32Store, h, h0, sub_eq_add_neg]
  · simp [compressSample, JSNum.abs, JSNum.exceeds, float32Store, h]

theorem roundBinary_four_fifths : roundBinary 24 (-149) (4 / 5) = float32FourFifths := by
  have h := roundBinary_eval 24 (-149) (4 / 5) (-1) (-24) 13421773
    (by norm_num [abs_of_pos]) (by norm_num [abs_of_pos]) (by norm_num)
    (by rw [abs_lt]; constructor <;> norm_num)
  rw [h]; unfold float32FourFifths; norm_num

theorem isFloat32_fourFifths : IsFloat32 float32FourFifths := by
  have h : float32FourFifths = ((13421773 : ℤ) : ℚ) * (2 : ℚ) ^ (-24 : ℤ) := by
    unfold float32FourFifths; norm_num
  have hr : roundBinary 24 (-149) float32FourFifths = float32FourFifths := by
    rw [h]; exact roundBinary_of_grid 24 (-149) _ _ (by norm_num) (by norm_num)
  unfold IsFloat32 toFloat32
  rw [hr, if_pos]
  unfold float32FourFifths maxFloat32
  rw [abs_of_pos (by norm_num)]
  norm_num

/-- The compression of a float32 sample above the threshold: the float32 nearest to
`0.8 + (s - 0.8) / 4`, between the float32 nearest to `0.8` and `s`. -/
theorem compressSample_above (s : ℚ) (hs : IsFloat32 s) (h : 4 / 5 < s) :
    compressSample (fin s) = fin (roundBinary 24 (-149) (4 / 5 + (s - 4 / 5) / 4)) ∧
      float32FourFifths ≤ roundBinary 24 (-149) (4 / 5 + (s - 4 / 5) / 4) ∧
      roundBinary 24 (-149) (4 / 5 + (s - 4 / 5) / 4) ≤ s := by
  have hs0 : 0 < s := by linarith
  have h1 : float32FourFifths ≤ roundBinary 24 (-149) (4 / 5 + (s - 4 / 5) / 4) := by
    rw [← roundBinary_four_fifths]
    exact roundBinary_mono 24 (by norm_num) _ (by linarith)
  have h2 : roundBinary 24 (-149) (4 / 5 + (s - 4 / 5) / 4) ≤ s := by
    have := roundBinary_mono 24 (by norm_num) (-149) (x := 4 / 5 + (s - 4 / 5) / 4) (y := s)
      (by linarith)
    rwa [roundBinary_of_isFloat32 hs] at this
  have h3 : |roundBinary 24 (-149) (4 / 5 + (s - 4 / 5) / 4)| ≤ maxFloat32 := by
    have hmax := abs_le_of_isFloat32 hs
    rw [abs_of_pos hs0] at hmax
    have hpos : (0 : ℚ) < float32FourFifths := by unfold float32FourFifths; norm_num
    rw [abs_of_pos (by linarith)]
    linarith
  refine ⟨?_, h1, h2⟩
  have habs : |s| = s := abs_of_pos hs0
  have hgt : (0.8 : ℚ) < |s| := by rw [habs]; norm_num; linarith
  rw [compressSample_fin, if_pos hgt, if_pos hs0.le, habs]
  have he : (1 : ℚ) * (0.8 + (s - 0.8) / 4) = 4 / 5 + (s - 4 / 5) / 4 := by norm_num
  rw [he]
  unfold toFloat32
  rw [if_pos h3]

/-- The compression of a float32 sample below the negated threshold. -/
theorem compressSample_below (s : ℚ) (hs : IsFloat32 s) (h : s < -(4 / 5)) :
    compressSample (fin s) = fin (roundBinary 24 (-149) (-(4 / 5 + (-s - 4 / 5) / 4))) ∧
      s ≤ roundBinary 24 (-149) (-(4 / 5 + (-s - 4 / 5) / 4)) ∧
      roundBinary 24 (-149) (-(4 / 5 + (-s - 4 / 5) / 4)) ≤ -float32FourFifths := by
  have hs0 : s < 0 := by linarith
  have h1 : roundBinary 24 (-149) (-(4 / 5 + (-s - 4 / 5) / 4)) ≤ -float32FourFifths := by
    rw [← roundBinary_four_fifths, ← roundBinary_neg]
    exact roundBinary_mono 24 (by norm_num) _ (by linarith)
  have h2 : s ≤ roundBinary 24 (-149) (-(4 / 5 + (-s - 4 / 5) / 4)) := by
    have := roundBinary_mono 24 (by norm_num) (-149) (x := s)
      (y := -(4 / 5 + (-s - 4 / 5) / 4)) (by linarith)
    rwa [roundBinary_of_isFloat32 hs] at this
  have h3 : |roundBinary 24 (-149) (-(4 / 5 + (-s - 4 / 5) / 4))| ≤ maxFloat32 := by
    have hmax := abs_le_of_isFloat32 hs
    rw [abs_of_neg hs0] at hmax
    have hpos : (0 : ℚ) < float32FourFifths := by unfold float32FourFifths; norm_num
    rw [abs_of_neg (by linarith)]
    linarith
  refine ⟨?_, h2, h1⟩
  have habs : |s| = -s := abs_of_neg hs0
  have hgt : (0.8 : ℚ) < |s| := by rw [habs]; norm_num; linarith
  rw [compressSample_fin, if_pos hgt, if_neg (not_le.mpr hs0), habs]
  have he : (-1 : ℚ) * (0.8 + (-s - 0.8) / 4) = -(4 / 5 + (-s - 4 / 5) / 4) := by norm_num
  rw [he]
  unfold toFloat32
  rw [if_pos h3]

/-- C12, as the code has it: the compression step leaves a float32 sample `s` with
`|s| ≤ 0.8` unchanged; for a float32 sample with `|s| > 0.8` it computes
`sign(s) * (0.8 + (|s| - 0.8) / 4)`, whose magnitude is greater than 0.8 and strictly smaller
than `|s|`, and keeps the float32 nearest to it, which has the sign of `s` and a magnitude
greater than 0.8 and at most `|s|`. -/
theorem compressSample_spec (s : ℚ) (hs : IsFloat32 s) :
    (|s| ≤ 0.8 → compressSample (fin s) = fin s) ∧
      (|s| > 0.8 →
        compressSample (fin s) = toFloat32 ((SignType.sign s : ℚ) * (0.8 + (|s| - 0.8) / 4)) ∧
          |(SignType.sign s : ℚ) * (0.8 + (|s| - 0.8) / 4)| < |s| ∧
          0.8 < |(SignType.sign s : ℚ) * (0.8 + (|s| - 0.8) / 4)| ∧
          ∃ c : ℚ, compressSample (fin s) = fin c ∧ IsFloat32 c ∧
            SignType.sign c = SignType.sign s ∧ |c| ≤ |s| ∧ 0.8 < |c|) := by
  have hf : (0.8 : ℚ) < float32FourFifths := by unfold float32FourFifths; norm_num
  constructor
  · intro h
    rw [compressSample_fin, if_neg (not_lt.mpr h)]
    exact hs
  · intro h
    have hpos : (0 : ℚ) < 0.8 + (|s| - 0.8) / 4 := by linarith
    rcases lt_or_le s 0 with hneg | hnn
    · have habs : |s| = -s := abs_of_neg hneg
      have hlt : s < -(4 / 5) := by rw [habs] at h; norm_num at h; linarith
      obtain ⟨hc, h1, h2⟩ := compressSample_below s hs hlt
      have hv : ((SignType.sign s : ℚ)) * (0.8 + (|s| - 0.8) / 4) =
          -(4 / 5 + (-s - 4 / 5) / 4) := by
        rw [sign_neg hneg, habs]; norm_num
      have hcs : compressSample (fin s) =
          toFloat32 ((SignType.sign s : ℚ) * (0.8 + (|s| - 0.8) / 4)) := by
        rw [compressSample_fin, if_pos h, if_neg (not_le.mpr hneg), sign_neg hneg]
        norm_num
      have hcneg : roundBinary 24 (-149) (-(4 / 5 + (-s - 4 / 5) / 4)) < 0 := by linarith
      refine ⟨hcs, ?_, ?_, _, hc, ?_, ?_, ?_, ?_⟩
      · rw [hv, abs_of_neg (by linarith), habs]; linarith
      · rw [hv, abs_of_neg (by linarith)]; norm_num; linarith
      · rw [hcs, hv] at hc; exact isFloat32_toFloat32 hc
      · rw [sign_neg hneg, sign_neg hcneg]
      · rw [abs_of_neg hcneg, habs]; linarith
      · rw [abs_of_neg hcneg]; linarith
    · have hs0 : 0 < s := by
        rcases eq_or_lt_of_le hnn with h0 | h0
        · rw [← h0] at h; norm_num at h
        · exact h0
      have habs : |s| = s := abs_of_pos hs0
      have hgt : 4 / 5 < s := by rw [habs] at h; norm_num at h; linarith
      obtain ⟨hc, h1, h2⟩ := compressSample_above s hs hgt
      have hv : ((SignType.sign s : ℚ)) * (0.8 + (|s| - 0.8) / 4) =
          4 / 5 + (s - 4 / 5) / 4 := by
        rw [sign_pos hs0, habs]; norm_num
      have hcs : compressSample (fin s) =
          toFloat32 ((SignType.sign s : ℚ) * (0.8 + (|s| - 0.8) / 4)) := by
        rw [compressSample_fin, if_pos h, if_pos hnn, sign_pos hs0]
        norm_num
      have hcpos : 0 < roundBinary 24 (-149) (4 / 5 + (s - 4 / 5) / 4) := by linarith
      refine ⟨hcs, ?_, ?_, _, hc, ?_, ?_, ?_, ?_⟩
      · rw [hv, abs_of_pos (by linarith), habs]; linarith
      · rw [hv, abs_of_pos (by linarith)]; norm_num; linarith
      · rw [hcs, hv] at hc; exact isFloat32_toFloat32 hc
      · rw [sign_pos hs0, sign_pos hcpos]
      · rw [abs_of_pos hcpos, habs]; exact h2
      · rw [abs_of_pos hcpos]; linarith

theorem compressSample_spec_witness :
    IsFloat32 float32FourFifths ∧
      (|float32FourFifths| ≤ 0.8 → compressSample (fin float32FourFifths) =
        fin float32FourFifths) ∧
      (|float32FourFifths| > 0.8 →
        compressSample (fin float32FourFifths) =
          toFloat32 ((SignType.sign float32FourFifths : ℚ) *
            (0.8 + (|float32FourFifths| - 0.8) / 4)) ∧
          |(SignType.sign float32FourFifths : ℚ) * (0.8 + (|float32FourFifths| - 0.8) / 4)| <
            |float32FourFifths| ∧
          0.8 < |(SignType.sign float32FourFifths : ℚ) *
            (0.8 + (|float32FourFifths| - 0.8) / 4)| ∧
          ∃ c : ℚ, compressSample (fin float32FourFifths) = fin c ∧ IsFloat32 c ∧
            SignType.sign c = SignType.sign float32FourFifths ∧ |c| ≤ |float32FourFifths| ∧
            0.8 < |c|) :=
  ⟨isFloat32_fourFifths, compressSample_spec float32FourFifths isFloat32_fourFifths⟩

/-- C12, as the claim states it, fails: the float32 nearest to `0.8`, `13421773 / 2^24`, is
above the threshold, and the value computed for it rounds back to it, so that the compressed
sample has the same magnitude, not a strictly smaller one. -/
theorem compressSample_spec_counterexample :
    IsFloat32 float32FourFifths ∧ |float32FourFifths| > 0.8 ∧
      compressSample (fin float32FourFifths) = fin float32FourFifths ∧
      ∀ c : ℚ, compressSample (fin float32FourFifths) = fin c → ¬ |c| < |float32FourFifths| := by
  have hgt : (4 / 5 : ℚ) < float32FourFifths := by unfold float32FourFifths; norm_num
  obtain ⟨hc, h1, h2⟩ := compressSample_above float32FourFifths isFloat32_fourFifths hgt
  have he : compressSample (fin float32FourFifths) = fin float32FourFifths := by
    rw [hc, le_antisymm h2 h1]
  refine ⟨isFloat32_fourFifths, ?_, he, ?_⟩
  · rw [abs_of_pos (by linarith)]; norm_num; linarith
  · intro c hcc
    rw [he] at hcc
    injection hcc with hcc
    rw [← hcc]
    exact lt_irrefl _

/-! ## The blend loop -/

theorem transformedAfter_length (m : HostMath) (audioData : List ℚ) (w : WaveformData)
    (count : ℕ) : (transformedAfter m audioData w count).length = audioData.length := by
  induction count with
  | zero => simp [transformedAfter]
  | succ k ih => rw [transformedAfter, blend_length, ih]

/-- Under a monotone `Math.pow` the segment loop ends in the state `transformedAfter`. -/
theorem segmentLoop_eq (m : HostMath) (hm : m.PowMonotone) (audioData : List ℚ)
    (w : WaveformData) (count : ℕ) :
    segmentLoop m audioData w count =
      some (loopStateAfter m audioData w count (transformedAfter m audioData w count)) := by
  induction count with
  | zero => simp [segmentLoop, loopStateAfter, transformedAfter]
  | succ n ih =>
    obtain ⟨c, hc⟩ := simplePitchShift_isSome m hm audioData w n
    have hcs : correctedSegment m audioData w n = c := by simp [correctedSegment, hc]
    unfold segmentLoop at ih ⊢
    rw [List.range_succ, List.foldlM_append, ih]
    simp [segmentStep, hc, loopStateAfter, List.range_succ, transformedAfter, hcs]

/-- The transformation returns the normalised compression of `transformedAfter`. -/
theorem applyWaveformTransformation_eq (m : HostMath) (hm : m.PowMonotone)
    (audioData : List ℚ) (waveformData : WaveformData) (haudio : audioData ≠ [])
    (hfit : m.Admits audioData waveformData) :
    ∃ final,
      normalizeAudio m
          ((transformedAfter m audioData waveformData (numSegments audioData.length)).map
            compressSample) = some final ∧
        applyWaveformTransformation m audioData waveformData =
          some
            { samples := final
              originalOctaves := (List.range (numSegments audioData.length)).map fun k =>
                analyzePitch m (segmentAudio audioData k) sampleRate
              octaveChanges :=
                (List.range (numSegments audioData.length)).map
                  (targetOctave waveformData) } := by
  have h0 : audioData.length ≠ 0 := by simpa using haudio
  obtain ⟨h1, h2, h3⟩ := hfit
  obtain ⟨final, hfinal⟩ := normalizeAudio_isSome m
    ((transformedAfter m audioData waveformData (numSegments audioData.length)).map
      compressSample) (by rw [List.length_map, transformedAfter_length]; exact h1)
  refine ⟨final, hfinal, ?_⟩
  simp only [applyWaveformTransformation, h0, if_false, WaveformData.lengthProperty,
    not_lt.mpr h2, not_lt.mpr h3, segmentLoop_eq m hm]
  simp only [loopStateAfter, hfinal]
  rfl

theorem foldl_set_length {α : Type} (f : ℕ → α) (start : ℕ) (l : List ℕ) (out : List α) :
    (l.foldl (fun acc i => acc.set (start + i) (f i)) out).length = out.length := by
  induction l generalizing out with
  | nil => rfl
  | cons i l ih => simp only [List.foldl_cons]; rw [ih]; simp

/-- The writes of a loop `out[start + i] = f i` for `i < count`. -/
theorem foldl_set_getD {α : Type} (d : α) (f : ℕ → α) (start count : ℕ) (out : List α) (p : ℕ)
    (hlen : count ≤ out.length - start) :
    ((List.range count).foldl (fun acc i => acc.set (start + i) (f i)) out).getD p d =
      if start ≤ p ∧ p < start + count then f (p - start) else out.getD p d := by
  induction count with
  | zero =>
    have h : ¬ (start ≤ p ∧ p < start + 0) := by omega
    rw [if_neg h]
    rfl
  | succ n ih =>
    have ihn := ih (by omega)
    have hl := foldl_set_length f start (List.range n) out
    rw [List.range_succ, List.foldl_append]
    simp only [List.foldl_cons, List.foldl_nil]
    simp only [List.getD_eq_getElem?_getD] at ihn ⊢
    rw [List.getElem?_set]
    by_cases hp : start + n = p
    · subst hp
      simp [hl, show start + n < out.length by omega]
    · rw [if_neg hp, ihn]
      by_cases h1 : start ≤ p ∧ p < start + n
      · rw [if_pos h1, if_pos ⟨h1.1, by omega⟩]
      · rw [if_neg h1, if_neg (by omega)]

/-- The blend loop writes exactly the positions `start + i` for
`i < min(correctedSegment.length, audioLength - start)`. -/
theorem blend_getD (audioData : List ℚ) (c : List JSNum) (start : ℕ) (out : List JSNum)
    (p : ℕ) (hlen : out.length = audioData.length) :
    (blend audioData c start out).getD p (fin 0) =
      if start ≤ p ∧ p < start + Min.min c.length (audioData.length - start) then
        blendSample (JSNum.orZero (c.getD (p - start) (fin 0))) (audioData.getD p 0)
      else out.getD p (fin 0) := by
  have h := foldl_set_getD (fin 0)
    (fun i => blendSample (JSNum.orZero (c.getD i (fin 0))) (audioData.getD (start + i) 0))
    start (Min.min c.length (audioData.length - start)) out p (by
      rw [hlen]; exact min_le_right _ _)
  have hb : blend audioData c start out =
      (List.range (Min.min c.length (audioData.length - start))).foldl
        (fun acc i => acc.set (start + i)
          (blendSample (JSNum.orZero (c.getD i (fin 0))) (audioData.getD (start + i) 0)))
        out := by
    unfold blend
    congr 1
  rw [hb, h]
  by_cases hp : start ≤ p ∧ p < start + Min.min c.length (audioData.length - start)
  · simp only [if_pos hp, show start + (p - start) = p from by omega]
  · rw [if_neg hp, if_neg hp]

/-- The value iteration `k` leaves at a position. -/
theorem transformedAfter_succ_getD (m : HostMath) (audioData : List ℚ) (w : WaveformData)
    (k p : ℕ) :
    (transformedAfter m audioData w (k + 1)).getD p (fin 0) =
      if k * samplesPerSegment ≤ p ∧
          p < k * samplesPerSegment +
            Min.min (correctedSegment m audioData w k).length
              (audioData.length - k * samplesPerSegment) then
        blendSample
          (JSNum.orZero ((correctedSegment m audioData w k).getD (p - k * samplesPerSegment)
            (fin 0)))
          (audioData.getD p 0)
      else (transformedAfter m audioData w k).getD p (fin 0) := by
  rw [transformedAfter, blend_getD _ _ _ _ _ (transformedAfter_length m audioData w k)]

theorem getD_of_forall {α : Type} (P : α → Prop) (l : List α) (d : α) (hd : P d)
    (h : ∀ v ∈ l, P v) (i : ℕ) : P (l.getD i d) := by
  by_cases hi : i < l.length
  · rw [List.getD_eq_getElem _ _ hi]; exact h _ (List.getElem_mem _)
  · rw [List.getD_eq_default _ _ (not_lt.mp hi)]; exact hd

theorem forall_of_getD {α : Type} (P : α → Prop) (l : List α) (d : α)
    (h : ∀ p, P (l.getD p d)) : ∀ v ∈ l, P v := by
  intro v hv
  obtain ⟨i, hi, rfl⟩ := List.getElem_of_mem hv
  rw [← List.getD_eq_getElem l d hi]
  exact h i

/-! ## Silence stays silent -/

theorem readOr0_zero (l : List ℚ) (h : ∀ v ∈ l, v = 0) (i : ℤ) : readOr0 l i = 0 := by
  unfold readOr0
  split
  · rfl
  · exact getD_eq_zero l h _

theorem shiftSample_zero (seg : List ℚ) (h : ∀ v ∈ seg, v = 0) (r : ℚ) (i : ℕ) :
    shiftSample seg r i = fin 0 := by
  simp [shiftSample, readOr0_zero _ h, toFloat32_zero]

theorem blendSample_zero : blendSample (JSNum.orZero (fin 0)) 0 = fin 0 := by
  simp [blendSample, JSNum.orZero, JSNum.mul, JSNum.add, float32Store, toFloat32_zero]

/-- The pitch shifter maps silence to silence. -/
theorem correctedSegment_zero (m : HostMath) (audioData : List ℚ) (w : WaveformData)
    (hzero : ∀ v ∈ audioData, v = 0) (k : ℕ) :
    ∀ v ∈ correctedSegment m audioData w k, v = fin 0 := by
  have hseg : ∀ v ∈ segmentAudio audioData k, v = 0 :=
    fun v hv => hzero v (segmentAudio_mem _ _ v hv)
  intro v hv
  unfold correctedSegment simplePitchShift at hv
  simp only at hv
  split at hv
  · simp at hv
  · simp only [Option.getD_some, List.mem_map, List.mem_range] at hv
    obtain ⟨i, -, rfl⟩ := hv
    split
    · exact shiftSample_zero _ hseg _ _
    · rfl

/-- Over a silent buffer `transformedAudio` stays silent. -/
theorem transformedAfter_zero (m : HostMath) (audioData : List ℚ) (w : WaveformData)
    (hzero : ∀ v ∈ audioData, v = 0) (count : ℕ) :
    ∀ p, (transformedAfter m audioData w count).getD p (fin 0) = fin 0 := by
  induction count with
  | zero =>
    intro p
    exact getD_of_forall (fun s => s = fin 0) _ _ rfl
      (fun v hv => (List.mem_replicate.mp hv).2) p
  | succ k ih =>
    intro p
    rw [transformedAfter_succ_getD]
    split
    · rw [getD_of_forall (fun s => s = fin 0) _ _ rfl (correctedSegment_zero m audioData w hzero k),
        getD_eq_zero _ hzero]
      exact blendSample_zero
    · exact ih p

theorem silentSecond_length : silentSecond.length = 44100 := by
  unfold silentSecond
  exact List.length_replicate _ _

theorem silentTenSeconds_length : silentTenSeconds.length = 441000 := by
  unfold silentTenSeconds
  exact List.length_replicate _ _

theorem admits_silentSecond : refMath.Admits silentSecond alternatingCurve := by
  unfold HostMath.Admits
  rw [silentSecond_length]
  unfold refMath alternatingCurve
  simp

/-- For every non-empty all-zero audio buffer the host admits and every reference curve (for
instance 44100 zeros with a 200-point curve alternating between -1 and 1)
`applyWaveformTransformation` returns a buffer of the same length whose samples are all exactly
0: the peak is 0 and the normalisation leaves the buffer unchanged. -/
theorem applyWaveformTransformation_silence (m : HostMath) (hm : m.PowMonotone)
    (audioData : List ℚ) (waveformData : WaveformData) (haudio : audioData ≠ [])
    (hzero : ∀ v ∈ audioData, v = 0) (hfit : m.Admits audioData waveformData) :
    ∃ result, applyWaveformTransformation m audioData waveformData = some result ∧
      result.samples = List.replicate audioData.length (fin 0) := by
  obtain ⟨final, hfinal, h⟩ :=
    applyWaveformTransformation_eq m hm audioData waveformData haudio hfit
  refine ⟨_, h, ?_⟩
  have hz : ∀ v ∈ transformedAfter m audioData waveformData (numSegments audioData.length),
      v = fin 0 :=
    forall_of_getD (fun s => s = fin 0) _ (fin 0)
      (transformedAfter_zero m audioData waveformData hzero _)
  have hrep : transformedAfter m audioData waveformData (numSegments audioData.length) =
      List.replicate audioData.length (fin 0) := by
    rw [List.eq_replicate_iff]
    exact ⟨transformedAfter_length _ _ _ _, hz⟩
  rw [hrep, List.map_replicate, compressSample_zero, normalizeAudio_zero m _ hfit.1] at hfinal
  injection hfinal with hfinal
  exact hfinal.symm

theorem applyWaveformTransformation_silence_witness :
    refMath.PowMonotone ∧ silentSecond ≠ [] ∧ (∀ v ∈ silentSecond, v = 0) ∧
      refMath.Admits silentSecond alternatingCurve ∧
      ∃ result, applyWaveformTransformation refMath silentSecond alternatingCurve = some result ∧
        result.samples = List.replicate silentSecond.length (fin 0) :=
  have hne : silentSecond ≠ [] := fun h =>
    absurd (congrArg List.length h) (by rw [silentSecond_length]; simp)
  have hz : ∀ v ∈ silentSecond, v = 0 := fun v hv => (List.mem_replicate.mp hv).2
  ⟨refMath_powMonotone, hne, hz, admits_silentSecond,
    applyWaveformTransformation_silence refMath refMath_powMonotone silentSecond
      alternatingCurve hne hz admits_silentSecond⟩

/-- C13: the claim is right and the code is not. Ten seconds of silence (441000 zeros) with
the alternating curve should come back as 441000 zeros; on the reference host they get no
result at all, because the spread of the compressed buffer into `Math.max` passes more
arguments than the host allows. A silent buffer the host admits comes back silent
(`applyWaveformTransformation_silence`). -/
theorem applyWaveformTransformation_silent_ten_seconds :
    silentTenSeconds ≠ [] ∧ (∀ v ∈ silentTenSeconds, v = 0) ∧ alternatingCurve.y ≠ [] ∧
      refMath.maxArguments < silentTenSeconds.length ∧
      applyWaveformTransformation refMath silentTenSeconds alternatingCurve = none := by
  have hlong : refMath.maxArguments < silentTenSeconds.length := by
    rw [silentTenSeconds_length]; show 125500 < 441000; norm_num
  refine ⟨?_, fun v hv => (List.mem_replicate.mp hv).2, ?_, hlong, ?_⟩
  · intro h
    have hlen := congrArg List.length h
    rw [silentTenSeconds_length] at hlen
    exact absurd hlen (by simp)
  · intro h
    have hlen := congrArg List.length h
    simp [alternatingCurve] at hlen
  · exact applyWaveformTransformation_long refMath silentTenSeconds alternatingCurve hlong

/-! ## The samples returned are bounded -/

theorem maxFloat32_pos : (0 : ℚ) < maxFloat32 := by unfold maxFloat32; norm_num

theorem inFloat32Range_zero : InFloat32Range (fin 0) :=
  ⟨0, rfl, by rw [abs_zero]; exact maxFloat32_pos.le⟩

theorem inFloat32Range_toFloat32 (x : ℚ) (h : |x| ≤ maxFloat32) :
    InFloat32Range (toFloat32 x) :=
  ⟨_, (toFloat32_of_abs_le x h).1, (toFloat32_of_abs_le x h).2⟩

theorem readOr0_abs_le (l : List ℚ) (B : ℚ) (hB : 0 ≤ B) (h : ∀ x ∈ l, |x| ≤ B) (i : ℤ) :
    |readOr0 l i| ≤ B := by
  unfold readOr0
  split
  · rw [abs_zero]; exact hB
  · exact getD_of_forall (fun x => |x| ≤ B) l 0 (by show |(0 : ℚ)| ≤ B; rw [abs_zero]; exact hB)
      h _

theorem shiftSample_inRange (seg : List ℚ) (h : ∀ x ∈ seg, |x| ≤ maxFloat32) (r : ℚ) (i : ℕ) :
    InFloat32Range (shiftSample seg r i) := by
  unfold shiftSample
  apply inFloat32Range_toFloat32
  have h1 := readOr0_abs_le seg maxFloat32 maxFloat32_pos.le h ⌊toDouble ((i : ℚ) * r)⌋
  have h2 := readOr0_abs_le seg maxFloat32 maxFloat32_pos.le h (⌊toDouble ((i : ℚ) * r)⌋ + 1)
  have hf0 : 0 ≤ toDouble ((i : ℚ) * r) - ⌊toDouble ((i : ℚ) * r)⌋ :=
    sub_nonneg.mpr (Int.floor_le _)
  have hf1 : toDouble ((i : ℚ) * r) - ⌊toDouble ((i : ℚ) * r)⌋ ≤ 1 := by
    have := Int.lt_floor_add_one (toDouble ((i : ℚ) * r)); linarith
  rw [abs_le] at h1 h2 ⊢
  constructor <;> nlinarith [h1.1, h1.2, h2.1, h2.2]

theorem correctedSegment_inRange (m : HostMath) (audioData : List ℚ) (w : WaveformData)
    (hmag : ∀ x ∈ audioData, |x| ≤ maxFloat32) (k : ℕ) :
    ∀ v ∈ correctedSegment m audioData w k, InFloat32Range v := by
  have hseg : ∀ x ∈ segmentAudio audioData k, |x| ≤ maxFloat32 :=
    fun x hx => hmag x (segmentAudio_mem _ _ x hx)
  intro v hv
  unfold correctedSegment simplePitchShift at hv
  simp only at hv
  split at hv
  · simp at hv
  · simp only [Option.getD_some, List.mem_map, List.mem_range] at hv
    obtain ⟨i, -, rfl⟩ := hv
    split
    · exact shiftSample_inRange _ hseg _ _
    · exact inFloat32Range_zero

theorem blendSample_inRange (c : JSNum) (hc : InFloat32Range c) (o : ℚ)
    (ho : |o| ≤ maxFloat32) : InFloat32Range (blendSample (JSNum.orZero c) o) := by
  obtain ⟨q, rfl, hq⟩ := hc
  simp only [blendSample, JSNum.orZero, JSNum.mul, JSNum.add, float32Store, blendFactor]
  apply inFloat32Range_toFloat32
  rw [abs_le] at hq ho ⊢
  constructor <;> norm_num <;> linarith [hq.1, hq.2, ho.1, ho.2]

/-- Over a buffer within the float32 range `transformedAudio` stays within the range. -/
theorem transformedAfter_inRange (m : HostMath) (audioData : List ℚ) (w : WaveformData)
    (hmag : ∀ x ∈ audioData, |x| ≤ maxFloat32) (count : ℕ) :
    ∀ p, InFloat32Range ((transformedAfter m audioData w count).getD p (fin 0)) := by
  induction count with
  | zero =>
    intro p
    exact getD_of_forall InFloat32Range _ _ inFloat32Range_zero
      (fun v hv => by rw [(List.mem_replicate.mp hv).2]; exact inFloat32Range_zero) p
  | succ k ih =>
    intro p
    rw [transformedAfter_succ_getD]
    split
    · exact blendSample_inRange _
        (getD_of_forall InFloat32Range _ _ inFloat32Range_zero
          (correctedSegment_inRange m audioData w hmag k) _) _
        (getD_of_forall (fun x => |x| ≤ maxFloat32) audioData 0
          (by show |(0 : ℚ)| ≤ maxFloat32; rw [abs_zero]; exact maxFloat32_pos.le) hmag p)
    · exact ih p

theorem compressSample_finite (s : JSNum) (hs : InFloat32Range s) :
    ∃ q : ℚ, compressSample s = fin q := by
  obtain ⟨q, rfl, hq⟩ := hs
  rw [compressSample_fin]
  split
  · rename_i hgt
    have hb : |(if 0 ≤ q then (1 : ℚ) else -1) * (0.8 + (|q| - 0.8) / 4)| ≤ maxFloat32 := by
      have hpos : (0 : ℚ) < 0.8 + (|q| - 0.8) / 4 := by linarith
      rw [abs_mul, abs_of_pos hpos]
      have h1 : |(if 0 ≤ q then (1 : ℚ) else -1)| = 1 := by split <;> simp
      rw [h1]
      linarith
    exact ⟨_, (toFloat32_of_abs_le _ hb).1⟩
  · exact ⟨_, (toFloat32_of_abs_le _ hq).1⟩

theorem exists_map_fin (l : List JSNum) (h : ∀ s ∈ l, ∃ q : ℚ, s = fin q) :
    ∃ qs : List ℚ, l = qs.map fin := by
  induction l with
  | nil => exact ⟨[], rfl⟩
  | cons a t ih =>
    obtain ⟨q, hq⟩ := h a (List.mem_cons_self _ _)
    obtain ⟨qs, hqs⟩ := ih fun s hs => h s (List.mem_cons_of_mem _ hs)
    exact ⟨q :: qs, by rw [hq, hqs]; rfl⟩

/-- C2, as the code has it: for every non-empty audio buffer the host admits whose samples
lie within the float32 range, and every reference curve, every sample `s` of the buffer
`applyWaveformTransformation` returns is finite and satisfies `-0.9 ≤ s ≤ 0.9`. -/
theorem applyWaveformTransformation_bound (m : HostMath) (hm : m.PowMonotone)
    (audioData : List ℚ) (waveformData : WaveformData) (haudio : audioData ≠ [])
    (hfit : m.Admits audioData waveformData) (hmag : ∀ x ∈ audioData, |x| ≤ maxFloat32) :
    ∃ result, applyWaveformTransformation m audioData waveformData = some result ∧
      result.samples.length = audioData.length ∧
      ∀ s ∈ result.samples, ∃ q : ℚ, s = fin q ∧ -0.9 ≤ q ∧ q ≤ 0.9 := by
  obtain ⟨final, hfinal, h⟩ :=
    applyWaveformTransformation_eq m hm audioData waveformData haudio hfit
  have hrange : ∀ v ∈ transformedAfter m audioData waveformData (numSegments audioData.length),
      InFloat32Range v :=
    forall_of_getD InFloat32Range _ (fin 0)
      (transformedAfter_inRange m audioData waveformData hmag _)
  obtain ⟨cs, hcs⟩ := exists_map_fin
    ((transformedAfter m audioData waveformData (numSegments audioData.length)).map
      compressSample) (by
        intro s hs
        obtain ⟨v, hv, rfl⟩ := List.mem_map.mp hs
        exact compressSample_finite v (hrange v hv))
  have hlen : cs.length = audioData.length := by
    have := congrArg List.length hcs
    rw [List.length_map, List.length_map, transformedAfter_length] at this
    exact this.symm
  obtain ⟨f, hf, hb⟩ := normalizeAudio_bound m cs (by rw [hlen]; exact hfit.1)
  rw [hcs, hf] at hfinal
  injection hfinal with hfinal
  subst hfinal
  refine ⟨_, h, ?_, hb⟩
  have := normalizeAudio_length m _ _ hf
  simp only [List.length_map] at this
  rw [this, hlen]

theorem sampleAudio_inRange : ∀ x ∈ sampleAudio, |x| ≤ maxFloat32 := by
  intro x hx
  have h1 : |x| ≤ 1 := by
    simp only [sampleAudio, List.mem_cons, List.mem_singleton, List.not_mem_nil, or_false] at hx
    rcases hx with rfl | rfl | rfl <;> rw [abs_le] <;> constructor <;> norm_num
  have h2 : (1 : ℚ) ≤ maxFloat32 := by unfold maxFloat32; norm_num
  linarith

theorem applyWaveformTransformation_bound_witness :
    refMath.PowMonotone ∧ sampleAudio ≠ [] ∧ refMath.Admits sampleAudio sampleCurve ∧
      (∀ x ∈ sampleAudio, |x| ≤ maxFloat32) ∧
      ∃ result, applyWaveformTransformation refMath sampleAudio sampleCurve = some result ∧
        result.samples.length = sampleAudio.length ∧
        ∀ s ∈ result.samples, ∃ q : ℚ, s = fin q ∧ -0.9 ≤ q ∧ q ≤ 0.9 :=
  ⟨refMath_powMonotone, by simp [sampleAudio], sampleAudio_admitted, sampleAudio_inRange,
    applyWaveformTransformation_bound refMath refMath_powMonotone sampleAudio sampleCurve
      (by simp [sampleAudio]) sampleAudio_admitted sampleAudio_inRange⟩

/-! ## The blend within a segment's span -/

/-- Iterations after segment `k` do not write below the end of the span of segment `k`. -/
theorem transformedAfter_stable (m : HostMath) (audioData : List ℚ) (w : WaveformData)
    (k count p : ℕ) (hcount : k + 1 ≤ count) (hp : p < (k + 1) * samplesPerSegment) :
    (transformedAfter m audioData w count).getD p (fin 0) =
      (transformedAfter m audioData w (k + 1)).getD p (fin 0) := by
  induction count with
  | zero => omega
  | succ j ih =>
    rcases Nat.lt_or_ge j (k + 1) with hj | hj
    · have : j = k := by omega
      subst this; rfl
    · rw [transformedAfter_succ_getD, if_neg, ih hj]
      intro hc
      have : (k + 1) * samplesPerSegment ≤ j * samplesPerSegment :=
        Nat.mul_le_mul_right _ hj
      omega

/-- The value the blend loop stores for a finite corrected sample: the float32 nearest to
`0.6 * corrected + 0.4 * original`. -/
theorem blendSample_fin (c a : ℚ) :
    blendSample (JSNum.orZero (fin c)) a = toFloat32 (0.6 * c + 0.4 * a) := by
  simp only [blendSample, JSNum.orZero, JSNum.mul, JSNum.add, float32Store, blendFactor]
  congr 1
  norm_num
  ring

/-- C15, as the code has it: for every segment `k` of a run over a buffer the host admits and
every position `pos` of its span `[k * 4410, min((k + 1) * 4410, n))`, when the segment's own
pitch-shifted buffer `corrected` reaches the position (`pos - k * 4410 < len(corrected)`) the
pre-compression output is the value the blend stores for `corrected[pos - k * 4410]` and
`audio[pos]`, which for a finite corrected sample is the float32 nearest to
`0.6 * corrected[pos - k * 4410] + 0.4 * audio[pos]`; when it does not, the blend of segment
`k` does not write the position, which keeps what the earlier iterations left there
(initially 0). -/
theorem blend_within_span (m : HostMath) (hm : m.PowMonotone) (audioData : List ℚ)
    (waveformData : WaveformData) (k pos : ℕ) (hk : k < numSegments audioData.length)
    (hlo : k * samplesPerSegment ≤ pos)
    (hhi : pos < Min.min ((k + 1) * samplesPerSegment) audioData.length)
    (hfit : m.Admits audioData waveformData) :
    ∃ corrected output result,
      simplePitchShift m (segmentAudio audioData k) (pitchRatio m audioData waveformData k) =
        some corrected ∧
      output = transformedAfter m audioData waveformData (numSegments audioData.length) ∧
      applyWaveformTransformation m audioData waveformData = some result ∧
      normalizeAudio m (output.map compressSample) = some result.samples ∧
      (pos - k * samplesPerSegment < corrected.length →
        output.getD pos (fin 0) =
            blendSample (JSNum.orZero (corrected.getD (pos - k * samplesPerSegment) (fin 0)))
              (audioData.getD pos 0) ∧
          ∀ c : ℚ, corrected.getD (pos - k * samplesPerSegment) (fin 0) = fin c →
            output.getD pos (fin 0) = toFloat32 (0.6 * c + 0.4 * audioData.getD pos 0)) ∧
      (corrected.length ≤ pos - k * samplesPerSegment →
        output.getD pos (fin 0) =
          (transformedAfter m audioData waveformData k).getD pos (fin 0)) ∧
      (transformedAfter m audioData waveformData 0).getD pos (fin 0) = fin 0 := by
  obtain ⟨c, hc⟩ := simplePitchShift_isSome m hm audioData waveformData k
  have hcs : correctedSegment m audioData waveformData k = c := by simp [correctedSegment, hc]
  have hne : audioData ≠ [] := by
    intro h; rw [h] at hhi; simp at hhi
  have hst := transformedAfter_stable m audioData waveformData k (numSegments audioData.length)
    pos hk (lt_of_lt_of_le hhi (min_le_left _ _))
  have hn : pos < audioData.length := lt_of_lt_of_le hhi (min_le_right _ _)
  obtain ⟨final, hfinal, happ⟩ :=
    applyWaveformTransformation_eq m hm audioData waveformData hne hfit
  have hwrite : pos - k * samplesPerSegment < c.length →
      (transformedAfter m audioData waveformData (numSegments audioData.length)).getD pos
          (fin 0) =
        blendSample (JSNum.orZero (c.getD (pos - k * samplesPerSegment) (fin 0)))
          (audioData.getD pos 0) := by
    intro hcov
    rw [hst, transformedAfter_succ_getD, hcs, if_pos ⟨hlo, by
      have : pos - k * samplesPerSegment <
          Min.min c.length (audioData.length - k * samplesPerSegment) :=
        lt_min hcov (by omega)
      omega⟩]
  refine ⟨c, _, _, hc, rfl, happ, hfinal, ?_, ?_, ?_⟩
  · intro hcov
    refine ⟨hwrite hcov, ?_⟩
    intro q hq
    rw [hwrite hcov, hq, blendSample_fin]
  · intro hunc
    rw [hst, transformedAfter_succ_getD, hcs, if_neg]
    intro hcond
    have : Min.min c.length (audioData.length - k * samplesPerSegment) ≤ c.length :=
      min_le_left _ _
    omega
  · exact getD_of_forall (fun s => s = fin 0) _ _ rfl
      (fun v hv => (List.mem_replicate.mp hv).2) pos


theorem correlationSum_of_products_zero (seg : List ℚ) (lag : ℕ)
    (h : ∀ i, seg.getD i 0 * seg.getD (i + lag) 0 = 0) : correlationSum seg lag = 0 := by
  unfold correlationSum
  generalize List.range _ = l
  simp only [h, add_zero]
  induction l with
  | nil => rfl
  | cons i l ih => simp only [List.foldl_cons]; exact ih

/-- A segment without two non-zero samples at a distance of 22 or more has no positive
correlation, and its octave at 44100 Hz is the one of `minLag = 22`. -/
theorem analyzePitch_of_products_zero (m : HostMath) (seg : List ℚ) (hne : seg ≠ [])
    (h : ∀ i lag, 22 ≤ lag → seg.getD i 0 * seg.getD (i + lag) 0 = 0) :
    analyzePitch m seg sampleRate = fin (Max.max 0 (Min.min 8 (m.log2 (2205 / 484) + 4))) := by
  have h0 : seg.length ≠ 0 := by simpa using hne
  have hc : ∀ b, ∀ v ∈ correlationArray seg 22 b, v ≤ 0 := by
    intro b v hv
    obtain ⟨lag, hlag, rfl⟩ := List.mem_map.mp hv
    have : 22 ≤ lag := (List.mem_range'_1.mp hlag).1
    exact (correlationSum_of_products_zero seg lag fun i => h i lag this).le
  simp only [analyzePitch, h0, if_false, minLag_44100, peakSearch_of_nonpos _ _ (hc _),
    octave_of_lag m sampleRate (by unfold sampleRate; norm_num)]
  norm_num [sampleRate]

theorem refMath_log2_val : refMath.log2 (2205 / 484) = 4141 / 1936 := log2Ref_val

theorem analyzePitch_refMath_of_products_zero (seg : List ℚ) (hne : seg ≠ [])
    (h : ∀ i lag, 22 ≤ lag → seg.getD i 0 * seg.getD (i + lag) 0 = 0) :
    analyzePitch refMath seg sampleRate = fin (11885 / 1936) := by
  rw [analyzePitch_of_products_zero refMath seg hne h, refMath_log2_val]
  norm_num

/-- The ratio of the reference host for a target octave of at most 4 over such a segment: the
difference is limited to -2 and the ratio is 1/4. -/
theorem pitchRatio_refMath_low (audioData : List ℚ) (w : WaveformData) (k : ℕ) (t : ℚ)
    (ht : targetOctave w k = fin t) (hle : t ≤ 4)
    (ho : analyzePitch refMath (segmentAudio audioData k) sampleRate = fin (11885 / 1936)) :
    pitchRatio refMath audioData w k = fin (1 / 4) := by
  have hl : Min.min (2 : ℚ) (t + -(11885 / 1936)) = t + -(11885 / 1936) := by
    rw [min_eq_right]; linarith
  have hm : Max.max (-2 : ℚ) (t + -(11885 / 1936)) = -2 := by
    rw [max_eq_left]; linarith
  have hf : ⌊(-2 : ℚ)⌋ = -2 := by rw [Int.floor_eq_iff]; norm_num
  simp only [pitchRatio, ht, ho, JSNum.sub, JSNum.neg, JSNum.add, JSNum.min, JSNum.max,
    mathPow2, hl, hm]
  show fin (pow2Ref (-2)) = _
  rw [pow2Ref, hf]
  norm_num

/-- The ratio of the reference host for a target octave 8 over such a segment. -/
theorem pitchRatio_refMath_high (audioData : List ℚ) (w : WaveformData) (k : ℕ)
    (ht : targetOctave w k = fin 8)
    (ho : analyzePitch refMath (segmentAudio audioData k) sampleRate = fin (11885 / 1936)) :
    pitchRatio refMath audioData w k = fin (3603 / 968) := by
  have hl : Min.min (2 : ℚ) (8 + -(11885 / 1936)) = 3603 / 1936 := by
    rw [min_eq_right]; norm_num; norm_num
  have hm : Max.max (-2 : ℚ) (3603 / 1936) = 3603 / 1936 := by
    rw [max_eq_right]; norm_num
  have hf : ⌊(3603 / 1936 : ℚ)⌋ = 1 := by rw [Int.floor_eq_iff]; norm_num
  simp only [pitchRatio, ht, ho, JSNum.sub, JSNum.neg, JSNum.add, JSNum.min, JSNum.max,
    mathPow2, hl, hm]
  show fin (pow2Ref (3603 / 1936)) = _
  rw [pow2Ref, hf]
  norm_num

theorem targetOctave_falling_0 : targetOctave fallingCurve 0 = fin 8 := by
  have hw : waveformIndex fallingCurve 0 = 1 / 100 := by
    simp only [waveformIndex, fallingCurve, segmentDuration, List.length_cons, List.length_nil]
    norm_num
  have hf : ⌊waveformIndex fallingCurve 0⌋ = 0 := by
    rw [hw, Int.floor_eq_iff]; norm_num
  have hy : yValue fallingCurve 0 = 1 := by
    have h1 : readOr0 fallingCurve.y 0 = 1 := by simp [fallingCurve, readOr0]
    have h2 : readOr0 fallingCurve.y (Min.min (0 + 1) ((fallingCurve.y.length : ℤ) - 1)) = 1 := by
      simp [fallingCurve, readOr0]
    simp only [yValue, hf, h1, h2]
    ring
  have hmin : minY fallingCurve = fin 0 := by
    simp only [minY, fallingCurve, mathMin, List.foldl_cons, List.foldl_nil, JSNum.min]
    norm_num
  have hmax : maxY fallingCurve = fin 1 := by
    simp only [maxY, fallingCurve, mathMax, List.foldl_cons, List.foldl_nil, JSNum.max]
    norm_num
  rw [targetOctave_of_bounds fallingCurve 0 1 hmin hmax (by norm_num), hy]
  norm_num

theorem segmentAudio_single (x : ℚ) : segmentAudio [x] 0 = [x] := by
  simp [segmentAudio, samplesPerSegment_eq]

theorem toDouble_of_grid (n j : ℤ) (hn : |n| < 9007199254740992) (hj : -1074 ≤ j) :
    toDouble (n * (2 : ℚ) ^ j) = n * (2 : ℚ) ^ j :=
  roundBinary_of_grid 53 (-1074) n j (by norm_num; exact hn) hj

theorem toFloat32_of_grid (n j : ℤ) (hn : |n| < 16777216) (hj : -149 ≤ j)
    (hb : |(n : ℚ) * (2 : ℚ) ^ j| ≤ maxFloat32) :
    toFloat32 (n * (2 : ℚ) ^ j) = fin (n * (2 : ℚ) ^ j) := by
  have h := roundBinary_of_grid 24 (-149) n j (by norm_num; exact hn) hj
  unfold toFloat32
  rw [h, if_pos hb]

theorem toFloat32_one : toFloat32 1 = fin 1 := by
  have h := toFloat32_of_grid 1 0 (by norm_num) (by norm_num) (by
    unfold maxFloat32; norm_num)
  simpa using h

theorem toFloat32_half : toFloat32 (1 / 2) = fin (1 / 2) := by
  have h := toFloat32_of_grid 1 (-1) (by norm_num) (by norm_num) (by
    unfold maxFloat32; norm_num [abs_of_pos])
  have e : ((1 : ℤ) : ℚ) * (2 : ℚ) ^ (-1 : ℤ) = 1 / 2 := by norm_num
  rwa [e] at h

theorem toFloat32_fifth : toFloat32 (1 / 5) = fin (13421773 / 67108864) := by
  have h := roundBinary_eval 24 (-149) (1 / 5) (-3) (-26) 13421773
    (by norm_num [abs_of_pos]) (by norm_num [abs_of_pos]) (by norm_num)
    (by rw [abs_lt]; constructor <;> norm_num)
  unfold toFloat32
  rw [h, if_pos (by unfold maxFloat32; norm_num [abs_of_pos])]
  norm_num

theorem toFloat32_three_fifths : toFloat32 (3 / 5) = fin (10066330 / 16777216) := by
  have h := roundBinary_eval 24 (-149) (3 / 5) (-1) (-24) 10066330
    (by norm_num [abs_of_pos]) (by norm_num [abs_of_pos]) (by norm_num)
    (by rw [abs_lt]; constructor <;> norm_num)
  unfold toFloat32
  rw [h, if_pos (by unfold maxFloat32; norm_num [abs_of_pos])]
  norm_num

/-- A quotient below one half allocates no sample. -/
theorem outputLength_zero (x : ℚ) (h : x ≤ 1 / 2) : ⌊toDouble x⌋₊ = 0 := by
  have h1 : toDouble (1 / 2) = 1 / 2 := by
    have := toDouble_of_grid 1 (-1) (by norm_num) (by norm_num)
    have e : ((1 : ℤ) : ℚ) * (2 : ℚ) ^ (-1 : ℤ) = 1 / 2 := by norm_num
    rwa [e] at this
  have h2 : toDouble x ≤ 1 / 2 := by rw [← h1]; exact toDouble_mono h
  rw [Nat.floor_eq_zero]
  linarith

theorem analyzePitch_single (x : ℚ) :
    analyzePitch refMath (segmentAudio [x] 0) sampleRate = fin (11885 / 1936) := by
  rw [segmentAudio_single]
  refine analyzePitch_refMath_of_products_zero _ (by simp) ?_
  intro i lag hlag
  have : ([x] : List ℚ).getD (i + lag) 0 = 0 :=
    List.getD_eq_default _ _ (by simp; omega)
  rw [this, mul_zero]

theorem correctedSegment_falling : correctedSegment refMath [1 / 2] fallingCurve 0 = [] := by
  have hr := pitchRatio_refMath_high [1 / 2] fallingCurve 0 targetOctave_falling_0
    (analyzePitch_single _)
  rw [correctedSegment, hr, segmentAudio_single,
    simplePitchShift_ratio _ _ _ (by norm_num) (by simp)]
  have : ⌊toDouble (((([1 / 2] : List ℚ).length : ℕ) : ℚ) / (3603 / 968))⌋₊ = 0 :=
    outputLength_zero _ (by norm_num)
  rw [this]
  rfl

/-- A read of a segment is a read of the buffer at the segment's offset. -/
theorem segmentAudio_getD (audioData : List ℚ) (k i : ℕ) :
    (segmentAudio audioData k).getD i 0 =
      if i < 4410 then audioData.getD (k * 4410 + i) 0 else 0 := by
  simp only [segmentAudio, samplesPerSegment_eq, List.getD_eq_getElem?_getD,
    List.getElem?_take, List.getElem?_drop]
  by_cases hi : i < 4410
  · rw [if_pos hi]
    by_cases hn : k * 4410 + i < audioData.length
    · rw [if_pos (by omega)]
    · rw [List.getElem?_eq_none (by omega)]
      split <;> simp
  · rw [if_neg hi, if_neg (by omega)]
    rfl

theorem getD_map_range {α : Type} (d : α) (f : ℕ → α) (n i : ℕ) :
    ((List.range n).map f).getD i d = if i < n then f i else d := by
  by_cases hi : i < n
  · rw [if_pos hi, List.getD_eq_getElem _ _ (by simpa using hi)]
    simp
  · rw [if_neg hi, List.getD_eq_default _ _ (by simpa using hi)]

theorem spillAudio_length : spillAudio.length = 4411 := by
  simp [spillAudio]

theorem spillAudio_getD (i : ℕ) :
    spillAudio.getD i 0 = if i = 1102 then 1 else if i = 4410 then 1 / 2 else 0 := by
  rw [spillAudio, getD_map_range]
  split
  · rfl
  · rw [if_neg (by omega), if_neg (by omega)]

theorem numSegments_spillAudio : numSegments spillAudio.length = 2 := by
  rw [spillAudio_length, numSegments_eq, Nat.ceil_eq_iff (by norm_num)]
  norm_num

theorem spillAudio_ne_nil : spillAudio ≠ [] := by
  intro h
  have hlen := congrArg List.length h
  rw [spillAudio_length] at hlen
  exact absurd hlen (by simp)

theorem segmentAudio_spillAudio_ne_zero (k j : ℕ)
    (h : (segmentAudio spillAudio k).getD j 0 ≠ 0) :
    j < 4410 ∧ (k * 4410 + j = 1102 ∨ k * 4410 + j = 4410) := by
  rw [segmentAudio_getD] at h
  by_cases hj : j < 4410
  · rw [if_pos hj, spillAudio_getD] at h
    refine ⟨hj, ?_⟩
    by_contra hne
    rw [if_neg (fun e => hne (Or.inl e)), if_neg (fun e => hne (Or.inr e))] at h
    exact h rfl
  · rw [if_neg hj] at h
    exact absurd rfl h

theorem analyzePitch_spillAudio (k : ℕ) (hk : k < 2) :
    analyzePitch refMath (segmentAudio spillAudio k) sampleRate = fin (11885 / 1936) := by
  refine analyzePitch_refMath_of_products_zero _
    (segmentAudio_ne_nil _ _ (by rw [numSegments_spillAudio]; exact hk)) ?_
  intro i lag hlag
  by_contra hne
  obtain ⟨h1, h2⟩ := mul_ne_zero_iff.mp hne
  obtain ⟨hi, hp⟩ := segmentAudio_spillAudio_ne_zero k i h1
  obtain ⟨hi', hp'⟩ := segmentAudio_spillAudio_ne_zero k (i + lag) h2
  omega

theorem foldl_min_mem (l : List ℚ) (a : ℚ) : l.foldl Min.min a ∈ a :: l := by
  induction l generalizing a with
  | nil => simp
  | cons b l ih =>
    simp only [List.foldl_cons]
    have h := ih (Min.min a b)
    rcases List.mem_cons.mp h with h1 | h1
    · rw [h1]
      rcases min_choice a b with h2 | h2 <;> rw [h2] <;> simp
    · exact List.mem_cons_of_mem _ (List.mem_cons_of_mem _ h1)

theorem foldl_max_mem (l : List ℚ) (a : ℚ) : l.foldl Max.max a ∈ a :: l := by
  induction l generalizing a with
  | nil => simp
  | cons b l ih =>
    simp only [List.foldl_cons]
    have h := ih (Max.max a b)
    rcases List.mem_cons.mp h with h1 | h1
    · rw [h1]
      rcases max_choice a b with h2 | h2 <;> rw [h2] <;> simp
    · exact List.mem_cons_of_mem _ (List.mem_cons_of_mem _ h1)

/-- The value `Math.min(...values)` is the least element of a non-empty array. -/
theorem mathMin_eq_of_mem (l : List ℚ) (lo : ℚ) (hmem : lo ∈ l) (hle : ∀ v ∈ l, lo ≤ v) :
    mathMin l = fin lo := by
  obtain ⟨a, t, rfl⟩ := List.exists_cons_of_ne_nil (List.ne_nil_of_mem hmem)
  rw [mathMin_cons]
  congr 1
  apply le_antisymm
  · rcases List.mem_cons.mp hmem with h | h
    · rw [h]; exact (foldl_min_le t a).1
    · exact (foldl_min_le t a).2 lo h
  · exact hle _ (foldl_min_mem t a)

/-- The value `Math.max(...values)` is the greatest element of a non-empty array. -/
theorem mathMax_eq_of_mem (l : List ℚ) (hi : ℚ) (hmem : hi ∈ l) (hle : ∀ v ∈ l, v ≤ hi) :
    mathMax l = fin hi := by
  obtain ⟨a, t, rfl⟩ := List.exists_cons_of_ne_nil (List.ne_nil_of_mem hmem)
  rw [mathMax_cons]
  congr 1
  apply le_antisymm
  · exact hle _ (foldl_max_mem t a)
  · rcases List.mem_cons.mp hmem with h | h
    · rw [h]; exact (le_foldl_max t a).1
    · exact (le_foldl_max t a).2 hi h

theorem stepCurve_bounds : minY stepCurve = fin 0 ∧ maxY stepCurve = fin 1 := by
  constructor
  · refine mathMin_eq_of_mem _ 0 (List.mem_map.mpr ⟨0, by simp, by simp⟩) ?_
    intro v hv
    obtain ⟨i, -, rfl⟩ := List.mem_map.mp hv
    split <;> norm_num
  · refine mathMax_eq_of_mem _ 1 (List.mem_map.mpr ⟨2, by simp, by simp⟩) ?_
    intro v hv
    obtain ⟨i, -, rfl⟩ := List.mem_map.mp hv
    split <;> norm_num

theorem stepCurve_read (i : ℕ) (hi : i < 200) :
    readOr0 stepCurve.y (i : ℤ) = if i < 2 then 0 else 1 := by
  rw [readOr0_natCast, stepCurve, getD_map_range, if_pos hi]

theorem waveformIndex_step (k : ℕ) :
    waveformIndex stepCurve k = ((k : ℚ) * 0.1 + 0.05) / 10 * 199 := by
  have hx : stepCurve.x.length = 200 := by simp [stepCurve]
  simp only [waveformIndex, hx, segmentDuration]
  norm_num

theorem targetOctave_step_0 : targetOctave stepCurve 0 = fin 0 := by
  have hf : ⌊waveformIndex stepCurve 0⌋ = ((0 : ℕ) : ℤ) := by
    rw [waveformIndex_step, Int.floor_eq_iff]; norm_num
  have hlen : ((stepCurve.y.length : ℤ) - 1) = 199 := by simp [stepCurve]
  have hy : yValue stepCurve 0 = 0 := by
    have h2 : Min.min (((0 : ℕ) : ℤ) + 1) 199 = ((1 : ℕ) : ℤ) := by norm_num
    simp only [yValue, hf, hlen, h2, stepCurve_read 0 (by norm_num),
      stepCurve_read 1 (by norm_num)]
    norm_num
  rw [targetOctave_of_bounds stepCurve 0 1 stepCurve_bounds.1 stepCurve_bounds.2 (by norm_num),
    hy]
  norm_num

theorem targetOctave_step_1 : targetOctave stepCurve 1 = fin 8 := by
  have hf : ⌊waveformIndex stepCurve 1⌋ = ((2 : ℕ) : ℤ) := by
    rw [waveformIndex_step, Int.floor_eq_iff]; norm_num
  have hlen : ((stepCurve.y.length : ℤ) - 1) = 199 := by simp [stepCurve]
  have hy : yValue stepCurve 1 = 1 := by
    have h2 : Min.min (((2 : ℕ) : ℤ) + 1) 199 = ((3 : ℕ) : ℤ) := by norm_num
    simp only [yValue, hf, hlen, h2, stepCurve_read 2 (by norm_num),
      stepCurve_read 3 (by norm_num)]
    norm_num
  rw [targetOctave_of_bounds stepCurve 0 1 stepCurve_bounds.1 stepCurve_bounds.2 (by norm_num),
    hy]
  norm_num

theorem segmentAudio_spillAudio_length_0 : (segmentAudio spillAudio 0).length = 4410 := by
  simp [segmentAudio, samplesPerSegment_eq, spillAudio_length]

theorem segmentAudio_spillAudio_length_1 : (segmentAudio spillAudio 1).length = 1 := by
  simp [segmentAudio, samplesPerSegment_eq, spillAudio_length]

theorem admits_spill : refMath.Admits spillAudio stepCurve := by
  unfold HostMath.Admits
  rw [spillAudio_length]
  unfold refMath stepCurve
  simp

theorem admits_falling : refMath.Admits [1 / 2] fallingCurve := by
  unfold HostMath.Admits refMath fallingCurve
  simp

/-- Segment 0 of the recording is slowed down four times: its corrected segment is the
resampling of the segment at 17640 positions. -/
theorem correctedSegment_spill_0 :
    correctedSegment refMath spillAudio stepCurve 0 =
      (List.range 17640).map (shiftSample (segmentAudio spillAudio 0) (1 / 4)) := by
  have hr := pitchRatio_refMath_low spillAudio stepCurve 0 0 targetOctave_step_0 (by norm_num)
    (analyzePitch_spillAudio 0 (by norm_num))
  have hn : ⌊toDouble (((segmentAudio spillAudio 0).length : ℚ) / (1 / 4))⌋₊ = 17640 := by
    have e : ((segmentAudio spillAudio 0).length : ℚ) / (1 / 4) = ((17640 : ℕ) : ℚ) := by
      rw [segmentAudio_spillAudio_length_0]; norm_num
    rw [e, toDouble_natCast _ (by norm_num)]
    exact Nat.floor_natCast _
  rw [correctedSegment, hr, simplePitchShift_ratio _ _ _ (by norm_num)
    (segmentAudio_length_le _ _), hn, Option.getD_some]

theorem correctedSegment_spill_0_length :
    (correctedSegment refMath spillAudio stepCurve 0).length = 17640 := by
  rw [correctedSegment_spill_0]; simp

/-- The corrected sample 4408 of segment 0 reads the sample 1102 of the segment. -/
theorem correctedSegment_spill_0_4408 :
    (correctedSegment refMath spillAudio stepCurve 0).getD 4408 (fin 0) = fin 1 := by
  rw [correctedSegment_spill_0, getD_map_range, if_pos (by norm_num),
    shiftSample_eq _ _ (by norm_num)]
  have hd : toDouble (((4408 : ℕ) : ℚ) * (1 / 4)) = ((1102 : ℕ) : ℚ) := by
    have e : ((4408 : ℕ) : ℚ) * (1 / 4) = ((1102 : ℕ) : ℚ) := by norm_num
    rw [e, toDouble_natCast _ (by norm_num)]
  rw [hd, Nat.floor_natCast, segmentAudio_getD, segmentAudio_getD, spillAudio_getD,
    spillAudio_getD]
  norm_num
  exact toFloat32_one

/-- The corrected sample 4410 of segment 0 lies halfway between the samples 1102 and 1103 of
the segment. -/
theorem correctedSegment_spill_0_4410 :
    (correctedSegment refMath spillAudio stepCurve 0).getD 4410 (fin 0) = fin (1 / 2) := by
  rw [correctedSegment_spill_0, getD_map_range, if_pos (by norm_num),
    shiftSample_eq _ _ (by norm_num)]
  have hd : toDouble (((4410 : ℕ) : ℚ) * (1 / 4)) = 2205 / 2 := by
    have e : ((4410 : ℕ) : ℚ) * (1 / 4) = ((2205 : ℤ) : ℚ) * (2 : ℚ) ^ (-1 : ℤ) := by norm_num
    rw [e, toDouble_of_grid _ _ (by norm_num) (by norm_num)]
    norm_num
  have hf : ⌊(2205 / 2 : ℚ)⌋₊ = 1102 := by
    rw [Nat.floor_eq_iff (by norm_num)]; norm_num
  rw [hd, hf, segmentAudio_getD, segmentAudio_getD, spillAudio_getD, spillAudio_getD]
  norm_num
  exact toFloat32_half

/-- Segment 1 of the recording is sped up: its corrected segment is empty. -/
theorem correctedSegment_spill_1 : correctedSegment refMath spillAudio stepCurve 1 = [] := by
  have hr := pitchRatio_refMath_high spillAudio stepCurve 1 targetOctave_step_1
    (analyzePitch_spillAudio 1 (by norm_num))
  have hn : ⌊toDouble (((segmentAudio spillAudio 1).length : ℚ) / (3603 / 968))⌋₊ = 0 := by
    rw [segmentAudio_spillAudio_length_1]
    exact outputLength_zero _ (by norm_num)
  rw [correctedSegment, hr, simplePitchShift_ratio _ _ _ (by norm_num)
    (segmentAudio_length_le _ _), hn, Option.getD_some]
  rfl

/-- C15, as the claim states it, fails. (1) For the buffer `[0.5]` and a curve whose first
target octave is 8 the corrected segment is empty (ratio above 1) and position 0 is never
written: the pre-compression output is 0, not the float32 nearest to `0.4 * 0.5`. (2) For the
4411-sample recording and the step curve, segment 0 is slowed down four times and its blend
writes up to position 4410, which belongs to segment 1; the corrected segment of segment 1 is
empty, so position 4410 keeps the blend of `corrected_0[4410] = 0.5` and `audio[4410] = 0.5`,
which is `0.5`, not the float32 nearest to `0.4 * audio[4410] = 0.2`. -/
theorem blend_within_span_counterexample :
    (correctedSegment refMath [1 / 2] fallingCurve 0 = [] ∧
        (transformedAfter refMath [1 / 2] fallingCurve (numSegments 1)).getD 0 (fin 0) = fin 0 ∧
        toFloat32 (0.6 * 0 + 0.4 * (1 / 2)) = fin (13421773 / 67108864)) ∧
      (numSegments spillAudio.length = 2 ∧ spillAudio.getD 4410 0 = 1 / 2 ∧
        correctedSegment refMath spillAudio stepCurve 1 = [] ∧
        (correctedSegment refMath spillAudio stepCurve 0).getD 4410 (fin 0) = fin (1 / 2) ∧
        (transformedAfter refMath spillAudio stepCurve 2).getD 4410 (fin 0) = fin (1 / 2) ∧
        toFloat32 (0.6 * 0 + 0.4 * (1 / 2)) ≠ fin (1 / 2)) := by
  have h5 : toFloat32 (0.6 * 0 + 0.4 * (1 / 2)) = fin (13421773 / 67108864) := by
    have e : (0.6 * 0 + 0.4 * (1 / 2) : ℚ) = 1 / 5 := by norm_num
    rw [e, toFloat32_fifth]
  refine ⟨⟨correctedSegment_falling, ?_, h5⟩,
    numSegments_spillAudio, by rw [spillAudio_getD]; norm_num, correctedSegment_spill_1,
    correctedSegment_spill_0_4410, ?_, ?_⟩
  · rw [numSegments_one, transformedAfter_succ_getD, correctedSegment_falling]
    rw [if_neg (by simp)]
    exact getD_of_forall (fun s => s = fin 0) _ _ rfl
      (fun v hv => (List.mem_replicate.mp hv).2) 0
  · rw [transformedAfter_succ_getD, correctedSegment_spill_1, if_neg (by simp),
      transformedAfter_succ_getD, if_pos]
    · simp only [Nat.zero_mul, Nat.sub_zero]
      rw [correctedSegment_spill_0_4410, spillAudio_getD, blendSample_fin]
      have e : (0.6 * (1 / 2) + 0.4 * (if 4410 = 1102 then 1 else if 4410 = 4410 then 1 / 2
          else 0) : ℚ) = 1 / 2 := by norm_num
      rw [e, toFloat32_half]
    · rw [correctedSegment_spill_0_length, spillAudio_length]
      norm_num
  · rw [h5]
    intro h
    injection h with h
    norm_num at h

/-- The pre-compression output of the 4411-sample recording at position 4408: the corrected
segment of segment 0 has 17640 samples, the one at 4408 is 1, and the blend stores the float32
nearest to `0.6 * 1 + 0.4 * 0`. -/
theorem transformedAfter_spill_4408 :
    (correctedSegment refMath spillAudio stepCurve 0).length = 17640 ∧
      (correctedSegment refMath spillAudio stepCurve 0).getD 4408 (fin 0) = fin 1 ∧
      spillAudio.getD 4408 0 = 0 ∧
      (transformedAfter refMath spillAudio stepCurve (numSegments spillAudio.length)).getD 4408
        (fin 0) = fin (10066330 / 16777216) := by
  have ha : spillAudio.getD 4408 0 = 0 := by rw [spillAudio_getD]; norm_num
  refine ⟨correctedSegment_spill_0_length, correctedSegment_spill_0_4408, ha, ?_⟩
  rw [numSegments_spillAudio, transformedAfter_succ_getD, correctedSegment_spill_1,
    if_neg (by simp), transformedAfter_succ_getD, if_pos]
  · simp only [Nat.zero_mul, Nat.sub_zero]
    rw [correctedSegment_spill_0_4408, ha, blendSample_fin]
    have e : (0.6 * 1 + 0.4 * 0 : ℚ) = 3 / 5 := by norm_num
    rw [e, toFloat32_three_fifths]
  · rw [correctedSegment_spill_0_length, spillAudio_length]
    norm_num

theorem blend_within_span_witness :
    refMath.PowMonotone ∧ 0 < numSegments spillAudio.length ∧
      0 * samplesPerSegment ≤ 4408 ∧
      4408 < Min.min ((0 + 1) * samplesPerSegment) spillAudio.length ∧
      refMath.Admits spillAudio stepCurve ∧
      ((correctedSegment refMath spillAudio stepCurve 0).length = 17640 ∧
        (correctedSegment refMath spillAudio stepCurve 0).getD 4408 (fin 0) = fin 1 ∧
        spillAudio.getD 4408 0 = 0 ∧
        (transformedAfter refMath spillAudio stepCurve (numSegments spillAudio.length)).getD 4408
          (fin 0) = fin (10066330 / 16777216)) ∧
      ∃ corrected output result,
        simplePitchShift refMath (segmentAudio spillAudio 0)
          (pitchRatio refMath spillAudio stepCurve 0) = some corrected ∧
        output = transformedAfter refMath spillAudio stepCurve (numSegments spillAudio.length) ∧
        applyWaveformTransformation refMath spillAudio stepCurve = some result ∧
        normalizeAudio refMath (output.map compressSample) = some result.samples ∧
        (4408 - 0 * samplesPerSegment < corrected.length →
          output.getD 4408 (fin 0) =
              blendSample (JSNum.orZero (corrected.getD (4408 - 0 * samplesPerSegment) (fin 0)))
                (spillAudio.getD 4408 0) ∧
            ∀ c : ℚ, corrected.getD (4408 - 0 * samplesPerSegment) (fin 0) = fin c →
              output.getD 4408 (fin 0) = toFloat32 (0.6 * c + 0.4 * spillAudio.getD 4408 0)) ∧
        (corrected.length ≤ 4408 - 0 * samplesPerSegment →
          output.getD 4408 (fin 0) =
            (transformedAfter refMath spillAudio stepCurve 0).getD 4408 (fin 0)) ∧
        (transformedAfter refMath spillAudio stepCurve 0).getD 4408 (fin 0) = fin 0 :=
  have h1 : 0 < numSegments spillAudio.length := by rw [numSegments_spillAudio]; norm_num
  have h2 : 0 * samplesPerSegment ≤ 4408 := by rw [samplesPerSegment_eq]; norm_num
  have h3 : 4408 < Min.min ((0 + 1) * samplesPerSegment) spillAudio.length := by
    rw [samplesPerSegment_eq, spillAudio_length]; norm_num
  ⟨refMath_powMonotone, h1, h2, h3, admits_spill, transformedAfter_spill_4408,
    blend_within_span refMath refMath_powMonotone spillAudio stepCurve 0 4408 h1 h2 h3
      admits_spill⟩

/-! ## A sample beyond the float32 range -/

theorem targetOctave_sampleCurve_0 : targetOctave sampleCurve 0 = fin (1 / 25) := by
  have hw : waveformIndex sampleCurve 0 = 1 / 100 := by
    simp only [waveformIndex, sampleCurve, segmentDuration, List.length_cons, List.length_nil]
    norm_num
  have hf : ⌊waveformIndex sampleCurve 0⌋ = 0 := by
    rw [hw, Int.floor_eq_iff]; norm_num
  have hy : yValue sampleCurve 0 = -99 / 100 := by
    have h1 : readOr0 sampleCurve.y 0 = -1 := by simp [sampleCurve, readOr0]
    have h2 : readOr0 sampleCurve.y (Min.min (0 + 1) ((sampleCurve.y.length : ℤ) - 1)) = 0 := by
      simp [sampleCurve, readOr0]
    simp only [yValue, hf, h1, h2]
    rw [hw]
    norm_num
  have hmin : minY sampleCurve = fin (-1) := by
    simp only [minY, sampleCurve, mathMin, List.foldl_cons, List.foldl_nil, JSNum.min]
    norm_num
  have hmax : maxY sampleCurve = fin 1 := by
    simp only [maxY, sampleCurve, mathMax, List.foldl_cons, List.foldl_nil, JSNum.max]
    norm_num
  rw [targetOctave_of_bounds sampleCurve (-1) 1 hmin hmax (by norm_num), hy]
  norm_num

theorem admits_loud : refMath.Admits loudAudio sampleCurve := by
  unfold HostMath.Admits refMath loudAudio sampleCurve
  simp

/-- The corrected segment of the one-sample recording `[1e39]`: slowed down four times, its
first sample overflows to `Infinity` when it is stored. -/
theorem correctedSegment_loud :
    (correctedSegment refMath loudAudio sampleCurve 0).length = 4 ∧
      (correctedSegment refMath loudAudio sampleCurve 0).getD 0 (fin 0) = pinf := by
  have hr := pitchRatio_refMath_low loudAudio sampleCurve 0 (1 / 25) targetOctave_sampleCurve_0
    (by norm_num) (analyzePitch_single _)
  have hseg : segmentAudio loudAudio 0 = [10 ^ 39] := segmentAudio_single _
  have hn : ⌊toDouble (((segmentAudio loudAudio 0).length : ℚ) / (1 / 4))⌋₊ = 4 := by
    have e : ((segmentAudio loudAudio 0).length : ℚ) / (1 / 4) = ((4 : ℕ) : ℚ) := by
      rw [hseg]; norm_num
    rw [e, toDouble_natCast _ (by norm_num)]
    exact Nat.floor_natCast _
  have hc : correctedSegment refMath loudAudio sampleCurve 0 =
      (List.range 4).map (shiftSample (segmentAudio loudAudio 0) (1 / 4)) := by
    rw [correctedSegment, hr, simplePitchShift_ratio _ _ _ (by norm_num)
      (segmentAudio_length_le _ _), hn, Option.getD_some]
  rw [hc]
  refine ⟨by simp, ?_⟩
  rw [getD_map_range, if_pos (by norm_num), shiftSample_eq _ _ (by norm_num), hseg]
  have hd : toDouble (((0 : ℕ) : ℚ) * (1 / 4)) = ((0 : ℕ) : ℚ) := by
    have e : ((0 : ℕ) : ℚ) * (1 / 4) = ((0 : ℕ) : ℚ) := by norm_num
    rw [e, toDouble_natCast _ (by norm_num)]
  rw [hd, Nat.floor_natCast]
  have e : (([10 ^ 39] : List ℚ).getD 0 0 * (1 - (((0 : ℕ) : ℚ) - ((0 : ℕ) : ℚ))) +
      ([10 ^ 39] : List ℚ).getD (0 + 1) 0 * (((0 : ℕ) : ℚ) - ((0 : ℕ) : ℚ))) = 10 ^ 39 := by
    simp
  rw [e]
  exact toFloat32_overflow _ (by norm_num)

/-- C2, as the claim states it, fails: the sample `1e39` is finite but beyond the float32
range. Its corrected sample is stored as `Infinity`, so are the blended and the compressed
sample, the peak is `Infinity`, and the normalisation returns `Infinity / Infinity`, which is
`NaN`: the buffer returned is `[NaN]`, whose sample is not in `[-0.9, 0.9]`. -/
theorem applyWaveformTransformation_bound_counterexample :
    loudAudio = [10 ^ 39] ∧
      ∃ result, applyWaveformTransformation refMath loudAudio sampleCurve = some result ∧
        result.samples = [nan] ∧
        ¬ ∀ s ∈ result.samples, ∃ q : ℚ, s = fin q ∧ -0.9 ≤ q ∧ q ≤ 0.9 := by
  obtain ⟨final, hfinal, h⟩ := applyWaveformTransformation_eq refMath refMath_powMonotone
    loudAudio sampleCurve (by simp [loudAudio]) admits_loud
  have hlen : loudAudio.length = 1 := rfl
  have ht0 : (transformedAfter refMath loudAudio sampleCurve 1).getD 0 (fin 0) = pinf := by
    rw [transformedAfter_succ_getD, if_pos]
    · simp only [Nat.zero_mul, Nat.sub_zero]
      rw [correctedSegment_loud.2]
      have h6 : ¬ ((0.6 : ℚ) = 0) := by norm_num
      have h6p : (0 : ℚ) < 0.6 := by norm_num
      simp only [blendSample, JSNum.orZero, JSNum.mul, JSNum.add, JSNum.inf, float32Store,
        blendFactor, h6, h6p, if_false, decide_True, if_true]
    · rw [correctedSegment_loud.1, hlen]; norm_num
  have ht : transformedAfter refMath loudAudio sampleCurve 1 = [pinf] := by
    have hl := transformedAfter_length refMath loudAudio sampleCurve 1
    rw [hlen] at hl
    match hm : transformedAfter refMath loudAudio sampleCurve 1, hl with
    | [a], _ =>
      rw [hm] at ht0
      simp only [List.getD_cons_zero] at ht0
      rw [ht0]
  have hfin : final = [nan] := by
    rw [hlen, numSegments_one, ht] at hfinal
    have hc : compressSample pinf = pinf := by
      have h8 : ¬ ((0.8 : ℚ) = 0) := by norm_num
      simp [compressSample, JSNum.abs, JSNum.exceeds, JSNum.isNonneg, JSNum.sub, JSNum.neg,
        JSNum.add, JSNum.div, JSNum.mul, JSNum.inf, float32Store]
    simp only [List.map_cons, List.map_nil, hc] at hfinal
    have hn : normalizeAudio refMath [pinf] = some [nan] := by
      have hfit : ¬ refMath.maxArguments < ([pinf] : List JSNum).length := by
        show ¬ 125500 < 1; norm_num
      simp only [normalizeAudio, hfit, if_false, mathMaxFloat32, List.map_cons, List.map_nil,
        List.foldl_cons, List.foldl_nil, JSNum.abs, JSNum.max, JSNum.isPositive, if_true,
        JSNum.div, JSNum.mul, float32Store]
    rw [hn] at hfinal
    injection hfinal with hfinal
    exact hfinal.symm
  subst hfin
  refine ⟨rfl, _, h, rfl, ?_⟩
  intro hall
  obtain ⟨q, hq, -⟩ := hall nan (by simp)
  exact absurd hq (by simp)

/-! ## The WAV export -/

theorem setInt16_length (view : List ℕ) (o : ℕ) (x : ℚ) :
    (setInt16 view o x).length = view.length := by
  simp [setInt16]

theorem setUint16_length (view : List ℕ) (o v : ℕ) :
    (setUint16 view o v).length = view.length := by
  simp [setUint16]

theorem setUint32_length (view : List ℕ) (o v : ℕ) :
    (setUint32 view o v).length = view.length := by
  simp [setUint32]

theorem writeString_length (view : List ℕ) (o : ℕ) (str : List ℕ) :
    (writeString view o str).length = view.length := by
  unfold writeString
  generalize List.range _ = l
  induction l generalizing view with
  | nil => rfl
  | cons i l ih => simp only [List.foldl_cons]; rw [ih]; simp [setUint8]

theorem writeSamples_length (audioData : List ℚ) (count : ℕ) (view : List ℕ) :
    (writeSamples audioData count view).length = view.length := by
  unfold writeSamples
  generalize List.range _ = l
  induction l generalizing view with
  | nil => rfl
  | cons i l ih => simp only [List.foldl_cons]; rw [ih]; exact setInt16_length _ _ _

/-- The two bytes the sample loop leaves at the offsets `44 + 2 i` and `45 + 2 i`. -/
theorem writeSamples_getD (audioData : List ℚ) (count : ℕ) (view : List ℕ)
    (hlen : 44 + count * 2 ≤ view.length) (i : ℕ) (hi : i < count) :
    (writeSamples audioData count view).getD (44 + i * 2) 0 =
        (toInt16 (toDouble (Max.max (-1) (Min.min 1 (audioData.getD i 0)) * 32767)) %
          65536).toNat % 256 ∧
      (writeSamples audioData count view).getD (44 + i * 2 + 1) 0 =
        (toInt16 (toDouble (Max.max (-1) (Min.min 1 (audioData.getD i 0)) * 32767)) %
          65536).toNat / 256 := by
  induction count with
  | zero => omega
  | succ n ih =>
    have hstep : writeSamples audioData (n + 1) view =
        setInt16 (writeSamples audioData n view) (44 + n * 2)
          (toDouble (Max.max (-1) (Min.min 1 (audioData.getD n 0)) * 32767)) := by
      simp only [writeSamples, List.range_succ, List.foldl_append, List.foldl_cons,
        List.foldl_nil]
    have hl := writeSamples_length audioData n view
    rw [hstep]
    simp only [setInt16, List.getD_eq_getElem?_getD, List.getElem?_set, List.length_set, hl]
    rcases Nat.lt_succ_iff_lt_or_eq.mp hi with hlt | heq
    · obtain ⟨h1, h2⟩ := ih (by omega) hlt
      simp only [List.getD_eq_getElem?_getD] at h1 h2
      rw [if_neg (by omega), if_neg (by omega), if_neg (by omega), if_neg (by omega)]
      exact ⟨h1, h2⟩
    · subst heq
      rw [if_neg (by omega), if_pos rfl, if_pos (by omega), if_pos rfl, if_pos (by omega)]
      simp

/-- On a clamped sample the double product lies in `[-32767, 32767]` and the conversion
`ToInt16` does not wrap. -/
theorem toInt16_clamped (x : ℚ) :
    toInt16 (toDouble (Max.max (-1) (Min.min 1 x) * 32767)) =
        truncate (toDouble (Max.max (-1) (Min.min 1 x) * 32767)) ∧
      -32767 ≤ truncate (toDouble (Max.max (-1) (Min.min 1 x) * 32767)) ∧
      truncate (toDouble (Max.max (-1) (Min.min 1 x) * 32767)) ≤ 32767 := by
  have hc1 : -1 ≤ Max.max (-1) (Min.min 1 x) := le_max_left _ _
  have hc2 : Max.max (-1) (Min.min 1 x) ≤ 1 := max_le (by norm_num) (min_le_left _ _)
  generalize Max.max (-1) (Min.min 1 x) = c at hc1 hc2
  have hd1 : (-32767 : ℚ) ≤ toDouble (c * 32767) := by
    have h := toDouble_mono (x := ((-32767 : ℤ) : ℚ)) (y := c * 32767) (by push_cast; linarith)
    rw [toDouble_intCast _ (by norm_num)] at h
    exact_mod_cast h
  have hd2 : toDouble (c * 32767) ≤ 32767 := by
    have h := toDouble_mono (x := c * 32767) (y := ((32767 : ℤ) : ℚ)) (by push_cast; linarith)
    rw [toDouble_intCast _ (by norm_num)] at h
    exact_mod_cast h
  generalize toDouble (c * 32767) = v at hd1 hd2
  have hlo : -32767 ≤ truncate v := by
    unfold truncate
    split
    · exact le_trans (by norm_num) (Int.floor_nonneg.mpr ‹_›)
    · rw [Int.le_ceil_iff]; push_cast; linarith
  have hhi : truncate v ≤ 32767 := by
    unfold truncate
    split
    · rw [Int.floor_le_iff]; push_cast; linarith
    · rw [Int.ceil_le]; push_cast; linarith
  refine ⟨?_, hlo, hhi⟩
  unfold toInt16
  simp only
  split <;> omega

theorem header_length (m : HostMath) (audioData : List ℚ) (rate : ℕ)
    (hfit : 44 + audioData.length * 2 ≤ m.maxByteLength) :
    ∃ view : List ℕ, view.length = 44 + audioData.length * 2 ∧
      createAudioBlob m audioData rate =
        some (writeSamples audioData audioData.length view) := by
  refine ⟨_, ?_, by simp only [createAudioBlob, not_lt.mpr hfit, if_false]; rfl⟩
  simp only [writeString_length, setUint32_length, setUint16_length, List.length_replicate]

theorem isFloat32_one : IsFloat32 1 := toFloat32_one

theorem isFloat32_neg {x : ℚ} (h : IsFloat32 x) : IsFloat32 (-x) := by
  have h1 := roundBinary_of_isFloat32 h
  have h2 := abs_le_of_isFloat32 h
  unfold IsFloat32 toFloat32
  rw [roundBinary_neg, h1, abs_neg, if_pos h2]

/-- The product of a float32 number with `0x7FFF` is a double: it is not rounded. -/
theorem toDouble_mul_of_isFloat32 (x : ℚ) (hx : IsFloat32 x) :
    toDouble (x * 32767) = x * 32767 := by
  obtain ⟨n, k, hn, hk, he⟩ := roundBinary_grid 24 (-149) x
  rw [roundBinary_of_isFloat32 hx] at he
  have e : x * 32767 = ((n * 32767 : ℤ) : ℚ) * (2 : ℚ) ^ k := by
    rw [he]; push_cast; ring
  rw [e]
  refine toDouble_of_grid _ k ?_ (by omega)
  rw [abs_mul]
  have h1 : |(32767 : ℤ)| = 32767 := by norm_num
  rw [h1]
  have h2 : |n| ≤ 16777216 := by norm_num at hn; exact hn
  omega

theorem isFloat32_clamp (x : ℚ) (hx : IsFloat32 x) :
    IsFloat32 (Max.max (-1) (Min.min 1 x)) := by
  rcases max_choice (-1 : ℚ) (Min.min 1 x) with h | h
  · rw [h]; exact isFloat32_neg isFloat32_one
  · rw [h]
    rcases min_choice (1 : ℚ) x with h' | h'
    · rw [h']; exact isFloat32_one
    · rw [h']; exact hx

/-- The bytes `createAudioBlob` writes for the sample at index `i`. -/
theorem createAudioBlob_bytes (m : HostMath) (audioData : List ℚ) (rate i : ℕ)
    (hi : i < audioData.length) (hfit : 44 + audioData.length * 2 ≤ m.maxByteLength) :
    ∃ bytes, createAudioBlob m audioData rate = some bytes ∧
      bytes.length = 44 + audioData.length * 2 ∧
      -32767 ≤ truncate (toDouble (Max.max (-1) (Min.min 1 (audioData.getD i 0)) * 32767)) ∧
      truncate (toDouble (Max.max (-1) (Min.min 1 (audioData.getD i 0)) * 32767)) ≤ 32767 ∧
      bytes.getD (44 + i * 2) 0 =
        (truncate (toDouble (Max.max (-1) (Min.min 1 (audioData.getD i 0)) * 32767)) %
          65536).toNat % 256 ∧
      bytes.getD (44 + i * 2 + 1) 0 =
        (truncate (toDouble (Max.max (-1) (Min.min 1 (audioData.getD i 0)) * 32767)) %
          65536).toNat / 256 := by
  obtain ⟨view, hlen, h⟩ := header_length m audioData rate hfit
  obtain ⟨h1, h2⟩ := writeSamples_getD audioData audioData.length view (by omega) i hi
  obtain ⟨ht, hlo, hhi⟩ := toInt16_clamped (audioData.getD i 0)
  rw [ht] at h1 h2
  exact ⟨_, h, by rw [writeSamples_length, hlen], hlo, hhi, h1, h2⟩

/-- C14, as the code has it: for every sample `x` at index `i` of a buffer whose blob the
host allocates, `createAudioBlob` writes at the byte offsets `44 + 2 i` and `45 + 2 i` the
little-endian two's-complement bytes of the integer `truncate(p)`, where `p` is the double
product `clamp(x, -1, 1) * 32767`: `setInt16` discards the fraction (rounding toward zero), it
does not round to nearest. The integer lies in `[-32767, 32767]`, and for a float32 sample the
product is exact. -/
theorem createAudioBlob_sample (m : HostMath) (audioData : List ℚ) (rate i : ℕ)
    (hi : i < audioData.length) (hfit : 44 + audioData.length * 2 ≤ m.maxByteLength) :
    ∃ bytes, createAudioBlob m audioData rate = some bytes ∧
      bytes.length = 44 + audioData.length * 2 ∧
      -32767 ≤ truncate (toDouble (Max.max (-1) (Min.min 1 (audioData.getD i 0)) * 32767)) ∧
      truncate (toDouble (Max.max (-1) (Min.min 1 (audioData.getD i 0)) * 32767)) ≤ 32767 ∧
      bytes.getD (44 + i * 2) 0 =
        (truncate (toDouble (Max.max (-1) (Min.min 1 (audioData.getD i 0)) * 32767)) %
          65536).toNat % 256 ∧
      bytes.getD (44 + i * 2 + 1) 0 =
        (truncate (toDouble (Max.max (-1) (Min.min 1 (audioData.getD i 0)) * 32767)) %
          65536).toNat / 256 ∧
      (IsFloat32 (audioData.getD i 0) →
        toDouble (Max.max (-1) (Min.min 1 (audioData.getD i 0)) * 32767) =
          Max.max (-1) (Min.min 1 (audioData.getD i 0)) * 32767) := by
  obtain ⟨bytes, h, hl, hlo, hhi, h1, h2⟩ := createAudioBlob_bytes m audioData rate i hi hfit
  exact ⟨bytes, h, hl, hlo, hhi, h1, h2,
    fun hx => toDouble_mul_of_isFloat32 _ (isFloat32_clamp _ hx)⟩

theorem createAudioBlob_sample_witness :
    0 < sampleAudio.length ∧ 44 + sampleAudio.length * 2 ≤ refMath.maxByteLength ∧
      ∃ bytes, createAudioBlob refMath sampleAudio 44100 = some bytes ∧
        bytes.length = 44 + sampleAudio.length * 2 ∧
        -32767 ≤
          truncate (toDouble (Max.max (-1) (Min.min 1 (sampleAudio.getD 0 0)) * 32767)) ∧
        truncate (toDouble (Max.max (-1) (Min.min 1 (sampleAudio.getD 0 0)) * 32767)) ≤
          32767 ∧
        bytes.getD (44 + 0 * 2) 0 =
          (truncate (toDouble (Max.max (-1) (Min.min 1 (sampleAudio.getD 0 0)) * 32767)) %
            65536).toNat % 256 ∧
        bytes.getD (44 + 0 * 2 + 1) 0 =
          (truncate (toDouble (Max.max (-1) (Min.min 1 (sampleAudio.getD 0 0)) * 32767)) %
            65536).toNat / 256 ∧
        (IsFloat32 (sampleAudio.getD 0 0) →
          toDouble (Max.max (-1) (Min.min 1 (sampleAudio.getD 0 0)) * 32767) =
            Max.max (-1) (Min.min 1 (sampleAudio.getD 0 0)) * 32767) :=
  have hfit : 44 + sampleAudio.length * 2 ≤ refMath.maxByteLength := by
    show 44 + 3 * 2 ≤ 2147483647; norm_num
  ⟨by simp [sampleAudio], hfit,
    createAudioBlob_sample refMath sampleAudio 44100 0 (by simp [sampleAudio]) hfit⟩

theorem truncate_tenth :
    truncate (toDouble (Max.max (-1) (Min.min 1 doubleTenth) * 32767)) = 3276 := by
  have hc : Max.max (-1 : ℚ) (Min.min 1 doubleTenth) = doubleTenth := by
    rw [min_eq_right (by unfold doubleTenth; norm_num),
      max_eq_right (by unfold doubleTenth; norm_num)]
  have hd : toDouble (doubleTenth * 32767) = 7205539501467239 / 2199023255552 := by
    have h := roundBinary_eval 53 (-1074) (doubleTenth * 32767) 11 (-41) 7205539501467239
      (by unfold doubleTenth; norm_num [abs_of_pos])
      (by unfold doubleTenth; norm_num [abs_of_pos]) (by norm_num)
      (by unfold doubleTenth; rw [abs_lt]; constructor <;> norm_num)
    unfold toDouble
    rw [h]; norm_num
  rw [hc, hd, truncate, if_pos (by norm_num), Int.floor_eq_iff]
  norm_num

/-- C14, as the claim states it, fails: for the sample `0.1` (the double nearest to it) the
bytes written at the offsets 44 and 45 are `204, 12`, the integer 3276, while
`round(0.1 * 32767) = round(3276.7) = 3277`. -/
theorem createAudioBlob_sample_counterexample :
    ∃ bytes, createAudioBlob refMath [doubleTenth] 44100 = some bytes ∧
      bytes.getD 44 0 = 204 ∧ bytes.getD 45 0 = 12 ∧ (204 + 256 * 12 : ℤ) = 3276 ∧
      round (Max.max (-1) (Min.min 1 doubleTenth) * 32767) = 3277 := by
  obtain ⟨bytes, h, -, -, -, h1, h2⟩ := createAudioBlob_bytes refMath [doubleTenth] 44100 0
    (by simp) (by show 44 + 1 * 2 ≤ 2147483647; norm_num)
  have hg : ([doubleTenth] : List ℚ).getD 0 0 = doubleTenth := rfl
  rw [hg, truncate_tenth] at h1 h2
  refine ⟨bytes, h, ?_, ?_, by norm_num, ?_⟩
  · simpa using h1
  · simpa using h2
  · have hc : Max.max (-1 : ℚ) (Min.min 1 doubleTenth) = doubleTenth := by
      rw [min_eq_right (by unfold doubleTenth; norm_num),
        max_eq_right (by unfold doubleTenth; norm_num)]
    rw [hc, round_eq, Int.floor_eq_iff]
    unfold doubleTenth
    norm_num

/-! ## The peak search -/

/-- The inner loop of `analyzePitch` computes the unnormalised autocorrelation sum. -/
theorem correlationSum_eq_sum (seg : List ℚ) (lag : ℕ) :
    correlationSum seg lag =
      ∑ i in Finset.range (seg.length - lag), seg.getD i 0 * seg.getD (i + lag) 0 := by
  unfold correlationSum
  generalize seg.length - lag = n
  induction n with
  | zero => simp
  | succ n ih =>
    rw [List.range_succ, List.foldl_append, ih, Finset.sum_range_succ]
    rfl

theorem correlationArray_length (seg : List ℚ) (minLag maxLag : ℕ) :
    (correlationArray seg minLag maxLag).length = maxLag - minLag := by
  simp [correlationArray]

theorem correlationArray_getD (seg : List ℚ) (minLag maxLag j : ℕ) (hj : j < maxLag - minLag) :
    (correlationArray seg minLag maxLag).getD j 0 = correlationSum seg (minLag + j) := by
  rw [List.getD_eq_getElem _ _ (by rw [correlationArray_length]; exact hj)]
  simp [correlationArray, List.getElem_range']

/-- The state of the peak search after the first `n` entries of `correlation`: either no
entry so far is positive and the state is the initial one, or the state holds the first
entry that attains the maximum so far, which is positive. -/
theorem peakSearch_prefix (c : List ℚ) (minLag n : ℕ) :
    ((List.range n).foldl
          (fun st i => if c.getD i 0 > st.1 then (c.getD i 0, minLag + i) else st)
          ((0 : ℚ), minLag) = (0, minLag) ∧ ∀ j < n, c.getD j 0 ≤ 0) ∨
      ∃ i < n,
        (List.range n).foldl
            (fun st i => if c.getD i 0 > st.1 then (c.getD i 0, minLag + i) else st)
            ((0 : ℚ), minLag) = (c.getD i 0, minLag + i) ∧
          0 < c.getD i 0 ∧ (∀ j < n, c.getD j 0 ≤ c.getD i 0) ∧
          ∀ j < i, c.getD j 0 < c.getD i 0 := by
  induction n with
  | zero => left; exact ⟨rfl, fun j hj => absurd hj (Nat.not_lt_zero j)⟩
  | succ n ih =>
    rw [List.range_succ, List.foldl_append]
    simp only [List.foldl_cons, List.foldl_nil]
    rcases ih with ⟨hst, hall⟩ | ⟨i, hi, hst, hpos, hmax, hfirst⟩
    · rw [hst]
      by_cases hx : c.getD n 0 > 0
      · right
        refine ⟨n, Nat.lt_succ_self n, by simp only [hx, if_true], hx, ?_, ?_⟩
        · intro j hj
          rcases Nat.lt_succ_iff_lt_or_eq.mp hj with h | h
          · exact le_trans (hall j h) hx.le
          · rw [h]
        · intro j hj
          exact lt_of_le_of_lt (hall j hj) hx
      · left
        refine ⟨by simp only [hx, if_false], ?_⟩
        intro j hj
        rcases Nat.lt_succ_iff_lt_or_eq.mp hj with h | h
        · exact hall j h
        · rw [h]; exact not_lt.mp hx
    · rw [hst]
      right
      by_cases hx : c.getD n 0 > c.getD i 0
      · refine ⟨n, Nat.lt_succ_self n, by simp only [hx, if_true], lt_trans hpos hx, ?_, ?_⟩
        · intro j hj
          rcases Nat.lt_succ_iff_lt_or_eq.mp hj with h | h
          · exact le_trans (hmax j h) hx.le
          · rw [h]
        · intro j hj
          exact lt_of_le_of_lt (hmax j hj) hx
      · refine ⟨i, Nat.lt_succ_of_lt hi, by simp only [hx, if_false], hpos, ?_, hfirst⟩
        intro j hj
        rcases Nat.lt_succ_iff_lt_or_eq.mp hj with h | h
        · exact hmax j h
        · rw [h]; exact not_lt.mp hx

/-- The lag the peak search returns. -/
theorem peakSearch_lag (seg : List ℚ) (minLag maxLag : ℕ) :
    ((∀ lag, minLag ≤ lag → lag < maxLag → correlationSum seg lag ≤ 0) →
        (peakSearch (correlationArray seg minLag maxLag) minLag).2 = minLag) ∧
      ((∃ lag, minLag ≤ lag ∧ lag < maxLag ∧ 0 < correlationSum seg lag) →
        minLag ≤ (peakSearch (correlationArray seg minLag maxLag) minLag).2 ∧
          (peakSearch (correlationArray seg minLag maxLag) minLag).2 < maxLag ∧
          0 < correlationSum seg (peakSearch (correlationArray seg minLag maxLag) minLag).2 ∧
          (∀ lag, minLag ≤ lag → lag < maxLag →
            correlationSum seg lag ≤
              correlationSum seg (peakSearch (correlationArray seg minLag maxLag) minLag).2) ∧
          ∀ lag, minLag ≤ lag →
            lag < (peakSearch (correlationArray seg minLag maxLag) minLag).2 →
            correlationSum seg lag <
              correlationSum seg (peakSearch (correlationArray seg minLag maxLag) minLag).2) := by
  have hlen := correlationArray_length seg minLag maxLag
  have hget := correlationArray_getD seg minLag maxLag
  have key := peakSearch_prefix (correlationArray seg minLag maxLag) minLag (maxLag - minLag)
  have hps : peakSearch (correlationArray seg minLag maxLag) minLag =
      (List.range (maxLag - minLag)).foldl
        (fun st i =>
          if (correlationArray seg minLag maxLag).getD i 0 > st.1 then
            ((correlationArray seg minLag maxLag).getD i 0, minLag + i)
          else st) ((0 : ℚ), minLag) := by
    rw [peakSearch, hlen]
  rw [hps]
  constructor
  · intro hall
    rcases key with ⟨hst, -⟩ | ⟨i, hi, -, hpos, -, -⟩
    · rw [hst]
    · rw [hget i hi] at hpos
      exact absurd (hall (minLag + i) (by omega) (by omega)) (not_le.mpr hpos)
  · rintro ⟨lag, h1, h2, h3⟩
    rcases key with ⟨-, hall⟩ | ⟨i, hi, hst, hpos, hmax, hfirst⟩
    · have := hall (lag - minLag) (by omega)
      rw [hget _ (by omega), show minLag + (lag - minLag) = lag by omega] at this
      exact absurd this (not_le.mpr h3)
    · rw [hst]
      rw [hget i hi] at hpos hmax hfirst
      refine ⟨by omega, by omega, hpos, ?_, ?_⟩
      · intro l hl1 hl2
        have := hmax (l - minLag) (by omega)
        rwa [hget _ (by omega), show minLag + (l - minLag) = l by omega] at this
      · intro l hl1 hl2
        have := hfirst (l - minLag) (by simp only at hl2; omega)
        rwa [hget _ (by simp only at hl2; omega),
          show minLag + (l - minLag) = l by omega] at this

/-- C16, as the code has it: for every non-empty segment and positive sample rate, with
`minLag = floor(rate / 2000)` and `maxLag = floor(rate / 50)`, the lag `analyzePitch` converts
to a frequency is `bestLag` of the peak search over the sums
`sum over i < len - lag of segment[i] * segment[i + lag]`. If some lag of the half-open range
`[minLag, maxLag)` has a positive sum, `bestLag` is the smallest lag of that range whose sum
is maximal over the range; if none has (or the range is empty), `bestLag = minLag`. -/
theorem analyzePitch_bestLag (m : HostMath) (audioSegment : List ℚ) (rate : ℚ)
    (hne : audioSegment ≠ []) (_hrate : 0 < rate) :
    ∃ bestLag : ℕ,
      bestLag =
        (peakSearch (correlationArray audioSegment ⌊rate / 2000⌋₊ ⌊rate / 50⌋₊)
          ⌊rate / 2000⌋₊).2 ∧
      analyzePitch m audioSegment rate =
        JSNum.max (fin 0) (JSNum.min (fin 8)
          (JSNum.add (mathLog2 m (JSNum.div (JSNum.div (fin rate) (fin bestLag)) (fin 440)))
            (fin 4))) ∧
      (∀ lag, correlationSum audioSegment lag =
        ∑ i in Finset.range (audioSegment.length - lag),
          audioSegment.getD i 0 * audioSegment.getD (i + lag) 0) ∧
      ((∀ lag, ⌊rate / 2000⌋₊ ≤ lag → lag < ⌊rate / 50⌋₊ →
          correlationSum audioSegment lag ≤ 0) → bestLag = ⌊rate / 2000⌋₊) ∧
      ((∃ lag, ⌊rate / 2000⌋₊ ≤ lag ∧ lag < ⌊rate / 50⌋₊ ∧
          0 < correlationSum audioSegment lag) →
        ⌊rate / 2000⌋₊ ≤ bestLag ∧ bestLag < ⌊rate / 50⌋₊ ∧
          0 < correlationSum audioSegment bestLag ∧
          (∀ lag, ⌊rate / 2000⌋₊ ≤ lag → lag < ⌊rate / 50⌋₊ →
            correlationSum audioSegment lag ≤ correlationSum audioSegment bestLag) ∧
          ∀ lag, ⌊rate / 2000⌋₊ ≤ lag → lag < bestLag →
            correlationSum audioSegment lag < correlationSum audioSegment bestLag) := by
  have h0 : audioSegment.length ≠ 0 := by simpa using hne
  obtain ⟨h1, h2⟩ := peakSearch_lag audioSegment ⌊rate / 2000⌋₊ ⌊rate / 50⌋₊
  refine ⟨_, rfl, ?_, correlationSum_eq_sum audioSegment, h1, h2⟩
  simp only [analyzePitch, h0, if_false]


theorem lags_2000 : ⌊(2000 : ℚ) / 2000⌋₊ = 1 ∧ ⌊(2000 : ℚ) / 50⌋₊ = 40 := by
  constructor
  · rw [Nat.floor_eq_iff (by norm_num)]; norm_num
  · rw [Nat.floor_eq_iff (by norm_num)]; norm_num

/-- The sums of the six-sample segment: 1 at the lags 2, 3 and 5, and 0 at the others. -/
theorem correlationSum_tie (lag : ℕ) (hlag : 1 ≤ lag) :
    correlationSum tieSegment lag = if lag = 2 ∨ lag = 3 ∨ lag = 5 then 1 else 0 := by
  by_cases h6 : lag < 6
  · interval_cases lag <;>
      simp [correlationSum, tieSegment, List.range_succ]
  · have : tieSegment.length - lag = 0 := by simp [tieSegment]; omega
    rw [correlationSum_eq_sum, this, Finset.sum_range_zero, if_neg (by omega)]

/-- The peak search of the six-sample segment at the rate 2000 returns the lag 2, the
smallest of the three lags whose sum is maximal. -/
theorem peakSearch_tie :
    (peakSearch (correlationArray tieSegment ⌊(2000 : ℚ) / 2000⌋₊ ⌊(2000 : ℚ) / 50⌋₊)
      ⌊(2000 : ℚ) / 2000⌋₊).2 = 2 := by
  rw [lags_2000.1, lags_2000.2]
  obtain ⟨h1, h2, h3, h4, h5⟩ := (peakSearch_lag tieSegment 1 40).2
    ⟨2, by norm_num, by norm_num, by rw [correlationSum_tie 2 (by norm_num)]; norm_num⟩
  generalize (peakSearch (correlationArray tieSegment 1 40) 1).2 = b at h1 h2 h3 h4 h5
  have hb : correlationSum tieSegment b ≤ 1 := by
    rw [correlationSum_tie b h1]; split <;> norm_num
  have h2le : b ≤ 2 := by
    by_contra hgt
    have := h5 2 (by norm_num) (by omega)
    rw [correlationSum_tie 2 (by norm_num)] at this
    norm_num at this
    linarith
  have hne1 : b ≠ 1 := by
    intro h
    rw [h, correlationSum_tie 1 (le_refl _)] at h3
    norm_num at h3
  omega

theorem analyzePitch_bestLag_witness :
    tieSegment ≠ [] ∧ (0 : ℚ) < 2000 ∧
      (⌊(2000 : ℚ) / 2000⌋₊ = 1 ∧ ⌊(2000 : ℚ) / 50⌋₊ = 40 ∧
        correlationSum tieSegment 1 = 0 ∧ correlationSum tieSegment 2 = 1 ∧
        correlationSum tieSegment 3 = 1 ∧ correlationSum tieSegment 4 = 0 ∧
        correlationSum tieSegment 5 = 1 ∧
        (peakSearch (correlationArray tieSegment ⌊(2000 : ℚ) / 2000⌋₊ ⌊(2000 : ℚ) / 50⌋₊)
          ⌊(2000 : ℚ) / 2000⌋₊).2 = 2) ∧
      ∃ bestLag : ℕ,
        bestLag =
          (peakSearch (correlationArray tieSegment ⌊(2000 : ℚ) / 2000⌋₊ ⌊(2000 : ℚ) / 50⌋₊)
            ⌊(2000 : ℚ) / 2000⌋₊).2 ∧
        analyzePitch refMath tieSegment 2000 =
          JSNum.max (fin 0) (JSNum.min (fin 8)
            (JSNum.add
              (mathLog2 refMath (JSNum.div (JSNum.div (fin 2000) (fin bestLag)) (fin 440)))
              (fin 4))) ∧
        (∀ lag, correlationSum tieSegment lag =
          ∑ i in Finset.range (tieSegment.length - lag),
            tieSegment.getD i 0 * tieSegment.getD (i + lag) 0) ∧
        ((∀ lag, ⌊(2000 : ℚ) / 2000⌋₊ ≤ lag → lag < ⌊(2000 : ℚ) / 50⌋₊ →
            correlationSum tieSegment lag ≤ 0) → bestLag = ⌊(2000 : ℚ) / 2000⌋₊) ∧
        ((∃ lag, ⌊(2000 : ℚ) / 2000⌋₊ ≤ lag ∧ lag < ⌊(2000 : ℚ) / 50⌋₊ ∧
            0 < correlationSum tieSegment lag) →
          ⌊(2000 : ℚ) / 2000⌋₊ ≤ bestLag ∧ bestLag < ⌊(2000 : ℚ) / 50⌋₊ ∧
            0 < correlationSum tieSegment bestLag ∧
            (∀ lag, ⌊(2000 : ℚ) / 2000⌋₊ ≤ lag → lag < ⌊(2000 : ℚ) / 50⌋₊ →
              correlationSum tieSegment lag ≤ correlationSum tieSegment bestLag) ∧
            ∀ lag, ⌊(2000 : ℚ) / 2000⌋₊ ≤ lag → lag < bestLag →
              correlationSum tieSegment lag < correlationSum tieSegment bestLag) :=
  ⟨by simp [tieSegment], by norm_num,
    ⟨lags_2000.1, lags_2000.2,
      by rw [correlationSum_tie 1 (by norm_num)]; norm_num,
      by rw [correlationSum_tie 2 (by norm_num)]; norm_num,
      by rw [correlationSum_tie 3 (by norm_num)]; norm_num,
      by rw [correlationSum_tie 4 (by norm_num)]; norm_num,
      by rw [correlationSum_tie 5 (by norm_num)]; norm_num,
      peakSearch_tie⟩,
    analyzePitch_bestLag refMath tieSegment 2000 (by simp [tieSegment]) (by norm_num)⟩

theorem correlationSum_pair (lag : ℕ) (hlag : 1 ≤ lag) :
    correlationSum [1, -1] lag = if lag = 1 then -1 else 0 := by
  rw [correlationSum_eq_sum]
  by_cases h1 : lag = 1
  · subst h1; simp
  · have : ([1, -1] : List ℚ).length - lag = 0 := by simp; omega
    rw [if_neg h1, this, Finset.sum_range_zero]

theorem echoSegment_getD (i : ℕ) :
    echoSegment.getD i 0 = if i = 0 ∨ i = 40 then 1 else 0 := by
  rw [echoSegment, getD_map_range]
  split
  · rfl
  · rw [if_neg (by omega)]

theorem correlationSum_echo (lag : ℕ) (hlag : 1 ≤ lag) :
    correlationSum echoSegment lag = if lag = 40 then 1 else 0 := by
  rw [correlationSum_eq_sum]
  have hlen : echoSegment.length = 41 := by simp [echoSegment]
  by_cases h : lag = 40
  · subst h
    have h1 : 41 - 40 = 1 := rfl
    rw [if_pos rfl, hlen, h1, Finset.sum_range_one, echoSegment_getD, echoSegment_getD]
    norm_num
  · rw [if_neg h]
    apply Finset.sum_eq_zero
    intro i _
    rw [echoSegment_getD, echoSegment_getD]
    by_cases hi : i = 0 ∨ i = 40
    · rw [if_pos hi, if_neg (by omega)]; simp
    · rw [if_neg hi]; simp

/-- C16, as the claim states it, fails at sample rate 2000 (`minLag = 1`, `maxLag = 40`).
For the segment `[1, -1]` no sum is positive and `bestLag = 1`, whose sum `-1` is smaller than
the sum 0 of lag 2. For the 41-sample segment with ones at both ends the lag 40 has the sum 1
but is never examined (the loop stops before `maxLag`), and `bestLag = 1` with the sum 0. -/
theorem analyzePitch_bestLag_counterexample :
    ⌊(2000 : ℚ) / 2000⌋₊ = 1 ∧ ⌊(2000 : ℚ) / 50⌋₊ = 40 ∧
      ((peakSearch (correlationArray [1, -1] ⌊(2000 : ℚ) / 2000⌋₊ ⌊(2000 : ℚ) / 50⌋₊)
          ⌊(2000 : ℚ) / 2000⌋₊).2 = 1 ∧
        correlationSum [1, -1] 1 = -1 ∧ correlationSum [1, -1] 2 = 0) ∧
      ((peakSearch (correlationArray echoSegment ⌊(2000 : ℚ) / 2000⌋₊ ⌊(2000 : ℚ) / 50⌋₊)
          ⌊(2000 : ℚ) / 2000⌋₊).2 = 1 ∧
        correlationSum echoSegment 1 = 0 ∧ correlationSum echoSegment 40 = 1) := by
  refine ⟨lags_2000.1, lags_2000.2, ⟨?_, ?_, ?_⟩, ?_, ?_, ?_⟩
  · rw [lags_2000.1, lags_2000.2]
    refine (peakSearch_lag [1, -1] 1 40).1 ?_
    intro lag h1 _
    rw [correlationSum_pair lag h1]
    split <;> norm_num
  · rw [correlationSum_pair 1 (le_refl _)]; rfl
  · rw [correlationSum_pair 2 (by norm_num)]; rfl
  · rw [lags_2000.1, lags_2000.2]
    refine (peakSearch_lag echoSegment 1 40).1 ?_
    intro lag h1 h2
    rw [correlationSum_echo lag h1, if_neg (by omega)]
  · rw [correlationSum_echo 1 (le_refl _)]; rfl
  · rw [correlationSum_echo 40 (by norm_num)]; rfl

/-! ## The pitch ratio -/

/-- C17: for every segment of a run over a curve with `maxY > minY`, the target and the
original octave are finite, the pitch difference used is `clamp(target - original, -2, 2)` and
the ratio passed to `simplePitchShift` is `Math.pow(2, ·)` of it; for a host whose power is
monotone and exact at `-2` and `2` the ratio lies in `[1/4, 4]`, so it is positive, non-zero
and finite, and `simplePitchShift` returns a buffer. -/
theorem pitchRatio_bounds (m : HostMath) (hm : m.PowMonotone) (audioData : List ℚ)
    (waveformData : WaveformData) (lo hi : ℚ) (hlo : minY waveformData = fin lo)
    (hhi : maxY waveformData = fin hi) (hlt : lo < hi) (k : ℕ) :
    ∃ target original ratio : ℚ,
      targetOctave waveformData k = fin target ∧
      analyzePitch m (segmentAudio audioData k) sampleRate = fin original ∧
      pitchRatio m audioData waveformData k = fin ratio ∧
      ratio = m.pow2 (Max.max (-2) (Min.min 2 (target - original))) ∧
      1 / 4 ≤ ratio ∧ ratio ≤ 4 ∧ 0 < ratio ∧
      ∃ corrected,
        simplePitchShift m (segmentAudio audioData k) (fin ratio) = some corrected := by
  obtain ⟨o, ho, -, -⟩ :=
    analyzePitch_fin m (segmentAudio audioData k) sampleRate (by unfold sampleRate; norm_num)
  have ht := targetOctave_of_bounds waveformData lo hi hlo hhi hlt k
  obtain ⟨hmono, hm2, h2⟩ := hm
  have hd1 : -2 ≤ Max.max (-2 : ℚ) (Min.min 2 ((yValue waveformData k - lo) / (hi - lo) * 8 - o)) :=
    le_max_left _ _
  have hd2 : Max.max (-2 : ℚ) (Min.min 2 ((yValue waveformData k - lo) / (hi - lo) * 8 - o)) ≤ 2 :=
    max_le (by norm_num) (min_le_left _ _)
  have hr1 : 1 / 4 ≤
      m.pow2 (Max.max (-2) (Min.min 2 ((yValue waveformData k - lo) / (hi - lo) * 8 - o))) := by
    rw [← hm2]; exact hmono hd1
  have hr2 :
      m.pow2 (Max.max (-2) (Min.min 2 ((yValue waveformData k - lo) / (hi - lo) * 8 - o))) ≤
        4 := by
    rw [← h2]; exact hmono hd2
  have hpos : 0 <
      m.pow2 (Max.max (-2) (Min.min 2 ((yValue waveformData k - lo) / (hi - lo) * 8 - o))) := by
    linarith
  refine ⟨_, o, _, ht, ho, ?_, rfl, hr1, hr2, hpos, _,
    simplePitchShift_ratio m _ _ hr1 (segmentAudio_length_le _ _)⟩
  simp only [pitchRatio, ht, ho, JSNum.sub, JSNum.neg, JSNum.add, JSNum.min, JSNum.max, mathPow2,
    ← sub_eq_add_neg]

theorem pitchRatio_bounds_witness :
    refMath.PowMonotone ∧ minY sampleCurve = fin (-1) ∧ maxY sampleCurve = fin 1 ∧
      (-1 : ℚ) < 1 ∧
      ∃ target original ratio : ℚ,
        targetOctave sampleCurve 0 = fin target ∧
        analyzePitch refMath (segmentAudio sampleAudio 0) sampleRate = fin original ∧
        pitchRatio refMath sampleAudio sampleCurve 0 = fin ratio ∧
        ratio = refMath.pow2 (Max.max (-2) (Min.min 2 (target - original))) ∧
        1 / 4 ≤ ratio ∧ ratio ≤ 4 ∧ 0 < ratio ∧
        ∃ corrected,
          simplePitchShift refMath (segmentAudio sampleAudio 0) (fin ratio) = some corrected :=
  have hlo : minY sampleCurve = fin (-1) := by
    simp only [minY, sampleCurve, mathMin, List.foldl_cons, List.foldl_nil, JSNum.min]
    norm_num
  have hhi : maxY sampleCurve = fin 1 := by
    simp only [maxY, sampleCurve, mathMax, List.foldl_cons, List.foldl_nil, JSNum.max]
    norm_num
  ⟨refMath_powMonotone, hlo, hhi, by norm_num,
    pitchRatio_bounds refMath refMath_powMonotone sampleAudio sampleCurve (-1) 1 hlo hhi
      (by norm_num) 0⟩

end AudioUtils
